import Mathlib

/-! Piece upload session (uplink/piecestore/upload.go)

A shallow embedding of the client side of the piece upload protocol:
`Upload.Write`, `Upload.Cancel` and `Upload.Commit`.

Modelling conventions.

* The stream, the signer and the hash verifier are collaborators outside the
  session.  Every call to one of them is appended to a trace of `Event`s, and
  its outcome is read from a `World`: a family of functions from the trace so
  far (and the arguments of the call) to the outcome.  Quantifying over all
  worlds quantifies over every pattern of successes and failures.
* Go `error` values are `Option Err`, `none` being `nil`.
* `int64` fields (`offset`, `allocationStep`, `Order.Amount`) are `Int`; byte
  counts stay far below `2^63`, so the arithmetic is modelled without
  wrap-around.
* `hash.Hash` is modelled by the bytes written to it so far; `Sum(nil)` is
  `World.digest` of those bytes.
* The chunking loop of `Write` is run with a bound on its number of passes
  (`fuel`); `Outcome.outOfFuel` means the loop has not left within that many
  passes.  A Go run-time panic (slice bounds out of range) is `Outcome.panicked`.
-/

namespace Piecestore

abbrev Byte := UInt8

/-! ## Errors -/

/-- The error classes of the package: `Error`, `ErrProtocol`, `ErrInternal`. -/
inductive ErrClass
  | Error
  | ErrProtocol
  | ErrInternal
  deriving DecidableEq, Repr

/-- Non-nil Go error values. `EOF` is the sentinel `io.EOF`; `other` is any error
produced by a collaborator; `text` is an error made from a message; `classed`
is an error of `errs` carrying a class; `group` is the combined error of
`errs.Combine`. -/
inductive Err
  | EOF
  | other (tag : Nat)
  | text (msg : String)
  | classed (c : ErrClass) (cause : Err)
  | group (es : List Err)

/-- Method `Wrap` of an error class (library `errs`): `nil` stays `nil`, an error that
already has this class is returned as it is, any other error gets the class. -/
def ErrClass.Wrap (c : ErrClass) : Option Err → Option Err
  | none => none
  | some (.classed c2 cause) =>
      if c2 = c then some (.classed c2 cause) else some (.classed c (.classed c2 cause))
  | some e => some (.classed c e)

/-- Method `New` of an error class (library `errs`): a fresh error of the class with
the given message. -/
def ErrClass.New (c : ErrClass) (msg : String) : Option Err :=
  some (.classed c (.text msg))

/-- Function `errs.Combine`: drops the `nil` errors; no error left gives `nil`, a single
one is returned as it is, several are returned as one group. -/
def errs.Combine (es : List (Option Err)) : Option Err :=
  match es.reduceOption with
  | [] => none
  | [e] => some e
  | e :: f :: rest => some (.group (e :: f :: rest))

/-- Modelled from the spec: the helper `ignoreEOF` of the package is not part of the
sources at hand; it is the "filter that drops a specific expected stream end
sentinel before aggregation", so `io.EOF` becomes `nil` and every other value is
returned unchanged. -/
def ignoreEOF : Option Err → Option Err
  | some .EOF => none
  | e => e

/-- Whether an error is an error of class `c` made with `New` from message `msg`. -/
def Err.isNew (c : ErrClass) (msg : String) : Option Err → Prop
  | some (.classed c2 (.text m)) => c2 = c ∧ m = msg
  | _ => False

/-- The errors an error value contains: itself when it is a single error, its members
when it is a group, nothing when it is `nil`. -/
def errs.members : Option Err → List Err
  | none => []
  | some (.group es) => es
  | some e => [e]

/-! ## Messages -/

/-- The fields of `pb.OrderLimit` the session reads. -/
structure OrderLimit where
  serialNumber : Nat
  pieceId : Nat
  deriving DecidableEq, Repr

/-- Type `pb.Order`: serial number, cumulative amount and the uplink signature. -/
structure Order where
  serialNumber : Nat
  amount : Int
  signature : List Byte
  deriving DecidableEq, Repr

/-- Type `pb.PieceHash`: piece id, digest and signature. -/
structure PieceHash where
  pieceId : Nat
  hash : List Byte
  signature : List Byte
  deriving DecidableEq, Repr

/-- Type `pb.PieceUploadRequest`, with the one field the sender has set. -/
inductive Msg
  | limit (l : OrderLimit)
  | order (o : Order)
  | chunk (offset : Int) (data : List Byte)
  | done (h : PieceHash)
  deriving DecidableEq, Repr

/-- Type `pb.PieceUploadResponse`: the field `Done` may be absent. -/
structure Response where
  done : Option PieceHash
  deriving DecidableEq, Repr

/-! ## Collaborators and the trace of their calls -/

/-- One call to a collaborator, with its arguments and its outcome. -/
inductive Event
  | signOrder (unsigned : Order) (err : Option Err)
  | send (m : Msg) (err : Option Err)
  | closeSend (err : Option Err)
  | closeAndRecv (response : Option Response) (err : Option Err)
  | signPieceHash (unsigned : PieceHash) (err : Option Err)
  | verifyPieceHash (peerHash : PieceHash) (digest : List Byte) (err : Option Err)

abbrev Trace := List Event

/-- The collaborators of a session. Each outcome may depend on everything that
happened before (the trace) and on the arguments of the call. A signer yields a
signature or an error. The growth rule `nextAllocationStep` of the client is not
part of the sources at hand and is a parameter as well. -/
structure World where
  signOrder : Trace → Order → Except Err (List Byte)
  send : Trace → Msg → Option Err
  closeSend : Trace → Option Err
  closeAndRecv : Trace → Option Response × Option Err
  signPieceHash : Trace → PieceHash → Except Err (List Byte)
  verifyPieceHash : Trace → OrderLimit → PieceHash → List Byte → Option Err
  digest : List Byte → List Byte
  nextAllocationStep : Int → Int

/-- Modelled from the spec: `signing.SignOrder` is not part of the sources at hand. The
order signer "produces a signed payment commitment" for the serial number and the
cumulative amount it is given, so the signed order is the order it was given with
the signature filled in. -/
def signedOrder (unsigned : Order) (sig : List Byte) : Order :=
  { unsigned with signature := sig }

/-- Modelled from the spec: `signing.SignPieceHash` is not part of the sources at hand.
The piece-hash signer signs the piece id and the digest it is given, so the signed
piece hash is the one it was given with the signature filled in. -/
def signedPieceHash (unsigned : PieceHash) (sig : List Byte) : PieceHash :=
  { unsigned with signature := sig }

/-! ## The session -/

/-- Type `Upload`: the mutable fields of the session and the order limit. -/
structure Upload where
  limit : OrderLimit
  hash : List Byte
  offset : Int
  allocationStep : Int
  finished : Bool
  sendError : Option Err

/-- The session as `Client.Upload` creates it. -/
def Upload.fresh (limit : OrderLimit) (initialStep : Int) : Upload :=
  { limit := limit, hash := [], offset := 0, allocationStep := initialStep,
    finished := false, sendError := none }

/-- How a call ends: it returns a value, leaving the session and the trace in a new
state, or it panics, or its loop is cut off by the bound on passes (the session and
the trace are then those reached at the cut). -/
inductive Outcome (α : Type)
  | returned (val : α) (client : Upload) (tr : Trace)
  | panicked (client : Upload) (tr : Trace)
  | outOfFuel (client : Upload) (tr : Trace)

/-- The variables of the loop of `Write`. -/
structure LoopState where
  client : Upload
  tr : Trace
  data : List Byte
  written : Nat

/-- How one pass of the loop body of `Write` ends. -/
inductive IterResult
  | next (s : LoopState)
  | exit (written : Nat) (err : Option Err) (client : Upload) (tr : Trace)
  | panic (written : Nat) (client : Upload) (tr : Trace)

/-- The chunk the loop body picks: `data[:allocationStep]` and the rest when the step
is smaller than the data, all of the data otherwise. `none` is the run-time panic
of slicing with a negative bound. -/
def pickChunk (allocationStep : Int) (data : List Byte) : Option (List Byte × List Byte) :=
  if allocationStep < (data.length : Int) then
    if allocationStep < 0 then none
    else some (data.take allocationStep.toNat, data.drop allocationStep.toNat)
  else some (data, [])

/-- The order the loop body has signed for a chunk: the serial number of the order limit
and the amount `offset + len(sendData)`. -/
def Upload.unsignedOrder (client : Upload) (sendData : List Byte) : Order :=
  { serialNumber := client.limit.serialNumber,
    amount := client.offset + (sendData.length : Int),
    signature := [] }

/-- One pass of the loop body of `Write` (entered with `len(data) > 0`). -/
def Upload.writeIter (w : World) (s : LoopState) : IterResult :=
  match pickChunk s.client.allocationStep s.data with
  | none => .panic s.written s.client s.tr
  | some (sendData, rest) =>
    let unsigned := s.client.unsignedOrder sendData
    match w.signOrder s.tr unsigned with
    | .error err =>
        .exit s.written (ErrClass.ErrInternal.Wrap (some err)) s.client
          (s.tr ++ [.signOrder unsigned (some err)])
    | .ok sig =>
      let tr1 := s.tr ++ [.signOrder unsigned none]
      let orderMsg := Msg.order (signedOrder unsigned sig)
      match w.send tr1 orderMsg with
      | some err =>
          .exit s.written (ErrClass.ErrProtocol.Wrap (some err))
            { s.client with sendError := some err } (tr1 ++ [.send orderMsg (some err)])
      | none =>
        let tr2 := tr1 ++ [.send orderMsg none]
        let chunkMsg := Msg.chunk s.client.offset sendData
        match w.send tr2 chunkMsg with
        | some err =>
            .exit s.written (ErrClass.ErrProtocol.Wrap (some err))
              { s.client with sendError := some err } (tr2 ++ [.send chunkMsg (some err)])
        | none =>
            .next
              { client :=
                  { s.client with
                    offset := s.client.offset + (sendData.length : Int),
                    allocationStep := w.nextAllocationStep s.client.allocationStep },
                tr := tr2 ++ [.send chunkMsg none],
                data := rest,
                written := s.written + sendData.length }

/-- How the loop of `Write` ends. -/
inductive LoopExit
  | returned (written : Nat) (err : Option Err) (client : Upload) (tr : Trace)
  | panicked (written : Nat) (client : Upload) (tr : Trace)
  | outOfFuel (client : Upload) (tr : Trace)

/-- The loop `for len(data) > 0 { ... }` of `Write` followed by `return written, nil`,
run for at most `fuel` passes. -/
def Upload.writeLoop (w : World) : Nat → LoopState → LoopExit
  | fuel, s =>
    if s.data.length = 0 then .returned s.written none s.client s.tr
    else
      match fuel with
      | 0 => .outOfFuel s.client s.tr
      | fuel + 1 =>
        match Upload.writeIter w s with
        | .next s2 => Upload.writeLoop w fuel s2
        | .exit written err client tr => .returned written err client tr
        | .panic written client tr => .panicked written client tr

/-- The trace with which the loop of `Write` ends. -/
def LoopExit.tr : LoopExit → Trace
  | .returned _ _ _ t => t
  | .panicked _ _ t => t
  | .outOfFuel _ t => t

/-- The deferred call of `Write`: `client.hash.Write(fullData[:written])`. -/
def Upload.hashWritten (client : Upload) (fullData : List Byte) (written : Nat) : Upload :=
  { client with hash := client.hash ++ fullData.take written }

/-- Method `Write`: the two guards, then the loop; the deferred hashing runs when the
loop is left, by return or by panic. -/
def Upload.Write (w : World) (fuel : Nat) (client : Upload) (tr : Trace) (data : List Byte) :
    Outcome (Nat × Option Err) :=
  if client.finished then .returned (0, some .EOF) client tr
  else
    match client.sendError with
    | some e => .returned (0, ErrClass.ErrProtocol.Wrap (some e)) client tr
    | none =>
      match Upload.writeLoop w fuel { client := client, tr := tr, data := data, written := 0 } with
      | .returned written err c tr2 => .returned (written, err) (c.hashWritten data written) tr2
      | .panicked written c tr2 => .panicked (c.hashWritten data written) tr2
      | .outOfFuel c tr2 => .outOfFuel c tr2

/-- What `Cancel` and `Commit` give back: the returned value, the session and the trace. -/
structure Ret (α : Type) where
  val : α
  client : Upload
  tr : Trace

/-- Method `Cancel`. -/
def Upload.Cancel (w : World) (client : Upload) (tr : Trace) : Ret (Option Err) :=
  if client.finished then { val := some .EOF, client := client, tr := tr }
  else
    let closeErr := w.closeSend tr
    { val := ErrClass.Error.Wrap closeErr,
      client := { client with finished := true },
      tr := tr ++ [.closeSend closeErr] }

/-- The piece hash `Commit` has signed: the piece id of the order limit and the digest
`client.hash.Sum(nil)` of the bytes hashed so far. -/
def Upload.unsignedHash (w : World) (client : Upload) : PieceHash :=
  { pieceId := client.limit.pieceId, hash := w.digest client.hash, signature := [] }

/-- The trace at the moment `Commit` calls `CloseAndRecv` for the response: the trace
`tr1` after the signing, then the `Send` of the completion message. -/
def sentDone (w : World) (tr1 : Trace) (uplinkHash : PieceHash) : Trace :=
  tr1 ++ [.send (.done uplinkHash) (w.send tr1 (.done uplinkHash))]

/-- The trace once `Commit` has the response: `sentDone`, then the `CloseAndRecv`. -/
def receivedDone (w : World) (tr1 : Trace) (uplinkHash : PieceHash) : Trace :=
  sentDone w tr1 uplinkHash ++
    [.closeAndRecv (w.closeAndRecv (sentDone w tr1 uplinkHash)).1
      (w.closeAndRecv (sentDone w tr1 uplinkHash)).2]

/-- The last part of `Commit`, "exchange signed piece hashes", entered with the signed
hash `uplinkHash` and the trace `tr1` after the signing. -/
def Upload.commitExchange (w : World) (client : Upload) (tr1 : Trace) (uplinkHash : PieceHash) :
    Ret (Option PieceHash × Option Err) :=
  match (w.closeAndRecv (sentDone w tr1 uplinkHash)).1.bind Response.done with
  | none =>
      { val := (none, errs.Combine
          [ErrClass.ErrProtocol.New "expected piece hash",
           ignoreEOF (w.send tr1 (.done uplinkHash)),
           ignoreEOF (w.closeAndRecv (sentDone w tr1 uplinkHash)).2]),
        client := client,
        tr := receivedDone w tr1 uplinkHash }
  | some peerHash =>
      { val := (some peerHash, errs.Combine
          [w.verifyPieceHash (receivedDone w tr1 uplinkHash) client.limit peerHash uplinkHash.hash,
           ignoreEOF (w.send tr1 (.done uplinkHash)),
           ignoreEOF (w.closeAndRecv (sentDone w tr1 uplinkHash)).2]),
        client := client,
        tr := receivedDone w tr1 uplinkHash ++
          [.verifyPieceHash peerHash uplinkHash.hash
            (w.verifyPieceHash (receivedDone w tr1 uplinkHash) client.limit peerHash
              uplinkHash.hash)] }

/-- Method `Commit`: the guard, the path of a stored send error, the signing of the piece
hash, and the exchange of the signed hashes. -/
def Upload.Commit (w : World) (client : Upload) (tr : Trace) :
    Ret (Option PieceHash × Option Err) :=
  if client.finished then { val := (none, some .EOF), client := client, tr := tr }
  else
    match client.sendError with
    | some _ =>
        { val := (none, ErrClass.Error.Wrap (w.closeAndRecv tr).2),
          client := { client with finished := true },
          tr := tr ++ [.closeAndRecv (w.closeAndRecv tr).1 (w.closeAndRecv tr).2] }
    | none =>
      match w.signPieceHash tr (client.unsignedHash w) with
      | .error err =>
          { val := (none, ErrClass.Error.Wrap (errs.Combine
              [some err,
               ignoreEOF (w.closeSend (tr ++ [.signPieceHash (client.unsignedHash w) (some err)]))])),
            client := { client with finished := true },
            tr := tr ++ [.signPieceHash (client.unsignedHash w) (some err),
              .closeSend (w.closeSend (tr ++ [.signPieceHash (client.unsignedHash w) (some err)]))] }
      | .ok sig =>
          Upload.commitExchange w { client with finished := true }
            (tr ++ [.signPieceHash (client.unsignedHash w) none])
            (signedPieceHash (client.unsignedHash w) sig)

/-! ## Sequences of calls -/

/-- One call on the session; a `Write` comes with the bound on the passes of its loop. -/
inductive Call
  | write (fuel : Nat) (data : List Byte)
  | cancel
  | commit

/-- What a call returned. -/
inductive CallRet
  | write (n : Nat) (err : Option Err)
  | cancel (err : Option Err)
  | commit (hash : Option PieceHash) (err : Option Err)

/-- One call on the session. -/
def Upload.call (w : World) (client : Upload) (tr : Trace) : Call → Outcome CallRet
  | .write fuel data =>
      match client.Write w fuel tr data with
      | .returned (n, err) c t => .returned (.write n err) c t
      | .panicked c t => .panicked c t
      | .outOfFuel c t => .outOfFuel c t
  | .cancel =>
      let r := client.Cancel w tr
      .returned (.cancel r.val) r.client r.tr
  | .commit =>
      let r := client.Commit w tr
      .returned (.commit r.val.1 r.val.2) r.client r.tr

/-- A sequence of calls, one after the other on the same session; the value is the log
of the calls with what each returned. The sequence stops at a call that does not
return. -/
def Upload.run (w : World) : List Call → Upload → Trace → Outcome (List (Call × CallRet))
  | [], client, tr => .returned [] client tr
  | c :: cs, client, tr =>
      match client.call w tr c with
      | .returned r client2 tr2 =>
          match Upload.run w cs client2 tr2 with
          | .returned log client3 tr3 => .returned ((c, r) :: log) client3 tr3
          | .panicked client3 tr3 => .panicked client3 tr3
          | .outOfFuel client3 tr3 => .outOfFuel client3 tr3
      | .panicked client2 tr2 => .panicked client2 tr2
      | .outOfFuel client2 tr2 => .outOfFuel client2 tr2

/-- The session in which a call ended. -/
def Outcome.client {α : Type} : Outcome α → Upload
  | .returned _ c _ => c
  | .panicked c _ => c
  | .outOfFuel c _ => c

/-- The trace with which a call ended. -/
def Outcome.tr {α : Type} : Outcome α → Trace
  | .returned _ _ t => t
  | .panicked _ t => t
  | .outOfFuel _ t => t

/-! ## Reading a trace -/

/-- The message of a call to `Send`, whatever its outcome. -/
def Event.msg? : Event → Option Msg
  | .send m _ => some m
  | _ => none

/-- The messages passed to `Send`, in order. -/
def msgs (tr : Trace) : List Msg := tr.filterMap Event.msg?

/-- Offset and payload of a chunk message. -/
def Msg.chunk? : Msg → Option (Int × List Byte)
  | .chunk off d => some (off, d)
  | _ => none

/-- The chunk messages passed to `Send`, in order, as pairs of offset and payload. -/
def chunkMsgs (tr : Trace) : List (Int × List Byte) := (msgs tr).filterMap Msg.chunk?

/-- Offset and payload of a chunk message whose `Send` returned `nil`. -/
def Event.sentChunk? : Event → Option (Int × List Byte)
  | .send (.chunk off d) none => some (off, d)
  | _ => none

/-- The chunk messages sent successfully, in order. -/
def sentChunks (tr : Trace) : List (Int × List Byte) := tr.filterMap Event.sentChunk?

/-- The message of a call to `Send` that returned `nil`. -/
def Event.sentMsg? : Event → Option Msg
  | .send m none => some m
  | _ => none

/-- The messages sent successfully, in order. -/
def sentMsgs (tr : Trace) : List Msg := tr.filterMap Event.sentMsg?

/-- The payloads of a list of chunks, concatenated. -/
def payload (cs : List (Int × List Byte)) : List Byte := (cs.map Prod.snd).flatten

/-- Whether an event is a call to a signer. -/
def Event.isSigning : Event → Bool
  | .signOrder _ _ => true
  | .signPieceHash _ _ => true
  | _ => false

/-- Whether an event is a call to `Send`. -/
def Event.isSend : Event → Bool
  | .send _ _ => true
  | _ => false

/-- Whether an event is a call to `CloseAndRecv`. -/
def Event.isCloseAndRecv : Event → Bool
  | .closeAndRecv _ _ => true
  | _ => false

/-- Whether an event is a close of the stream: `CloseSend` or `CloseAndRecv`. -/
def Event.isClose : Event → Bool
  | .closeSend _ => true
  | .closeAndRecv _ _ => true
  | _ => false

/-- Whether an event is the `Send` of a completion (`Done`) message. -/
def Event.isDone : Event → Bool
  | .send (.done _) _ => true
  | _ => false

/-- The order of the stream operations in a trace: no `Send` comes after a close; there is
at most one close; at most one completion message is sent; and no `Send` (so no
order and no chunk) comes after the `Send` of the completion message. -/
def StreamOrder (tr : Trace) : Prop :=
  tr.Pairwise (fun a b => a.isClose = true → b.isSend = false) ∧
  tr.countP Event.isClose ≤ 1 ∧
  tr.countP Event.isDone ≤ 1 ∧
  tr.Pairwise (fun a b => a.isDone = true → b.isSend = false)

/-- The invariant behind `StreamOrder`: while the session is not finished the trace has no
close and no completion message. -/
def CloseInv (client : Upload) (tr : Trace) : Prop :=
  (client.finished = false → ∀ e ∈ tr, e.isClose = false ∧ e.isDone = false) ∧
  StreamOrder tr

/-- Chunks are contiguous from `start`: the first offset is `start` and each later offset
is the offset of the chunk before plus the length of that chunk. -/
def Contiguous (start : Int) : List (Int × List Byte) → Prop
  | [] => True
  | c :: cs => c.1 = start ∧ Contiguous (start + (c.2.length : Int)) cs

/-- Contiguity read by position: the first chunk has the offset `start`, and each later
chunk has the offset of the chunk before it plus the length of that chunk. -/
def InSequence (start : Int) (cs : List (Int × List Byte)) : Prop :=
  (∀ c, cs[0]? = some c → c.1 = start) ∧
  ∀ i c d, cs[i]? = some c → cs[i + 1]? = some d → d.1 = c.1 + (c.2.length : Int)

/-- The offset reached after chunks that start at `start`: `start` plus their lengths. -/
def endOffset (start : Int) : List (Int × List Byte) → Int
  | [] => start
  | c :: cs => endOffset (start + (c.2.length : Int)) cs

/-- Every signing of an order and every `Send` succeeds, whatever happened before. -/
def World.allSucceed (w : World) : Prop :=
  (∀ tr o, ∃ sig, w.signOrder tr o = .ok sig) ∧ ∀ tr m, w.send tr m = none

/-- The chunk messages of the trace are contiguous from `start`, and as long as no send
error is stored they end at the offset of the session. -/
def ChunkInv (start : Int) (client : Upload) (tr : Trace) : Prop :=
  Contiguous start (chunkMsgs tr) ∧
  (client.sendError = none → endOffset start (chunkMsgs tr) = client.offset)

/-- Every chunk message is immediately preceded by an order message for the serial number
`sn` whose amount is the offset of the chunk plus its length. -/
def OrderBeforeChunk (sn : Nat) (ms : List Msg) : Prop :=
  ∀ i off d, ms[i]? = some (.chunk off d) →
    ∃ o, 0 < i ∧ ms[i - 1]? = some (.order o) ∧
      o.amount = off + (d.length : Int) ∧ o.serialNumber = sn

/-- Among the orders that are followed by a chunk, a later one has an amount at least as
large as an earlier one, and larger when its chunk is not empty. -/
def AmountsOrdered (ms : List Msg) : Prop :=
  ∀ i j o o2 off d off2 d2, i < j →
    ms[i]? = some (.order o) → ms[i + 1]? = some (.chunk off d) →
    ms[j]? = some (.order o2) → ms[j + 1]? = some (.chunk off2 d2) →
    o.amount ≤ o2.amount ∧ (d2 ≠ [] → o.amount < o2.amount)

/-- The amount of every order that is followed by a chunk is at most `bound`. -/
def AmountsBounded (bound : Int) (ms : List Msg) : Prop :=
  ∀ i o off d, ms[i]? = some (.order o) → ms[i + 1]? = some (.chunk off d) → o.amount ≤ bound

/-- The invariant behind the order of orders and chunks: the session keeps its serial
number, the chunks are contiguous, every chunk follows its order, and the amounts of
the orders grow up to the end of the chunks. -/
def OrderInv (sn : Nat) (start : Int) (client : Upload) (tr : Trace) : Prop :=
  client.limit.serialNumber = sn ∧ ChunkInv start client tr ∧
  OrderBeforeChunk sn (msgs tr) ∧ AmountsOrdered (msgs tr) ∧
  AmountsBounded (endOffset start (chunkMsgs tr)) (msgs tr)

/-- The counts returned by the `Write` calls of a log, added up. -/
def writtenTotal : List (Call × CallRet) → Nat
  | [] => 0
  | (_, .write n _) :: rest => n + writtenTotal rest
  | _ :: rest => writtenTotal rest

/-- The bytes accepted by the `Write` calls of a log: `data[:n]` for each call with data
`data` that returned the count `n`, in the order of the calls. -/
def accepted : List (Call × CallRet) → List Byte
  | [] => []
  | (.write _ data, .write n _) :: rest => data.take n ++ accepted rest
  | _ :: rest => accepted rest

/-- The bytes offered to the `Write` calls of a log, in the order of the calls. -/
def offered : List (Call × CallRet) → List Byte
  | [] => []
  | (.write _ data, _) :: rest => data ++ offered rest
  | _ :: rest => offered rest

/-- Every `Write` call of the log returned a `nil` error. -/
def allWritesOk : List (Call × CallRet) → Prop
  | [] => True
  | (_, .write _ err) :: rest => err = none ∧ allWritesOk rest
  | _ :: rest => allWritesOk rest

/-- The invariant of the messages sent successfully: the chunks among them are contiguous
and end at the offset of the session, every chunk follows its order, and the amounts
of the orders grow up to the offset. -/
def SentInv (sn : Nat) (start : Int) (client : Upload) (tr : Trace) : Prop :=
  client.limit.serialNumber = sn ∧
  Contiguous start (sentChunks tr) ∧ endOffset start (sentChunks tr) = client.offset ∧
  OrderBeforeChunk sn (sentMsgs tr) ∧ AmountsOrdered (sentMsgs tr) ∧
  AmountsBounded client.offset (sentMsgs tr)

/-- An error value contains the error `e`: it is `e`, or it is a group of which `e` is a
member. -/
def errs.contains (r : Option Err) (e : Err) : Prop :=
  r = some e ∨ ∃ es, r = some (.group es) ∧ e ∈ es

/-- The error of the `Send` of the completion message in `Commit`, after a signing that
gave the signature `sig`. -/
def Upload.commitSendErr (w : World) (client : Upload) (tr : Trace) (sig : List Byte) :
    Option Err :=
  w.send (tr ++ [.signPieceHash (client.unsignedHash w) none])
    (.done (signedPieceHash (client.unsignedHash w) sig))

/-- The response and the error of the `CloseAndRecv` in `Commit`, after a signing that
gave the signature `sig`. -/
def Upload.commitResponse (w : World) (client : Upload) (tr : Trace) (sig : List Byte) :
    Option Response × Option Err :=
  w.closeAndRecv (sentDone w (tr ++ [.signPieceHash (client.unsignedHash w) none])
    (signedPieceHash (client.unsignedHash w) sig))

/-- The error of the verification of the hash `peerHash` of the peer in `Commit`, after a
signing that gave the signature `sig`. -/
def Upload.commitVerifyErr (w : World) (client : Upload) (tr : Trace) (sig : List Byte)
    (peerHash : PieceHash) : Option Err :=
  w.verifyPieceHash
    (receivedDone w (tr ++ [.signPieceHash (client.unsignedHash w) none])
      (signedPieceHash (client.unsignedHash w) sig))
    client.limit peerHash (signedPieceHash (client.unsignedHash w) sig).hash

/-- Modelled from the spec: the growth rule `nextAllocationStep` of the client is not part
of the sources at hand. Of the growth rule "only monotonic non-decrease is required
for correctness": it never returns less than the step it is given. -/
def World.growthNonDecreasing (w : World) : Prop :=
  ∀ s, s ≤ w.nextAllocationStep s

/-- The sizes of the chunks of one `Write`, the `i`-th of them cut with the step
`next^[i] step0`: no chunk is longer than its step; a chunk cut with a positive step
is not empty; and every chunk but the last has exactly the length of its step. -/
def ChunkSizes (next : Int → Int) (step0 : Int) (cs : List (Int × List Byte)) : Prop :=
  ∀ i c, cs[i]? = some c →
    (c.2.length : Int) ≤ (next^[i]) step0 ∧
    (0 < (next^[i]) step0 → 1 ≤ c.2.length) ∧
    (i + 1 < cs.length → (c.2.length : Int) = (next^[i]) step0)

/-! ## Worlds used as concrete inputs -/

/-- The peer hash the sample worlds answer with. -/
def samplePeerHash : PieceHash := { pieceId := 1, hash := [9], signature := [5] }

/-- A world in which every call succeeds: the stream accepts every message and answers
with `samplePeerHash`, the verifier accepts, and the step grows by half. -/
def World.ok : World :=
  { signOrder := fun _ _ => .ok [1],
    send := fun _ _ => none,
    closeSend := fun _ => none,
    closeAndRecv := fun _ => (some { done := some samplePeerHash }, none),
    signPieceHash := fun _ _ => .ok [2],
    verifyPieceHash := fun _ _ _ _ => none,
    digest := fun bs => bs,
    nextAllocationStep := fun s => s * 3 / 2 }

/-- A world like `World.ok` in which the signing of an order fails while nothing has
happened yet. -/
def World.signFailsFirst : World :=
  { World.ok with
    signOrder := fun tr _ => if tr.length = 0 then .error (.other 7) else .ok [1] }

/-- A world like `World.ok` in which every `Send` of a chunk message fails. -/
def World.chunkSendFails : World :=
  { World.ok with
    send := fun _ m => match m with
      | .chunk _ _ => some (.other 3)
      | _ => none }

/-- A world like `World.ok` in which the `Send` of a chunk fails unless its offset is 0. -/
def World.laterChunksFail : World :=
  { World.ok with
    send := fun _ m => match m with
      | .chunk off _ => if off = 0 then none else some (.other 3)
      | _ => none }

/-- A world like `World.ok` in which the peer closes without a response. -/
def World.noResponse : World :=
  { World.ok with closeAndRecv := fun _ => (none, none) }

/-- A world like `World.ok` in which the verifier rejects. -/
def World.verifyFails : World :=
  { World.ok with verifyPieceHash := fun _ _ _ _ => some (.other 4) }

/-- A world like `World.ok` in which the completion `Send` fails, the stream closes with
`io.EOF` and the verifier rejects. -/
def World.commitFails : World :=
  { World.ok with
    send := fun _ m => match m with
      | .done _ => some (.other 5)
      | _ => none
    closeAndRecv := fun _ => (some { done := some samplePeerHash }, some .EOF)
    verifyPieceHash := fun _ _ _ _ => some (.other 4) }

/-- A world like `World.ok` in which the step doubles (and a negative step stays). -/
def World.doubling : World :=
  { World.ok with nextAllocationStep := fun s => max s (2 * s) }

/-- A world like `World.ok` in which the step grows by half, never decreases and never
goes below 1. -/
def World.growsByHalf : World :=
  { World.ok with nextAllocationStep := fun s => max (max 1 s) (s * 3 / 2) }

/-- A world like `World.ok` in which the growth rule always returns 0. -/
def World.stuckAtZero : World :=
  { World.ok with nextAllocationStep := fun _ => 0 }

/-- A world like `World.ok` in which every `Send` of an order fails. -/
def World.orderSendFails : World :=
  { World.ok with
    send := fun _ m => match m with
      | .order _ => some (.other 6)
      | _ => none }

/-- A world like `World.ok` in which the `Send` of an order succeeds only while at most
one call has been made, that is for the first order of a fresh session. -/
def World.laterOrdersFail : World :=
  { World.ok with
    send := fun tr m => match m with
      | .order _ => if tr.length ≤ 1 then none else some (.other 6)
      | _ => none }

/-- A session on piece 1 with serial number 1. -/
def sampleLimit : OrderLimit := { serialNumber := 1, pieceId := 1 }

/-- A finished session. -/
def sampleFinished : Upload := { Upload.fresh sampleLimit 4 with finished := true }

/-- The trace left by a `Write` of one byte whose order signing fails at once. -/
def sampleSignFailTrace : Trace :=
  [.signOrder { serialNumber := 1, amount := 1, signature := [] } (some (.other 7))]

/-- The session left by a `Write` whose chunk `Send` failed with `Err.other 3`. -/
def sampleStuck : Upload := { Upload.fresh sampleLimit 4 with sendError := some (.other 3) }

/-- The trace left by a `Write` of the byte 7 whose chunk `Send` failed with `Err.other 3`. -/
def sampleStuckTrace : Trace :=
  [.signOrder { serialNumber := 1, amount := 1, signature := [] } none,
   .send (.order { serialNumber := 1, amount := 1, signature := [1] }) none,
   .send (.chunk 0 [7]) (some (.other 3))]

/-- The session left by a `Write` of five bytes with step 2 whose second chunk failed. -/
def samplePartial : Upload :=
  { Upload.fresh sampleLimit 2 with
    hash := [1, 2], offset := 2, allocationStep := 3, sendError := some (.other 3) }

/-- The events of a `Write` of five bytes with step 2 whose second chunk failed. -/
def samplePartialTrace : Trace :=
  [.signOrder { serialNumber := 1, amount := 2, signature := [] } none,
   .send (.order { serialNumber := 1, amount := 2, signature := [1] }) none,
   .send (.chunk 0 [1, 2]) none,
   .signOrder { serialNumber := 1, amount := 5, signature := [] } none,
   .send (.order { serialNumber := 1, amount := 5, signature := [1] }) none,
   .send (.chunk 2 [3, 4, 5]) (some (.other 3))]

/-! # Properties -/

/-! ## Rejected calls: finished sessions and the sticky error -/

/-- C2. The finished state is absorbing: on a session whose `finished` flag is set,
`Write` returns `(0, io.EOF)` for every input, `Cancel` returns `io.EOF` and `Commit`
returns `(nil, io.EOF)`; each of them leaves the session (offset, allocation step,
hashed bytes, sticky error, finished) as it was and adds nothing to the trace, so no
`Send`, `CloseSend`, `CloseAndRecv` or signing takes place. -/
theorem finished_is_absorbing (w : World) (client : Upload) (tr : Trace)
    (hfin : client.finished = true) :
    (∀ fuel data, client.Write w fuel tr data = .returned (0, some .EOF) client tr) ∧
    client.Cancel w tr = { val := some .EOF, client := client, tr := tr } ∧
    client.Commit w tr = { val := (none, some .EOF), client := client, tr := tr } := by
  refine ⟨?_, ?_, ?_⟩
  · intro fuel data
    simp [Upload.Write, hfin]
  · simp [Upload.Cancel, hfin]
  · simp [Upload.Commit, hfin]

/-- Instance of `finished_is_absorbing`: a finished session in a world where every call
would succeed. -/
theorem finished_is_absorbing_witness :
    sampleFinished.finished = true ∧
    ((∀ fuel data,
        sampleFinished.Write World.ok fuel [] data
          = .returned (0, some .EOF) sampleFinished []) ∧
      sampleFinished.Cancel World.ok []
        = { val := some .EOF, client := sampleFinished, tr := [] } ∧
      sampleFinished.Commit World.ok []
        = { val := (none, some .EOF), client := sampleFinished, tr := [] }) :=
  ⟨rfl, finished_is_absorbing World.ok sampleFinished [] rfl⟩

/-! ## The loop of `Write`, pass by pass -/

/-- The ways one pass of the loop body can end: the slicing panics; the signing of the
order fails; the `Send` of the order fails; the `Send` of the chunk fails; or order and
chunk are sent and the loop goes on with the rest of the data. -/
theorem writeIter_cases (w : World) (s : LoopState) :
    (pickChunk s.client.allocationStep s.data = none ∧
      Upload.writeIter w s = .panic s.written s.client s.tr) ∨
    ∃ sendData rest, pickChunk s.client.allocationStep s.data = some (sendData, rest) ∧
      ((∃ err, Upload.writeIter w s =
          .exit s.written (ErrClass.ErrInternal.Wrap (some err)) s.client
            (s.tr ++ [.signOrder (s.client.unsignedOrder sendData) (some err)])) ∨
       (∃ sig err, Upload.writeIter w s =
          .exit s.written (ErrClass.ErrProtocol.Wrap (some err))
            { s.client with sendError := some err }
            (s.tr ++ [.signOrder (s.client.unsignedOrder sendData) none,
                      .send (.order (signedOrder (s.client.unsignedOrder sendData) sig))
                        (some err)])) ∨
       (∃ sig err, Upload.writeIter w s =
          .exit s.written (ErrClass.ErrProtocol.Wrap (some err))
            { s.client with sendError := some err }
            (s.tr ++ [.signOrder (s.client.unsignedOrder sendData) none,
                      .send (.order (signedOrder (s.client.unsignedOrder sendData) sig)) none,
                      .send (.chunk s.client.offset sendData) (some err)])) ∨
       (∃ sig, Upload.writeIter w s =
          .next
            { client :=
                { s.client with
                  offset := s.client.offset + (sendData.length : Int),
                  allocationStep := w.nextAllocationStep s.client.allocationStep },
              tr := s.tr ++ [.signOrder (s.client.unsignedOrder sendData) none,
                      .send (.order (signedOrder (s.client.unsignedOrder sendData) sig)) none,
                      .send (.chunk s.client.offset sendData) none],
              data := rest,
              written := s.written + sendData.length })) := by
  unfold Upload.writeIter
  cases hp : pickChunk s.client.allocationStep s.data with
  | none => left; simp
  | some p =>
    obtain ⟨sendData, rest⟩ := p
    right
    refine ⟨sendData, rest, rfl, ?_⟩
    simp only
    cases hs : w.signOrder s.tr (s.client.unsignedOrder sendData) with
    | error err => left; exact ⟨err, rfl⟩
    | ok sig =>
      right
      simp only
      cases ho : w.send (s.tr ++ [.signOrder (s.client.unsignedOrder sendData) none])
          (.order (signedOrder (s.client.unsignedOrder sendData) sig)) with
      | some err => left; exact ⟨sig, err, by simp⟩
      | none =>
        right
        simp only
        cases hc : w.send (s.tr ++ [.signOrder (s.client.unsignedOrder sendData) none] ++
            [.send (.order (signedOrder (s.client.unsignedOrder sendData) sig)) none])
            (.chunk s.client.offset sendData) with
        | some err => left; exact ⟨sig, err, by simp⟩
        | none => right; exact ⟨sig, by simp⟩

/-- Induction over the passes of the loop of `Write`: a property of the loop variables that
every pass keeps, and that gives `Q` wherever the loop is left, gives `Q` of the way
the loop ends. -/
theorem writeLoop_induct (w : World) (P : LoopState → Prop) (Q : LoopExit → Prop)
    (hdone : ∀ s, P s → s.data.length = 0 → Q (.returned s.written none s.client s.tr))
    (hcut : ∀ s, P s → s.data.length ≠ 0 → Q (.outOfFuel s.client s.tr))
    (hnext : ∀ s s2, P s → s.data.length ≠ 0 → Upload.writeIter w s = .next s2 → P s2)
    (hexit : ∀ s n err c t, P s → s.data.length ≠ 0 →
      Upload.writeIter w s = .exit n err c t → Q (.returned n err c t))
    (hpanic : ∀ s n c t, P s → s.data.length ≠ 0 →
      Upload.writeIter w s = .panic n c t → Q (.panicked n c t)) :
    ∀ fuel s, P s → Q (Upload.writeLoop w fuel s) := by
  intro fuel
  induction fuel with
  | zero =>
    intro s hs
    unfold Upload.writeLoop
    by_cases hd : s.data.length = 0
    · simp only [hd, if_true]; exact hdone s hs hd
    · simp only [hd, if_false]; exact hcut s hs hd
  | succ fuel ih =>
    intro s hs
    unfold Upload.writeLoop
    by_cases hd : s.data.length = 0
    · simp only [hd, if_true]; exact hdone s hs hd
    · simp only [hd, if_false]
      cases hi : Upload.writeIter w s with
      | next s2 => exact ih s2 (hnext s s2 hs hd hi)
      | exit n err c t => exact hexit s n err c t hs hd hi
      | panic n c t => exact hpanic s n c t hs hd hi

/-- Wrapping a non-nil error gives a non-nil error. -/
theorem ErrClass.Wrap_some_ne_none (c : ErrClass) (e : Err) : c.Wrap (some e) ≠ none := by
  cases e <;> simp [ErrClass.Wrap]
  split <;> simp

/-- Wrapping gives `nil` only for `nil`. -/
theorem ErrClass.Wrap_eq_none_iff (c : ErrClass) (e : Option Err) : c.Wrap e = none ↔ e = none := by
  cases e with
  | none => simp [ErrClass.Wrap]
  | some e => simp [ErrClass.Wrap_some_ne_none]

/-- The error with which the loop of `Write` is left on an open session: none and nothing
stored; or the stored send error, wrapped; or a wrapped signing error, with nothing
stored and the failed signing as the last event. -/
theorem writeLoop_error_cases (w : World) (fuel : Nat) (s : LoopState)
    (hfin : s.client.finished = false) (hse : s.client.sendError = none) :
    match Upload.writeLoop w fuel s with
    | .returned _ err c t =>
        c.finished = false ∧
        ((err = none ∧ c.sendError = none) ∨
         (∃ e0, c.sendError = some e0 ∧ err = ErrClass.ErrProtocol.Wrap (some e0)) ∨
         (c.sendError = none ∧ ∃ o es, err = ErrClass.ErrInternal.Wrap (some es) ∧
            t.getLast? = some (.signOrder o (some es))))
    | _ => True := by
  refine writeLoop_induct w (fun s => s.client.finished = false ∧ s.client.sendError = none)
    (fun x => match x with
      | .returned _ err c t =>
        c.finished = false ∧
        ((err = none ∧ c.sendError = none) ∨
         (∃ e0, c.sendError = some e0 ∧ err = ErrClass.ErrProtocol.Wrap (some e0)) ∨
         (c.sendError = none ∧ ∃ o es, err = ErrClass.ErrInternal.Wrap (some es) ∧
            t.getLast? = some (.signOrder o (some es))))
      | _ => True) ?_ ?_ ?_ ?_ ?_ fuel s ⟨hfin, hse⟩
  · intro s hs _
    exact ⟨hs.1, Or.inl ⟨rfl, hs.2⟩⟩
  · intro s _ _
    trivial
  · intro s s2 hs _ hi
    rcases writeIter_cases w s with ⟨_, h⟩ | ⟨sd, rest, _, ⟨err, h⟩ | ⟨sig, err, h⟩ | ⟨sig, err, h⟩ | ⟨sig, h⟩⟩ <;>
      rw [h] at hi <;> cases hi
    exact hs
  · intro s n err c t hs _ hi
    rcases writeIter_cases w s with ⟨_, h⟩ | ⟨sd, rest, _, ⟨e, h⟩ | ⟨sig, e, h⟩ | ⟨sig, e, h⟩ | ⟨sig, h⟩⟩ <;>
      rw [h] at hi <;> cases hi
    · exact ⟨hs.1, Or.inr (Or.inr ⟨hs.2, s.client.unsignedOrder sd, e, rfl, by simp⟩)⟩
    · exact ⟨hs.1, Or.inr (Or.inl ⟨e, rfl, rfl⟩)⟩
    · exact ⟨hs.1, Or.inr (Or.inl ⟨e, rfl, rfl⟩)⟩
  · intro s n c t _ _ _
    trivial

/-- A session that is finished or holds a send error rejects every sequence of `Write`
calls: each returns 0 and the same error, and session and trace stay as they are. -/
theorem run_writes_rejected (w : World) (client : Upload) (tr : Trace) (e : Err)
    (h : ∀ fuel data, client.Write w fuel tr data = .returned (0, some e) client tr)
    (later : List (Nat × List Byte)) :
    client.run w (later.map fun p => Call.write p.1 p.2) tr
      = .returned (later.map fun p => (Call.write p.1 p.2, CallRet.write 0 (some e)))
          client tr := by
  induction later with
  | nil => rfl
  | cons p ps ih =>
    simp only [List.map_cons, Upload.run, Upload.call, h p.1 p.2]
    rw [ih]

/-- A session that is finished or holds a send error stays as it is under every sequence
of calls: each call returns; every `Write` returns 0 bytes and the stored error,
wrapped, or `io.EOF`; offset, allocation step, hashed bytes and stored error do not
change; and no `Send` and no signing is added to the trace. -/
theorem stuck_run (w : World) (calls : List Call) (c : Upload) (t : Trace) (e : Err)
    (hst : c.finished = true ∨
      ∃ e0, c.sendError = some e0 ∧ some e = ErrClass.ErrProtocol.Wrap (some e0)) :
    ∃ log c3 new, c.run w calls t = .returned log c3 (t ++ new) ∧
      c3.offset = c.offset ∧ c3.allocationStep = c.allocationStep ∧ c3.hash = c.hash ∧
      c3.sendError = c.sendError ∧
      (∀ ev ∈ new, ev.isSend = false ∧ ev.isSigning = false) ∧
      ∀ x ∈ log, ∀ n err, x.2 = .write n err → n = 0 ∧ (err = some e ∨ err = some .EOF) := by
  induction calls generalizing c t with
  | nil => exact ⟨[], c, [], by simp [Upload.run], rfl, rfl, rfl, rfl, by simp, by simp⟩
  | cons call cs ih =>
    by_cases hfin : c.finished = true
    · -- a finished session: nothing changes
      obtain ⟨log, c3, new, hrun, h1, h2, h3, h4, h5, h6⟩ := ih c t (Or.inl hfin)
      cases call with
      | write f d =>
        refine ⟨(.write f d, .write 0 (some .EOF)) :: log, c3, new, ?_, h1, h2, h3, h4, h5, ?_⟩
        · simp only [Upload.run, Upload.call, Upload.Write, hfin, if_true, hrun]
        · intro x hx n err hxe
          rcases List.mem_cons.mp hx with hx | hx
          · subst hx
            cases hxe
            exact ⟨rfl, Or.inr rfl⟩
          · exact h6 x hx n err hxe
      | cancel =>
        refine ⟨(.cancel, .cancel (some .EOF)) :: log, c3, new, ?_, h1, h2, h3, h4, h5, ?_⟩
        · simp only [Upload.run, Upload.call, Upload.Cancel, hfin, if_true, hrun]
        · intro x hx n err hxe
          rcases List.mem_cons.mp hx with hx | hx
          · subst hx
            cases hxe
          · exact h6 x hx n err hxe
      | commit =>
        refine ⟨(.commit, .commit none (some .EOF)) :: log, c3, new, ?_, h1, h2, h3, h4, h5, ?_⟩
        · simp only [Upload.run, Upload.call, Upload.Commit, hfin, if_true, hrun]
        · intro x hx n err hxe
          rcases List.mem_cons.mp hx with hx | hx
          · subst hx
            cases hxe
          · exact h6 x hx n err hxe
    · -- an unfinished session that holds a send error
      have hfin2 : c.finished = false := by simpa using hfin
      obtain ⟨e0, hse, he⟩ : ∃ e0, c.sendError = some e0 ∧
          some e = ErrClass.ErrProtocol.Wrap (some e0) := by
        rcases hst with h | h
        · exact absurd h hfin
        · exact h
      cases call with
      | write f d =>
        obtain ⟨log, c3, new, hrun, h1, h2, h3, h4, h5, h6⟩ := ih c t hst
        refine ⟨(.write f d, .write 0 (some e)) :: log, c3, new, ?_, h1, h2, h3, h4, h5, ?_⟩
        · simp only [Upload.run, Upload.call, Upload.Write, hfin2, hse, ← he,
            Bool.false_eq_true, if_false, hrun]
        · intro x hx n err hxe
          rcases List.mem_cons.mp hx with hx | hx
          · subst hx
            cases hxe
            exact ⟨rfl, Or.inl rfl⟩
          · exact h6 x hx n err hxe
      | cancel =>
        obtain ⟨log, c3, new, hrun, h1, h2, h3, h4, h5, h6⟩ :=
          ih { c with finished := true } (t ++ [.closeSend (w.closeSend t)]) (Or.inl rfl)
        refine ⟨(.cancel, .cancel (ErrClass.Error.Wrap (w.closeSend t))) :: log, c3,
          [.closeSend (w.closeSend t)] ++ new, ?_, h1, h2, h3, h4, ?_, ?_⟩
        · simp only [Upload.run, Upload.call, Upload.Cancel, hfin2, Bool.false_eq_true,
            if_false, hrun, List.append_assoc]
        · intro ev hev
          rcases List.mem_append.mp hev with hev | hev
          · simp only [List.mem_singleton] at hev
            subst hev
            exact ⟨rfl, rfl⟩
          · exact h5 ev hev
        · intro x hx n err hxe
          rcases List.mem_cons.mp hx with hx | hx
          · subst hx
            cases hxe
          · exact h6 x hx n err hxe
      | commit =>
        obtain ⟨log, c3, new, hrun, h1, h2, h3, h4, h5, h6⟩ :=
          ih { c with finished := true }
            (t ++ [.closeAndRecv (w.closeAndRecv t).1 (w.closeAndRecv t).2]) (Or.inl rfl)
        simp only [hse] at hrun
        refine ⟨(.commit, .commit none (ErrClass.Error.Wrap (w.closeAndRecv t).2)) :: log, c3,
          [.closeAndRecv (w.closeAndRecv t).1 (w.closeAndRecv t).2] ++ new,
          ?_, h1, h2, h3, h4, ?_, ?_⟩
        · simp only [Upload.run, Upload.call, Upload.Commit, hfin2, hse, Bool.false_eq_true,
            if_false, hrun, List.append_assoc]
        · intro ev hev
          rcases List.mem_append.mp hev with hev | hev
          · simp only [List.mem_singleton] at hev
            subst hev
            exact ⟨rfl, rfl⟩
          · exact h5 ev hev
        · intro x hx n err hxe
          rcases List.mem_cons.mp hx with hx | hx
          · subst hx
            cases hxe
          · exact h6 x hx n err hxe

/-- The ways a `Write` returns an error: the session was finished (`io.EOF`); or a send
error is stored and returned wrapped; or the signing of an order failed and nothing
is stored. -/
theorem write_error_cases (w : World) (client : Upload) (tr : Trace) (fuel : Nat)
    (data : List Byte) (n : Nat) (e : Err) (client2 : Upload) (tr2 : Trace)
    (hw : client.Write w fuel tr data = .returned (n, some e) client2 tr2) :
    (client2.finished = true ∧ e = .EOF) ∨
    (client2.finished = false ∧
      ∃ e0, client2.sendError = some e0 ∧ some e = ErrClass.ErrProtocol.Wrap (some e0)) ∨
    (client2.finished = false ∧ client2.sendError = none ∧
      ∃ o es, some e = ErrClass.ErrInternal.Wrap (some es) ∧
        tr2.getLast? = some (.signOrder o (some es))) := by
  unfold Upload.Write at hw
  by_cases hfin : client.finished = true
  · simp only [hfin, if_true] at hw
    cases hw
    exact Or.inl ⟨hfin, rfl⟩
  · simp only [hfin] at hw
    have hfin2 : client.finished = false := by simpa using hfin
    cases hse : client.sendError with
    | some e0 =>
      simp only [hse] at hw
      simp only [Bool.false_eq_true, if_false] at hw
      cases hw2 : ErrClass.ErrProtocol.Wrap (some e0) with
      | none => exact absurd hw2 (ErrClass.Wrap_some_ne_none _ _)
      | some e1 =>
        rw [hw2] at hw
        cases hw
        exact Or.inr (Or.inl ⟨hfin2, e0, hse, hw2.symm⟩)
    | none =>
      simp only [hse] at hw
      simp only [Bool.false_eq_true, if_false] at hw
      have hl := writeLoop_error_cases w fuel
        { client := client, tr := tr, data := data, written := 0 } hfin2 hse
      cases hloop : Upload.writeLoop w fuel
          { client := client, tr := tr, data := data, written := 0 } with
      | returned n2 err c t =>
        rw [hloop] at hw hl
        simp only at hw hl
        cases hw
        obtain ⟨hcf, hcases⟩ := hl
        rcases hcases with ⟨h1, _⟩ | ⟨e0, hs0, hwr⟩ | ⟨hs0, o, es, hwr, hlast⟩
        · cases h1
        · exact Or.inr (Or.inl ⟨hcf, e0, hs0, hwr⟩)
        · exact Or.inr (Or.inr ⟨hcf, hs0, o, es, hwr, hlast⟩)
      | panicked n2 c t => rw [hloop] at hw; cases hw
      | outOfFuel c t => rw [hloop] at hw; cases hw

/-- C1 (amended). A failed `Write` is sticky when it leaves an error behind. Let `Write`
return a non-nil error `e`. If the session is then finished or holds a send error
(`sendError`): (1) on an unfinished session `e` is the stored send error wrapped as a
protocol error; (2) every later sequence of `Write` calls, whatever their inputs and
whatever the collaborators would answer, returns 0 bytes and the same error `e` from
each call, with the session and the trace unchanged; (3) every later sequence of
calls of any kind returns, each `Write` in it returns 0 bytes and the error `e` or
`io.EOF`, no `Send` and no signing is added to the trace, and offset, allocation
step, hashed bytes and stored error are unchanged. The one remaining case is a
failed order signing: nothing is stored, `e` is the signing error wrapped as an
internal error, and the failed signing is the last event of the trace. -/
theorem write_error_is_sticky (w : World) (client : Upload) (tr : Trace) (fuel : Nat)
    (data : List Byte) (n : Nat) (e : Err) (client2 : Upload) (tr2 : Trace)
    (hw : client.Write w fuel tr data = .returned (n, some e) client2 tr2) :
    ((client2.finished = true ∨ client2.sendError ≠ none) →
      (client2.finished = false →
        ∃ e0, client2.sendError = some e0 ∧ some e = ErrClass.ErrProtocol.Wrap (some e0)) ∧
      (∀ (w2 : World) (later : List (Nat × List Byte)),
        client2.run w2 (later.map fun p => Call.write p.1 p.2) tr2
          = .returned (later.map fun p => (Call.write p.1 p.2, CallRet.write 0 (some e)))
              client2 tr2) ∧
      ∀ (w2 : World) (calls : List Call),
        ∃ log c3 new, client2.run w2 calls tr2 = .returned log c3 (tr2 ++ new) ∧
          c3.offset = client2.offset ∧ c3.allocationStep = client2.allocationStep ∧
          c3.hash = client2.hash ∧ c3.sendError = client2.sendError ∧
          (∀ ev ∈ new, ev.isSend = false ∧ ev.isSigning = false) ∧
          ∀ x ∈ log, ∀ n err, x.2 = .write n err →
            n = 0 ∧ (err = some e ∨ err = some .EOF)) ∧
    (client2.finished = false → client2.sendError = none →
      ∃ o es, some e = ErrClass.ErrInternal.Wrap (some es) ∧
        tr2.getLast? = some (.signOrder o (some es))) := by
  rcases write_error_cases w client tr fuel data n e client2 tr2 hw with
    ⟨hfin, he⟩ | ⟨hfin, e0, hse, he⟩ | ⟨hfin, hse, hsign⟩
  · subst he
    refine ⟨fun _ => ⟨fun h => by simp [hfin] at h, fun w2 later => ?_, fun w2 calls => ?_⟩,
      fun h => by simp [hfin] at h⟩
    · exact run_writes_rejected w2 client2 tr2 .EOF
        (fun fuel data => by simp [Upload.Write, hfin]) later
    · exact stuck_run w2 calls client2 tr2 .EOF (Or.inl hfin)
  · refine ⟨fun _ => ⟨fun _ => ⟨e0, hse, he⟩, fun w2 later => ?_, fun w2 calls => ?_⟩,
      fun _ h => by simp [hse] at h⟩
    · apply run_writes_rejected
      intro fuel2 data2
      simp [Upload.Write, hfin, hse, ← he]
    · exact stuck_run w2 calls client2 tr2 e (Or.inr ⟨e0, hse, he⟩)
  · refine ⟨fun h => ?_, fun _ _ => hsign⟩
    rcases h with h | h
    · simp [hfin] at h
    · exact absurd hse h

/-- Instance of `write_error_is_sticky`: the `Send` of the first chunk fails. -/
theorem write_error_is_sticky_witness :
    (Upload.fresh sampleLimit 4).Write World.chunkSendFails 1 [] [7]
      = .returned (0, some (.classed .ErrProtocol (.other 3))) sampleStuck sampleStuckTrace ∧
    (((sampleStuck.finished = true ∨ sampleStuck.sendError ≠ none) →
      (sampleStuck.finished = false →
        ∃ e0, sampleStuck.sendError = some e0 ∧
          some (Err.classed .ErrProtocol (.other 3)) = ErrClass.ErrProtocol.Wrap (some e0)) ∧
      (∀ (w2 : World) (later : List (Nat × List Byte)),
        sampleStuck.run w2 (later.map fun p => Call.write p.1 p.2) sampleStuckTrace
          = .returned
              (later.map fun p =>
                (Call.write p.1 p.2, CallRet.write 0 (some (.classed .ErrProtocol (.other 3)))))
              sampleStuck sampleStuckTrace) ∧
      ∀ (w2 : World) (calls : List Call),
        ∃ log c3 new, sampleStuck.run w2 calls sampleStuckTrace
            = .returned log c3 (sampleStuckTrace ++ new) ∧
          c3.offset = sampleStuck.offset ∧ c3.allocationStep = sampleStuck.allocationStep ∧
          c3.hash = sampleStuck.hash ∧ c3.sendError = sampleStuck.sendError ∧
          (∀ ev ∈ new, ev.isSend = false ∧ ev.isSigning = false) ∧
          ∀ x ∈ log, ∀ n err, x.2 = .write n err →
            n = 0 ∧ (err = some (Err.classed .ErrProtocol (.other 3)) ∨ err = some .EOF)) ∧
    (sampleStuck.finished = false → sampleStuck.sendError = none →
      ∃ o es, some (Err.classed .ErrProtocol (.other 3)) = ErrClass.ErrInternal.Wrap (some es) ∧
        sampleStuckTrace.getLast? = some (.signOrder o (some es)))) :=
  ⟨rfl, write_error_is_sticky World.chunkSendFails (Upload.fresh sampleLimit 4) [] 1 [7] 0
    (.classed .ErrProtocol (.other 3)) sampleStuck sampleStuckTrace rfl⟩

/-- C1 as stated fails: a `Write` whose order signing fails returns a non-nil error, and
the next `Write` on the same session signs, sends an order and a chunk, returns
`(1, nil)` and moves offset, allocation step and hashed bytes. -/
theorem write_error_not_always_sticky :
    (Upload.fresh sampleLimit 4).Write World.signFailsFirst 1 [] [7]
      = .returned (0, some (.classed .ErrInternal (.other 7)))
          (Upload.fresh sampleLimit 4) sampleSignFailTrace ∧
    (Upload.fresh sampleLimit 4).Write World.signFailsFirst 1 sampleSignFailTrace [7]
      = .returned (1, none)
          { Upload.fresh sampleLimit 4 with hash := [7], offset := 1, allocationStep := 6 }
          (sampleSignFailTrace ++
            [.signOrder { serialNumber := 1, amount := 1, signature := [] } none,
             .send (.order { serialNumber := 1, amount := 1, signature := [1] }) none,
             .send (.chunk 0 [7]) none]) :=
  ⟨rfl, rfl⟩

/-! ## Reading traces -/

theorem msgs_append (a b : Trace) : msgs (a ++ b) = msgs a ++ msgs b := by
  simp [msgs, List.filterMap_append]

theorem chunkMsgs_append (a b : Trace) : chunkMsgs (a ++ b) = chunkMsgs a ++ chunkMsgs b := by
  simp [chunkMsgs, msgs_append, List.filterMap_append]

theorem sentChunks_append (a b : Trace) : sentChunks (a ++ b) = sentChunks a ++ sentChunks b := by
  simp [sentChunks, List.filterMap_append]

theorem payload_append (a b : List (Int × List Byte)) : payload (a ++ b) = payload a ++ payload b := by
  simp [payload]

theorem endOffset_append_single (start : Int) (cs : List (Int × List Byte)) (c : Int × List Byte) :
    endOffset start (cs ++ [c]) = endOffset start cs + (c.2.length : Int) := by
  induction cs generalizing start with
  | nil => simp [endOffset]
  | cons d ds ih => simp [endOffset, ih]

theorem Contiguous_append_single (start : Int) (cs : List (Int × List Byte)) (c : Int × List Byte) :
    Contiguous start (cs ++ [c]) ↔ Contiguous start cs ∧ c.1 = endOffset start cs := by
  induction cs generalizing start with
  | nil => simp [Contiguous, endOffset]
  | cons d ds ih => simp [Contiguous, endOffset, ih, and_assoc]

/-- Contiguous chunks, read by position: the first offset is `start`, and each chunk
starts where the chunk before it ends. -/
theorem Contiguous.by_index {start : Int} {cs : List (Int × List Byte)} (h : Contiguous start cs) :
    (∀ c, cs[0]? = some c → c.1 = start) ∧
    ∀ i c d, cs[i]? = some c → cs[i + 1]? = some d → d.1 = c.1 + (c.2.length : Int) := by
  induction cs generalizing start with
  | nil => simp
  | cons x xs ih =>
    obtain ⟨hx, hxs⟩ := h
    obtain ⟨ih0, ihs⟩ := ih hxs
    refine ⟨fun c hc => by simp at hc; rw [← hc]; exact hx, ?_⟩
    intro i c d hc hd
    cases i with
    | zero =>
      simp at hc hd
      rw [← hc, hx]
      exact ih0 d hd
    | succ j =>
      simp at hc hd
      exact ihs j c d hc hd

/-- The end offset is the start plus the length of the payloads. -/
theorem endOffset_eq (start : Int) (cs : List (Int × List Byte)) :
    endOffset start cs = start + ((payload cs).length : Int) := by
  induction cs generalizing start with
  | nil => simp [endOffset, payload]
  | cons d ds ih =>
    simp only [endOffset, ih, payload, List.map_cons, List.flatten_cons, List.length_append]
    push_cast
    ring

/-! ## The chunk picked by a pass -/

theorem pickChunk_append {step : Int} {data sendData rest : List Byte}
    (h : pickChunk step data = some (sendData, rest)) : sendData ++ rest = data := by
  unfold pickChunk at h
  split at h
  · split at h
    · cases h
    · cases h; simp
  · cases h; simp

theorem pickChunk_pos {step : Int} {data : List Byte} (hstep : 0 < step) (hdata : data.length ≠ 0) :
    ∃ sendData rest, pickChunk step data = some (sendData, rest) ∧
      rest.length < data.length := by
  unfold pickChunk
  by_cases h : step < (data.length : Int)
  · have h0 : ¬ step < 0 := by omega
    refine ⟨data.take step.toNat, data.drop step.toNat, by simp [h, h0], ?_⟩
    simp only [List.length_drop]
    omega
  · exact ⟨data, [], by simp [h], by simp; omega⟩

/-! ## Invariants over sequences of calls -/

/-- A property of session and trace kept by `Write`, `Cancel` and `Commit` is kept by
every call. -/
theorem call_invariant (w : World) (I : Upload → Trace → Prop)
    (hwrite : ∀ client tr fuel data, I client tr →
      I (client.Write w fuel tr data).client (client.Write w fuel tr data).tr)
    (hcancel : ∀ client tr, I client tr → I (client.Cancel w tr).client (client.Cancel w tr).tr)
    (hcommit : ∀ client tr, I client tr → I (client.Commit w tr).client (client.Commit w tr).tr)
    (client : Upload) (tr : Trace) (c : Call) (h : I client tr) :
    I (client.call w tr c).client (client.call w tr c).tr := by
  cases c with
  | write fuel data =>
    have := hwrite client tr fuel data h
    cases hw : client.Write w fuel tr data with
    | returned v c t =>
      obtain ⟨n, err⟩ := v
      rw [hw] at this
      simpa only [Upload.call, hw, Outcome.client, Outcome.tr] using this
    | panicked c t =>
      rw [hw] at this
      simpa only [Upload.call, hw, Outcome.client, Outcome.tr] using this
    | outOfFuel c t =>
      rw [hw] at this
      simpa only [Upload.call, hw, Outcome.client, Outcome.tr] using this
  | cancel => exact hcancel client tr h
  | commit => exact hcommit client tr h

/-- A property of session and trace kept by every call holds in the state in which a
sequence of calls ends (by return of the last call, by panic, or at the cut). -/
theorem run_invariant (w : World) (I : Upload → Trace → Prop)
    (hcall : ∀ client tr c, I client tr → I (client.call w tr c).client (client.call w tr c).tr)
    (calls : List Call) (client : Upload) (tr : Trace) (h : I client tr) :
    I (client.run w calls tr).client (client.run w calls tr).tr := by
  induction calls generalizing client tr with
  | nil => exact h
  | cons c cs ih =>
    have h1 := hcall client tr c h
    unfold Upload.run
    cases hc : client.call w tr c with
    | returned r client2 tr2 =>
      rw [hc] at h1
      have h2 := ih client2 tr2 h1
      simp only
      cases hr : Upload.run w cs client2 tr2 with
      | returned log c3 t3 => rw [hr] at h2; exact h2
      | panicked c3 t3 => rw [hr] at h2; exact h2
      | outOfFuel c3 t3 => rw [hr] at h2; exact h2
    | panicked c2 t2 => rw [hc] at h1; exact h1
    | outOfFuel c2 t2 => rw [hc] at h1; exact h1

/-- A property of session and trace that does not read the hashed bytes, holds wherever a
pass of the loop of `Write` leads on an open session, and is kept by `Write`. -/
theorem write_invariant (w : World) (I : Upload → Trace → Prop)
    (hhash : ∀ c t bs, I c t → I { c with hash := bs } t)
    (hiter : ∀ s, s.client.sendError = none → I s.client s.tr →
      match Upload.writeIter w s with
      | .next s2 => I s2.client s2.tr
      | .exit _ _ c t => I c t
      | .panic _ c t => I c t)
    (client : Upload) (tr : Trace) (fuel : Nat) (data : List Byte) (h : I client tr) :
    I (client.Write w fuel tr data).client (client.Write w fuel tr data).tr := by
  unfold Upload.Write
  by_cases hfin : client.finished = true
  · simpa [hfin, Outcome.client, Outcome.tr] using h
  · simp only [hfin]
    cases hse : client.sendError with
    | some e0 => simpa [Outcome.client, Outcome.tr] using h
    | none =>
      have hl := writeLoop_induct w (fun s => I s.client s.tr ∧ s.client.sendError = none)
        (fun x => match x with
          | .returned _ _ c t => I c t
          | .panicked _ c t => I c t
          | .outOfFuel c t => I c t)
        (fun s hs _ => hs.1) (fun s hs _ => hs.1)
        (fun s s2 hs _ hi => by
          have := hiter s hs.2 hs.1
          rw [hi] at this
          refine ⟨this, ?_⟩
          rcases writeIter_cases w s with ⟨_, h⟩ | ⟨sd, rest, _, ⟨err, h⟩ | ⟨sig, err, h⟩ | ⟨sig, err, h⟩ | ⟨sig, h⟩⟩ <;>
            rw [h] at hi <;> cases hi
          exact hs.2)
        (fun s n err c t hs _ hi => by
          have := hiter s hs.2 hs.1
          rw [hi] at this
          exact this)
        (fun s n c t hs _ hi => by
          have := hiter s hs.2 hs.1
          rw [hi] at this
          exact this)
        fuel { client := client, tr := tr, data := data, written := 0 } ⟨h, hse⟩
      simp only [Bool.false_eq_true, if_false]
      cases hloop : Upload.writeLoop w fuel
          { client := client, tr := tr, data := data, written := 0 } with
      | returned n err c t =>
        rw [hloop] at hl
        exact hhash c t _ hl
      | panicked n c t =>
        rw [hloop] at hl
        exact hhash c t _ hl
      | outOfFuel c t =>
        rw [hloop] at hl
        exact hl

/-! ## What `Cancel` and `Commit` leave as it is -/

/-- Method `Cancel` changes no field but `finished` and sends no message. -/
theorem cancel_frame (w : World) (client : Upload) (tr : Trace) :
    (client.Cancel w tr).client.limit = client.limit ∧
    (client.Cancel w tr).client.hash = client.hash ∧
    (client.Cancel w tr).client.offset = client.offset ∧
    (client.Cancel w tr).client.allocationStep = client.allocationStep ∧
    (client.Cancel w tr).client.sendError = client.sendError ∧
    msgs (client.Cancel w tr).tr = msgs tr ∧
    sentChunks (client.Cancel w tr).tr = sentChunks tr := by
  unfold Upload.Cancel
  split
  · simp
  · simp [msgs_append, sentChunks_append, msgs, sentChunks, Event.msg?, Event.sentChunk?]

/-- Method `Commit` changes no field but `finished` and sends no message but, at most, one
completion message. -/
theorem commit_frame (w : World) (client : Upload) (tr : Trace) :
    (client.Commit w tr).client.limit = client.limit ∧
    (client.Commit w tr).client.hash = client.hash ∧
    (client.Commit w tr).client.offset = client.offset ∧
    (client.Commit w tr).client.allocationStep = client.allocationStep ∧
    (client.Commit w tr).client.sendError = client.sendError ∧
    (msgs (client.Commit w tr).tr = msgs tr ∨
      ∃ h, msgs (client.Commit w tr).tr = msgs tr ++ [.done h]) ∧
    sentChunks (client.Commit w tr).tr = sentChunks tr := by
  unfold Upload.Commit
  split
  · simp
  · split
    · simp [msgs_append, sentChunks_append, msgs, sentChunks, Event.msg?, Event.sentChunk?]
    · split
      · simp [msgs_append, sentChunks_append, msgs, sentChunks, Event.msg?, Event.sentChunk?]
      · unfold Upload.commitExchange
        split <;>
          simp [msgs_append, sentChunks_append, msgs, sentChunks, Event.msg?, Event.sentChunk?,
            receivedDone, sentDone]

/-- The chunk messages of a trace are not changed by `Commit`. -/
theorem commit_chunkMsgs (w : World) (client : Upload) (tr : Trace) :
    chunkMsgs (client.Commit w tr).tr = chunkMsgs tr := by
  rcases (commit_frame w client tr).2.2.2.2.2.1 with h | ⟨d, h⟩ <;>
    simp [chunkMsgs, h, List.filterMap_append, Msg.chunk?]

/-- The chunk messages of a trace are not changed by `Cancel`. -/
theorem cancel_chunkMsgs (w : World) (client : Upload) (tr : Trace) :
    chunkMsgs (client.Cancel w tr).tr = chunkMsgs tr := by
  simp [chunkMsgs, (cancel_frame w client tr).2.2.2.2.2.1]

/-! ## Contiguity of the chunks -/

/-- Every pass of the loop of `Write` keeps `ChunkInv`. -/
theorem writeIter_chunkInv (w : World) (start : Int) (s : LoopState)
    (hse : s.client.sendError = none) (h : ChunkInv start s.client s.tr) :
    match Upload.writeIter w s with
    | .next s2 => ChunkInv start s2.client s2.tr
    | .exit _ _ c t => ChunkInv start c t
    | .panic _ c t => ChunkInv start c t := by
  obtain ⟨hc, he⟩ := h
  have he := he hse
  rcases writeIter_cases w s with ⟨_, h⟩ | ⟨sd, rest, _, ⟨err, h⟩ | ⟨sig, err, h⟩ | ⟨sig, err, h⟩ | ⟨sig, h⟩⟩ <;>
    rw [h] <;> simp only [ChunkInv]
  · exact ⟨hc, fun _ => he⟩
  · refine ⟨?_, fun _ => ?_⟩ <;>
      simpa [chunkMsgs_append, chunkMsgs, msgs, Event.msg?, Msg.chunk?] using by assumption
  · refine ⟨?_, fun hn => by simp at hn⟩
    simpa [chunkMsgs_append, chunkMsgs, msgs, Event.msg?, Msg.chunk?] using hc
  · refine ⟨?_, fun hn => by simp at hn⟩
    have : chunkMsgs (s.tr ++ [.signOrder (s.client.unsignedOrder sd) none,
        .send (.order (signedOrder (s.client.unsignedOrder sd) sig)) none,
        .send (.chunk s.client.offset sd) (some err)])
        = chunkMsgs s.tr ++ [(s.client.offset, sd)] := by
      simp [chunkMsgs_append, chunkMsgs, msgs, Event.msg?, Msg.chunk?]
    rw [this, Contiguous_append_single]
    exact ⟨hc, he.symm⟩
  · have : chunkMsgs (s.tr ++ [.signOrder (s.client.unsignedOrder sd) none,
        .send (.order (signedOrder (s.client.unsignedOrder sd) sig)) none,
        .send (.chunk s.client.offset sd) none])
        = chunkMsgs s.tr ++ [(s.client.offset, sd)] := by
      simp [chunkMsgs_append, chunkMsgs, msgs, Event.msg?, Msg.chunk?]
    rw [this, Contiguous_append_single, endOffset_append_single]
    exact ⟨⟨hc, he.symm⟩, fun _ => by rw [he]⟩

/-- Every call keeps `ChunkInv`. -/
theorem call_chunkInv (w : World) (start : Int) (client : Upload) (tr : Trace) (c : Call)
    (h : ChunkInv start client tr) :
    ChunkInv start (client.call w tr c).client (client.call w tr c).tr := by
  refine call_invariant w (ChunkInv start) ?_ ?_ ?_ client tr c h
  · intro client tr fuel data h
    exact write_invariant w (ChunkInv start) (fun c t bs h => h)
      (fun s hse h => writeIter_chunkInv w start s hse h) client tr fuel data h
  · intro client tr h
    obtain ⟨_, _, ho, _, hs, _, _⟩ := cancel_frame w client tr
    simpa [ChunkInv, cancel_chunkMsgs, ho, hs] using h
  · intro client tr h
    obtain ⟨_, _, ho, _, hs, _, _⟩ := commit_frame w client tr
    simpa [ChunkInv, commit_chunkMsgs, ho, hs] using h

/-- Where every signing and every `Send` succeeds, a pass that picks a chunk sends it and
goes on with the rest. -/
theorem writeIter_allSucceed (w : World) (hw : w.allSucceed) (s : LoopState)
    (sendData rest : List Byte)
    (hp : pickChunk s.client.allocationStep s.data = some (sendData, rest)) :
    ∃ sig, Upload.writeIter w s =
      .next
        { client :=
            { s.client with
              offset := s.client.offset + (sendData.length : Int),
              allocationStep := w.nextAllocationStep s.client.allocationStep },
          tr := s.tr ++ [.signOrder (s.client.unsignedOrder sendData) none,
                  .send (.order (signedOrder (s.client.unsignedOrder sendData) sig)) none,
                  .send (.chunk s.client.offset sendData) none],
          data := rest,
          written := s.written + sendData.length } := by
  obtain ⟨sig, hsig⟩ := hw.1 s.tr (s.client.unsignedOrder sendData)
  refine ⟨sig, ?_⟩
  simp [Upload.writeIter, hp, hsig, hw.2]

/-- Where every signing and every `Send` succeeds and the allocation step is positive at
every pass, the loop of `Write` returns within `len(data)` passes, with all of the
data written and sent. -/
theorem writeLoop_allSucceed (w : World) (hw : w.allSucceed) (fuel : Nat) (s : LoopState)
    (hfuel : s.data.length ≤ fuel)
    (hpos : ∀ k < s.data.length, 0 < (w.nextAllocationStep^[k]) s.client.allocationStep) :
    ∃ c new, Upload.writeLoop w fuel s
        = .returned (s.written + s.data.length) none c (s.tr ++ new) ∧
      payload (chunkMsgs new) = s.data := by
  induction fuel generalizing s with
  | zero =>
    have hd : s.data.length = 0 := by omega
    refine ⟨s.client, [], ?_, ?_⟩
    · unfold Upload.writeLoop
      simp [hd]
    · have : s.data = [] := List.length_eq_zero.mp hd
      simp [this, chunkMsgs, msgs, payload]
  | succ fuel ih =>
    by_cases hd : s.data.length = 0
    · refine ⟨s.client, [], ?_, ?_⟩
      · unfold Upload.writeLoop
        simp [hd]
      · have : s.data = [] := List.length_eq_zero.mp hd
        simp [this, chunkMsgs, msgs, payload]
    · have hstep : 0 < s.client.allocationStep := by
        have := hpos 0 (by omega)
        simpa using this
      obtain ⟨sd, rest, hp, hlt⟩ := pickChunk_pos hstep hd
      obtain ⟨sig, hi⟩ := writeIter_allSucceed w hw s sd rest hp
      have happ := pickChunk_append hp
      obtain ⟨c, new, hloop, hpay⟩ := ih
        { client :=
            { s.client with
              offset := s.client.offset + (sd.length : Int),
              allocationStep := w.nextAllocationStep s.client.allocationStep },
          tr := s.tr ++ [.signOrder (s.client.unsignedOrder sd) none,
                  .send (.order (signedOrder (s.client.unsignedOrder sd) sig)) none,
                  .send (.chunk s.client.offset sd) none],
          data := rest,
          written := s.written + sd.length }
        (by simp only; omega)
        (by
          intro k hk
          simp only at hk ⊢
          have := hpos (k + 1) (by omega)
          rwa [Function.iterate_succ_apply] at this)
      refine ⟨c, [.signOrder (s.client.unsignedOrder sd) none,
                  .send (.order (signedOrder (s.client.unsignedOrder sd) sig)) none,
                  .send (.chunk s.client.offset sd) none] ++ new, ?_, ?_⟩
      · unfold Upload.writeLoop
        simp only [hd, if_false, hi]
        rw [hloop]
        have hlen : s.data.length = sd.length + rest.length := by
          rw [← happ]; simp
        simp only [List.append_assoc, hlen, Nat.add_assoc]
      · rw [chunkMsgs_append, payload_append, hpay]
        simp [chunkMsgs, msgs, Event.msg?, Msg.chunk?, payload, happ]

/-! ## Orders before chunks -/

theorem getElem?_append_one {α : Type} {ms : List α} {a x : α} {i : Nat}
    (h : (ms ++ [a])[i]? = some x) :
    (i < ms.length ∧ ms[i]? = some x) ∨ (i = ms.length ∧ x = a) := by
  rw [List.getElem?_append] at h
  split at h
  · exact Or.inl ⟨by assumption, h⟩
  · right
    have hi : i - ms.length = 0 := by
      by_contra hne
      rw [List.getElem?_eq_none (by simp; omega)] at h
      cases h
    rw [hi] at h
    simp at h
    exact ⟨by omega, h.symm⟩

theorem getElem?_append_two {α : Type} {ms : List α} {a b x : α} {i : Nat}
    (h : (ms ++ [a, b])[i]? = some x) :
    (i < ms.length ∧ ms[i]? = some x) ∨ (i = ms.length ∧ x = a) ∨
      (i = ms.length + 1 ∧ x = b) := by
  rw [List.getElem?_append] at h
  split at h
  · exact Or.inl ⟨by assumption, h⟩
  · right
    rcases Nat.lt_trichotomy (i - ms.length) 1 with hlt | heq | hgt
    · have hi : i - ms.length = 0 := by omega
      rw [hi] at h
      simp at h
      exact Or.inl ⟨by omega, h.symm⟩
    · rw [heq] at h
      simp at h
      exact Or.inr ⟨by omega, h.symm⟩
    · rw [List.getElem?_eq_none (by simp; omega)] at h
      cases h

theorem OrderBeforeChunk.obc_append_one {sn : Nat} {ms : List Msg} {m : Msg}
    (h : OrderBeforeChunk sn ms) (hm : ∀ off d, m ≠ .chunk off d) :
    OrderBeforeChunk sn (ms ++ [m]) := by
  intro i off d hi
  rcases getElem?_append_one hi with ⟨hlt, hi⟩ | ⟨_, hx⟩
  · obtain ⟨o, h0, ho, ha⟩ := h i off d hi
    exact ⟨o, h0, by rw [List.getElem?_append_left (by omega)]; exact ho, ha⟩
  · exact absurd hx.symm (hm off d)

theorem OrderBeforeChunk.obc_append_pair {sn : Nat} {ms : List Msg} {o : Order} {off : Int}
    {d : List Byte} (h : OrderBeforeChunk sn ms)
    (ha : o.amount = off + (d.length : Int)) (hs : o.serialNumber = sn) :
    OrderBeforeChunk sn (ms ++ [.order o, .chunk off d]) := by
  intro i off2 d2 hi
  rcases getElem?_append_two hi with ⟨hlt, hi⟩ | ⟨_, hx⟩ | ⟨hlen, hx⟩
  · obtain ⟨o2, h0, ho, ha2⟩ := h i off2 d2 hi
    exact ⟨o2, h0, by rw [List.getElem?_append_left (by omega)]; exact ho, ha2⟩
  · cases hx
  · cases hx
    refine ⟨o, by omega, ?_, ha, hs⟩
    rw [hlen, List.getElem?_append_right (by omega)]
    simp

theorem AmountsOrdered.ord_append_one {ms : List Msg} {m : Msg}
    (h : AmountsOrdered ms) (hm : ∀ off d, m ≠ .chunk off d) :
    AmountsOrdered (ms ++ [m]) := by
  intro i j o o2 off d off2 d2 hij hi hi1 hj hj1
  rcases getElem?_append_one hj1 with ⟨hlt, hj1⟩ | ⟨_, hx⟩
  · rw [List.getElem?_append_left (by omega)] at hi hi1 hj
    exact h i j o o2 off d off2 d2 hij hi hi1 hj hj1
  · exact absurd hx.symm (hm off2 d2)

theorem AmountsBounded.bnd_append_one {bound : Int} {ms : List Msg} {m : Msg}
    (h : AmountsBounded bound ms) (hm : ∀ off d, m ≠ .chunk off d) :
    AmountsBounded bound (ms ++ [m]) := by
  intro i o off d hi hi1
  rcases getElem?_append_one hi1 with ⟨hlt, hi1⟩ | ⟨_, hx⟩
  · rw [List.getElem?_append_left (by omega)] at hi
    exact h i o off d hi hi1
  · exact absurd hx.symm (hm off d)

theorem AmountsOrdered.ord_append_pair {ms : List Msg} {o : Order} {off : Int} {d : List Byte}
    {bound : Int} (h : AmountsOrdered ms) (hb : AmountsBounded bound ms) (hle : bound ≤ off)
    (ha : o.amount = off + (d.length : Int)) :
    AmountsOrdered (ms ++ [.order o, .chunk off d]) := by
  intro i j o1 o2 off1 d1 off2 d2 hij hi hi1 hj hj1
  rcases getElem?_append_two hj1 with ⟨hlt, hj1⟩ | ⟨_, hx⟩ | ⟨hlen, hx⟩
  · rw [List.getElem?_append_left (by omega)] at hi hi1 hj
    exact h i j o1 o2 off1 d1 off2 d2 hij hi hi1 hj hj1
  · cases hx
  · cases hx
    have hjl : j = ms.length := by omega
    rw [hjl, List.getElem?_append_right (by omega)] at hj
    simp at hj
    subst hj
    rcases getElem?_append_two hi1 with ⟨hlt, hi1⟩ | ⟨_, hx⟩ | ⟨hlen2, _⟩
    · rw [List.getElem?_append_left (by omega)] at hi
      have := hb i o1 off1 d1 hi hi1
      refine ⟨by omega, fun hne => ?_⟩
      have hpos := List.length_pos.mpr hne
      omega
    · cases hx
    · omega

theorem AmountsBounded.bnd_append_pair {ms : List Msg} {o : Order} {off : Int} {d : List Byte}
    {bound : Int} (hb : AmountsBounded bound ms) (hle : bound ≤ off)
    (ha : o.amount = off + (d.length : Int)) :
    AmountsBounded (off + (d.length : Int)) (ms ++ [.order o, .chunk off d]) := by
  intro i o1 off1 d1 hi hi1
  rcases getElem?_append_two hi1 with ⟨hlt, hi1⟩ | ⟨_, hx⟩ | ⟨hlen, hx⟩
  · rw [List.getElem?_append_left (by omega)] at hi
    have := hb i o1 off1 d1 hi hi1
    omega
  · cases hx
  · have hil : i = ms.length := by omega
    rw [hil, List.getElem?_append_right (by omega)] at hi
    simp at hi
    subst hi
    omega

/-- Every pass of the loop of `Write` keeps `OrderInv`. -/
theorem writeIter_orderInv (w : World) (sn : Nat) (start : Int) (s : LoopState)
    (hse : s.client.sendError = none) (h : OrderInv sn start s.client s.tr) :
    match Upload.writeIter w s with
    | .next s2 => OrderInv sn start s2.client s2.tr
    | .exit _ _ c t => OrderInv sn start c t
    | .panic _ c t => OrderInv sn start c t := by
  obtain ⟨hsn, hci, hobc, hord, hbd⟩ := h
  have hci2 := writeIter_chunkInv w start s hse hci
  have he := hci.2 hse
  have hpair : ∀ (sd : List Byte) (sig : List Byte) (r : Option Err),
      msgs (s.tr ++ [.signOrder (s.client.unsignedOrder sd) none,
        .send (.order (signedOrder (s.client.unsignedOrder sd) sig)) none,
        .send (.chunk s.client.offset sd) r])
        = msgs s.tr ++ [.order (signedOrder (s.client.unsignedOrder sd) sig),
            .chunk s.client.offset sd] := by
    intro sd sig r
    simp [msgs_append, msgs, Event.msg?]
  have hpairc : ∀ (sd : List Byte) (sig : List Byte) (r : Option Err),
      chunkMsgs (s.tr ++ [.signOrder (s.client.unsignedOrder sd) none,
        .send (.order (signedOrder (s.client.unsignedOrder sd) sig)) none,
        .send (.chunk s.client.offset sd) r])
        = chunkMsgs s.tr ++ [(s.client.offset, sd)] := by
    intro sd sig r
    simp [chunkMsgs_append, chunkMsgs, msgs, Event.msg?, Msg.chunk?]
  rcases writeIter_cases w s with ⟨_, h⟩ | ⟨sd, rest, _, ⟨err, h⟩ | ⟨sig, err, h⟩ | ⟨sig, err, h⟩ | ⟨sig, h⟩⟩ <;>
    rw [h] at hci2 ⊢ <;> simp only at hci2 ⊢ <;> refine ⟨hsn, hci2, ?_⟩
  · exact ⟨hobc, hord, hbd⟩
  · have hm : msgs (s.tr ++ [.signOrder (s.client.unsignedOrder sd) (some err)]) = msgs s.tr := by
      simp [msgs_append, msgs, Event.msg?]
    have hc : chunkMsgs (s.tr ++ [.signOrder (s.client.unsignedOrder sd) (some err)])
        = chunkMsgs s.tr := by
      simp [chunkMsgs, hm]
    rw [hm, hc]
    exact ⟨hobc, hord, hbd⟩
  · have hm : msgs (s.tr ++ [.signOrder (s.client.unsignedOrder sd) none,
        .send (.order (signedOrder (s.client.unsignedOrder sd) sig)) (some err)])
        = msgs s.tr ++ [.order (signedOrder (s.client.unsignedOrder sd) sig)] := by
      simp [msgs_append, msgs, Event.msg?]
    have hc : chunkMsgs (s.tr ++ [.signOrder (s.client.unsignedOrder sd) none,
        .send (.order (signedOrder (s.client.unsignedOrder sd) sig)) (some err)])
        = chunkMsgs s.tr := by
      simp [chunkMsgs_append, chunkMsgs, msgs, Event.msg?, Msg.chunk?]
    rw [hm, hc]
    exact ⟨hobc.obc_append_one (by simp), hord.ord_append_one (by simp), hbd.bnd_append_one (by simp)⟩
  · rw [hpair, hpairc, endOffset_append_single, he]
    exact ⟨hobc.obc_append_pair rfl hsn, hord.ord_append_pair hbd (le_of_eq he) rfl,
      hbd.bnd_append_pair (le_of_eq he) rfl⟩
  · rw [hpair, hpairc, endOffset_append_single, he]
    exact ⟨hobc.obc_append_pair rfl hsn, hord.ord_append_pair hbd (le_of_eq he) rfl,
      hbd.bnd_append_pair (le_of_eq he) rfl⟩

/-- Every call keeps `OrderInv`. -/
theorem call_orderInv (w : World) (sn : Nat) (start : Int) (client : Upload) (tr : Trace)
    (c : Call) (h : OrderInv sn start client tr) :
    OrderInv sn start (client.call w tr c).client (client.call w tr c).tr := by
  refine call_invariant w (OrderInv sn start) ?_ ?_ ?_ client tr c h
  · intro client tr fuel data h
    exact write_invariant w (OrderInv sn start) (fun c t bs h => h)
      (fun s hse h => writeIter_orderInv w sn start s hse h) client tr fuel data h
  · intro client tr h
    obtain ⟨hl, _, ho, _, hs, hm, _⟩ := cancel_frame w client tr
    simpa [OrderInv, ChunkInv, cancel_chunkMsgs, hl, ho, hs, hm] using h
  · intro client tr h
    obtain ⟨hl, _, ho, _, hs, hm, _⟩ := commit_frame w client tr
    obtain ⟨hsn, hci, hobc, hord, hbd⟩ := h
    refine ⟨by rw [hl]; exact hsn, ?_, ?_⟩
    · simpa [ChunkInv, commit_chunkMsgs, ho, hs] using hci
    · rw [commit_chunkMsgs]
      rcases hm with hm | ⟨d, hm⟩ <;> rw [hm]
      · exact ⟨hobc, hord, hbd⟩
      · exact ⟨hobc.obc_append_one (by simp), hord.ord_append_one (by simp), hbd.bnd_append_one (by simp)⟩

theorem sentMsgs_append (a b : Trace) : sentMsgs (a ++ b) = sentMsgs a ++ sentMsgs b := by
  simp [sentMsgs, List.filterMap_append]

theorem Contiguous.inSequence {start : Int} {cs : List (Int × List Byte)}
    (h : Contiguous start cs) : InSequence start cs :=
  h.by_index

/-- Every pass of the loop of `Write` keeps `SentInv`. -/
theorem writeIter_sentInv (w : World) (sn : Nat) (start : Int) (s : LoopState)
    (h : SentInv sn start s.client s.tr) :
    match Upload.writeIter w s with
    | .next s2 => SentInv sn start s2.client s2.tr
    | .exit _ _ c t => SentInv sn start c t
    | .panic _ c t => SentInv sn start c t := by
  obtain ⟨hsn, hc, he, hobc, hord, hbd⟩ := h
  rcases writeIter_cases w s with ⟨_, h⟩ | ⟨sd, rest, _, ⟨err, h⟩ | ⟨sig, err, h⟩ | ⟨sig, err, h⟩ | ⟨sig, h⟩⟩ <;>
    rw [h] <;> simp only [SentInv]
  · exact ⟨hsn, hc, he, hobc, hord, hbd⟩
  · have h1 : sentChunks (s.tr ++ [.signOrder (s.client.unsignedOrder sd) (some err)])
        = sentChunks s.tr := by
      simp [sentChunks_append, sentChunks, Event.sentChunk?]
    have h2 : sentMsgs (s.tr ++ [.signOrder (s.client.unsignedOrder sd) (some err)])
        = sentMsgs s.tr := by
      simp [sentMsgs_append, sentMsgs, Event.sentMsg?]
    rw [h1, h2]
    exact ⟨hsn, hc, he, hobc, hord, hbd⟩
  · have h1 : sentChunks (s.tr ++ [.signOrder (s.client.unsignedOrder sd) none,
        .send (.order (signedOrder (s.client.unsignedOrder sd) sig)) (some err)])
        = sentChunks s.tr := by
      simp [sentChunks_append, sentChunks, Event.sentChunk?]
    have h2 : sentMsgs (s.tr ++ [.signOrder (s.client.unsignedOrder sd) none,
        .send (.order (signedOrder (s.client.unsignedOrder sd) sig)) (some err)])
        = sentMsgs s.tr := by
      simp [sentMsgs_append, sentMsgs, Event.sentMsg?]
    rw [h1, h2]
    exact ⟨hsn, hc, he, hobc, hord, hbd⟩
  · have h1 : sentChunks (s.tr ++ [.signOrder (s.client.unsignedOrder sd) none,
        .send (.order (signedOrder (s.client.unsignedOrder sd) sig)) none,
        .send (.chunk s.client.offset sd) (some err)])
        = sentChunks s.tr := by
      simp [sentChunks_append, sentChunks, Event.sentChunk?]
    have h2 : sentMsgs (s.tr ++ [.signOrder (s.client.unsignedOrder sd) none,
        .send (.order (signedOrder (s.client.unsignedOrder sd) sig)) none,
        .send (.chunk s.client.offset sd) (some err)])
        = sentMsgs s.tr ++ [.order (signedOrder (s.client.unsignedOrder sd) sig)] := by
      simp [sentMsgs_append, sentMsgs, Event.sentMsg?]
    rw [h1, h2]
    exact ⟨hsn, hc, he, hobc.obc_append_one (by simp), hord.ord_append_one (by simp),
      hbd.bnd_append_one (by simp)⟩
  · have h1 : sentChunks (s.tr ++ [.signOrder (s.client.unsignedOrder sd) none,
        .send (.order (signedOrder (s.client.unsignedOrder sd) sig)) none,
        .send (.chunk s.client.offset sd) none])
        = sentChunks s.tr ++ [(s.client.offset, sd)] := by
      simp [sentChunks_append, sentChunks, Event.sentChunk?]
    have h2 : sentMsgs (s.tr ++ [.signOrder (s.client.unsignedOrder sd) none,
        .send (.order (signedOrder (s.client.unsignedOrder sd) sig)) none,
        .send (.chunk s.client.offset sd) none])
        = sentMsgs s.tr ++ [.order (signedOrder (s.client.unsignedOrder sd) sig),
            .chunk s.client.offset sd] := by
      simp [sentMsgs_append, sentMsgs, Event.sentMsg?]
    rw [h1, h2, Contiguous_append_single, endOffset_append_single, he]
    exact ⟨hsn, ⟨hc, rfl⟩, rfl, hobc.obc_append_pair rfl hsn,
      hord.ord_append_pair hbd (le_refl _) rfl, hbd.bnd_append_pair (le_refl _) rfl⟩

/-- The messages sent successfully are not changed by `Cancel`. -/
theorem cancel_sentMsgs (w : World) (client : Upload) (tr : Trace) :
    sentMsgs (client.Cancel w tr).tr = sentMsgs tr := by
  unfold Upload.Cancel
  split
  · rfl
  · simp [sentMsgs_append, sentMsgs, Event.sentMsg?]

/-- To the messages sent successfully `Commit` adds nothing or one completion message. -/
theorem commit_sentMsgs (w : World) (client : Upload) (tr : Trace) :
    sentMsgs (client.Commit w tr).tr = sentMsgs tr ∨
    ∃ h, sentMsgs (client.Commit w tr).tr = sentMsgs tr ++ [.done h] := by
  unfold Upload.Commit
  split
  · exact Or.inl rfl
  · split
    · left; simp [sentMsgs_append, sentMsgs, Event.sentMsg?]
    · split
      · left; simp [sentMsgs_append, sentMsgs, Event.sentMsg?]
      · rename_i sig _
        unfold Upload.commitExchange
        cases hs : w.send (tr ++ [.signPieceHash (client.unsignedHash w) none])
            (.done (signedPieceHash (client.unsignedHash w) sig)) with
        | none =>
          right
          refine ⟨signedPieceHash (client.unsignedHash w) sig, ?_⟩
          split <;>
            simp [sentMsgs_append, sentMsgs, Event.sentMsg?, receivedDone, sentDone, hs]
        | some e =>
          left
          split <;>
            simp [sentMsgs_append, sentMsgs, Event.sentMsg?, receivedDone, sentDone, hs]

/-- Every call keeps `SentInv`. -/
theorem call_sentInv (w : World) (sn : Nat) (start : Int) (client : Upload) (tr : Trace)
    (c : Call) (h : SentInv sn start client tr) :
    SentInv sn start (client.call w tr c).client (client.call w tr c).tr := by
  refine call_invariant w (SentInv sn start) ?_ ?_ ?_ client tr c h
  · intro client tr fuel data h
    exact write_invariant w (SentInv sn start) (fun c t bs h => h)
      (fun s _ h => writeIter_sentInv w sn start s h) client tr fuel data h
  · intro client tr h
    obtain ⟨hl, _, ho, _, _, _, hs⟩ := cancel_frame w client tr
    simpa [SentInv, cancel_sentMsgs, hl, ho, hs] using h
  · intro client tr h
    obtain ⟨hl, _, ho, _, _, _, hs⟩ := commit_frame w client tr
    obtain ⟨hsn, hc, he, hobc, hord, hbd⟩ := h
    refine ⟨by rw [hl]; exact hsn, by rw [hs]; exact hc, by rw [hs, ho]; exact he, ?_⟩
    rw [ho]
    rcases commit_sentMsgs w client tr with hm | ⟨d, hm⟩ <;> rw [hm]
    · exact ⟨hobc, hord, hbd⟩
    · exact ⟨hobc.obc_append_one (by simp), hord.ord_append_one (by simp),
        hbd.bnd_append_one (by simp)⟩

/-- A trace without chunk messages has no chunk among the messages sent successfully. -/
theorem sent_nil_of_chunkMsgs_nil {tr : Trace} (h : chunkMsgs tr = []) :
    sentChunks tr = [] ∧ ∀ (i : Nat) (off : Int) (d : List Byte),
      (sentMsgs tr)[i]? ≠ some (Msg.chunk off d) := by
  have hmem : ∀ off d r, Event.send (.chunk off d) r ∉ tr := by
    intro off d r hin
    have : (off, d) ∈ chunkMsgs tr := by
      simp only [chunkMsgs, msgs, List.mem_filterMap]
      exact ⟨.chunk off d, ⟨.send (.chunk off d) r, hin, rfl⟩, rfl⟩
    rw [h] at this
    cases this
  constructor
  · apply List.eq_nil_iff_forall_not_mem.mpr
    intro c hc
    simp only [sentChunks, List.mem_filterMap] at hc
    obtain ⟨e, he, hec⟩ := hc
    cases e with
    | send m r =>
      cases m <;> cases r <;> simp [Event.sentChunk?] at hec
      exact hmem _ _ _ he
    | _ => simp [Event.sentChunk?] at hec
  · intro i off d hi
    have := List.getElem?_mem hi
    simp only [sentMsgs, List.mem_filterMap] at this
    obtain ⟨e, he, hec⟩ := this
    cases e with
    | send m r =>
      cases r <;> simp [Event.sentMsg?] at hec
      subst hec
      exact hmem _ _ _ he
    | _ => simp [Event.sentMsg?] at hec

/-- C3. Chunk contiguity. (1) After any sequence of calls on a session that starts at
offset 0 with no chunk sent yet, the chunk messages passed to `Send`, in send order,
are contiguous: the first has offset 0 and each later one has the offset of the chunk
before it plus the length of that chunk; the same holds of the chunk messages whose
`Send` succeeded. (2) On an open session, where every signing and every `Send`
succeeds and the allocation step is positive at each pass of the loop, `Write(data)`
returns `(len(data), nil)` within `len(data)` passes, and the payloads of the chunk
messages it sends, concatenated, are `data`. -/
theorem chunks_are_contiguous :
    (∀ (w : World) (calls : List Call) (client : Upload) (tr : Trace),
      client.offset = 0 → chunkMsgs tr = [] →
      InSequence 0 (chunkMsgs (client.run w calls tr).tr) ∧
      InSequence 0 (sentChunks (client.run w calls tr).tr)) ∧
    (∀ (w : World) (client : Upload) (tr : Trace) (data : List Byte) (fuel : Nat),
      client.finished = false → client.sendError = none → w.allSucceed →
      (∀ k < data.length, 0 < (w.nextAllocationStep^[k]) client.allocationStep) →
      data.length ≤ fuel →
      ∃ client2 new, client.Write w fuel tr data
          = .returned (data.length, none) client2 (tr ++ new) ∧
        payload (chunkMsgs new) = data) := by
  constructor
  · intro w calls client tr h0 hc
    have hinv : ChunkInv 0 client tr := by
      simp [ChunkInv, hc, Contiguous, endOffset, h0]
    obtain ⟨hs, hnone⟩ := sent_nil_of_chunkMsgs_nil hc
    have hsent : SentInv client.limit.serialNumber 0 client tr := by
      refine ⟨rfl, by rw [hs]; trivial, by rw [hs]; exact h0.symm, ?_, ?_, ?_⟩
      · intro i off d hi
        exact absurd hi (hnone i off d)
      · intro i j o o2 off d off2 d2 _ _ hi1 _ _
        exact absurd hi1 (hnone (i + 1) off d)
      · intro i o off d _ hi1
        exact absurd hi1 (hnone (i + 1) off d)
    exact ⟨(run_invariant w (ChunkInv 0) (call_chunkInv w 0) calls client tr hinv).1.inSequence,
      (run_invariant w (SentInv client.limit.serialNumber 0)
        (call_sentInv w client.limit.serialNumber 0) calls client tr hsent).2.1.inSequence⟩
  · intro w client tr data fuel hfin hse hw hpos hfuel
    obtain ⟨c, new, hloop, hpay⟩ := writeLoop_allSucceed w hw fuel
      { client := client, tr := tr, data := data, written := 0 } hfuel hpos
    refine ⟨c.hashWritten data (0 + data.length), new, ?_, hpay⟩
    simp only at hloop
    simp [Upload.Write, hfin, hse, hloop]

/-- Instance of `chunks_are_contiguous`: a `Write` of six bytes with step 2 followed by
`Commit`, and a `Write` of three bytes, in a world where every call succeeds. -/
theorem chunks_are_contiguous_witness :
    ((Upload.fresh sampleLimit 2).offset = 0 ∧ chunkMsgs [] = [] ∧
      InSequence 0 (chunkMsgs ((Upload.fresh sampleLimit 2).run World.ok
          [.write 6 [1, 2, 3, 4, 5, 6], .commit] []).tr) ∧
      InSequence 0 (sentChunks ((Upload.fresh sampleLimit 2).run World.ok
          [.write 6 [1, 2, 3, 4, 5, 6], .commit] []).tr)) ∧
    ((Upload.fresh sampleLimit 2).finished = false ∧
      (Upload.fresh sampleLimit 2).sendError = none ∧ World.ok.allSucceed ∧
      (∀ k < [(1 : Byte), 2, 3].length,
        0 < (World.ok.nextAllocationStep^[k]) (Upload.fresh sampleLimit 2).allocationStep) ∧
      ∃ client2 new, (Upload.fresh sampleLimit 2).Write World.ok 3 [] [1, 2, 3]
          = .returned ([(1 : Byte), 2, 3].length, none) client2 ([] ++ new) ∧
        payload (chunkMsgs new) = [1, 2, 3]) :=
  ⟨⟨rfl, rfl, chunks_are_contiguous.1 World.ok [.write 6 [1, 2, 3, 4, 5, 6], .commit]
      (Upload.fresh sampleLimit 2) [] rfl rfl⟩,
   ⟨rfl, rfl, ⟨fun _ _ => ⟨[1], rfl⟩, fun _ _ => rfl⟩, by decide,
    chunks_are_contiguous.2 World.ok (Upload.fresh sampleLimit 2) [] [1, 2, 3] 3 rfl rfl
      ⟨fun _ _ => ⟨[1], rfl⟩, fun _ _ => rfl⟩ (by decide) (by decide)⟩⟩

/-- C4. Order before chunk. In the messages passed to `Send` by any sequence of calls on a
session that has sent no chunk yet, (1) every chunk message is immediately preceded by
an order message whose amount is the offset of that chunk plus its length and whose
serial number is that of the order limit; (2) of two orders that are each followed by
a chunk, the later one has an amount at least as large as the earlier one, and larger
when the chunk that follows it is not empty. Both hold as well of the messages whose
`Send` succeeded. -/
theorem order_before_chunk (w : World) (calls : List Call) (client : Upload) (tr : Trace)
    (h : chunkMsgs tr = []) :
    OrderBeforeChunk client.limit.serialNumber (msgs (client.run w calls tr).tr) ∧
    AmountsOrdered (msgs (client.run w calls tr).tr) ∧
    OrderBeforeChunk client.limit.serialNumber (sentMsgs (client.run w calls tr).tr) ∧
    AmountsOrdered (sentMsgs (client.run w calls tr).tr) := by
  have hnone : ∀ (i : Nat) (off : Int) (d : List Byte),
      (msgs tr)[i]? ≠ some (Msg.chunk off d) := by
    intro i off d hi
    have hmem : (off, d) ∈ chunkMsgs tr := by
      simp only [chunkMsgs, List.mem_filterMap]
      exact ⟨.chunk off d, List.getElem?_mem hi, rfl⟩
    rw [h] at hmem
    cases hmem
  have hinv : OrderInv client.limit.serialNumber client.offset client tr := by
    refine ⟨rfl, ⟨by rw [h]; trivial, fun _ => by rw [h]; rfl⟩, ?_, ?_, ?_⟩
    · intro i off d hi
      exact absurd hi (hnone i off d)
    · intro i j o o2 off d off2 d2 _ _ hi1 _ _
      exact absurd hi1 (hnone (i + 1) off d)
    · intro i o off d _ hi1
      exact absurd hi1 (hnone (i + 1) off d)
  obtain ⟨hs, hsnone⟩ := sent_nil_of_chunkMsgs_nil h
  have hsent : SentInv client.limit.serialNumber client.offset client tr := by
    refine ⟨rfl, by rw [hs]; trivial, by rw [hs]; rfl, ?_, ?_, ?_⟩
    · intro i off d hi
      exact absurd hi (hsnone i off d)
    · intro i j o o2 off d off2 d2 _ _ hi1 _ _
      exact absurd hi1 (hsnone (i + 1) off d)
    · intro i o off d _ hi1
      exact absurd hi1 (hsnone (i + 1) off d)
  obtain ⟨_, _, hobc, hord, _⟩ := run_invariant w
    (OrderInv client.limit.serialNumber client.offset)
    (call_orderInv w client.limit.serialNumber client.offset) calls client tr hinv
  obtain ⟨_, _, _, hobc2, hord2, _⟩ := run_invariant w
    (SentInv client.limit.serialNumber client.offset)
    (call_sentInv w client.limit.serialNumber client.offset) calls client tr hsent
  exact ⟨hobc, hord, hobc2, hord2⟩

/-- Instance of `order_before_chunk`: a `Write` of six bytes with step 2 followed by
`Commit`, in a world where every call succeeds. -/
theorem order_before_chunk_witness :
    chunkMsgs [] = [] ∧
    (OrderBeforeChunk (Upload.fresh sampleLimit 2).limit.serialNumber
        (msgs ((Upload.fresh sampleLimit 2).run World.ok
          [.write 6 [1, 2, 3, 4, 5, 6], .commit] []).tr) ∧
      AmountsOrdered (msgs ((Upload.fresh sampleLimit 2).run World.ok
          [.write 6 [1, 2, 3, 4, 5, 6], .commit] []).tr) ∧
      OrderBeforeChunk (Upload.fresh sampleLimit 2).limit.serialNumber
        (sentMsgs ((Upload.fresh sampleLimit 2).run World.ok
          [.write 6 [1, 2, 3, 4, 5, 6], .commit] []).tr) ∧
      AmountsOrdered (sentMsgs ((Upload.fresh sampleLimit 2).run World.ok
          [.write 6 [1, 2, 3, 4, 5, 6], .commit] []).tr)) :=
  ⟨rfl, order_before_chunk World.ok [.write 6 [1, 2, 3, 4, 5, 6], .commit]
    (Upload.fresh sampleLimit 2) [] rfl⟩

/-! ## Accounting of the bytes written -/

/-- The loop of `Write` on an open session, started with nothing written: when it is left
with the count `n`, the data splits into the `n` bytes sent successfully in chunks
during the call and the rest; the offset has moved by `n`; the error is `nil`
exactly when no rest is left. -/
theorem writeLoop_accounting (w : World) (client : Upload) (tr : Trace) (data : List Byte)
    (fuel : Nat) (hse : client.sendError = none) :
    match Upload.writeLoop w fuel { client := client, tr := tr, data := data, written := 0 } with
    | .returned n err c t =>
        ∃ pre rest new, data = pre ++ rest ∧ pre.length = n ∧ t = tr ++ new ∧
          payload (sentChunks new) = pre ∧ c.offset = client.offset + (n : Int) ∧
          c.hash = client.hash ∧ (err = none ↔ rest = [])
    | .panicked n c t =>
        ∃ pre rest new, data = pre ++ rest ∧ pre.length = n ∧ t = tr ++ new ∧
          payload (sentChunks new) = pre ∧ c.offset = client.offset + (n : Int) ∧
          c.hash = client.hash
    | .outOfFuel _ _ => True := by
  refine writeLoop_induct w
    (fun s => s.client.sendError = none ∧
      ∃ pre new, data = pre ++ s.data ∧ pre.length = s.written ∧ s.tr = tr ++ new ∧
        payload (sentChunks new) = pre ∧ s.client.offset = client.offset + (s.written : Int) ∧
        s.client.hash = client.hash)
    (fun x => match x with
      | .returned n err c t =>
        ∃ pre rest new, data = pre ++ rest ∧ pre.length = n ∧ t = tr ++ new ∧
          payload (sentChunks new) = pre ∧ c.offset = client.offset + (n : Int) ∧
          c.hash = client.hash ∧ (err = none ↔ rest = [])
      | .panicked n c t =>
        ∃ pre rest new, data = pre ++ rest ∧ pre.length = n ∧ t = tr ++ new ∧
          payload (sentChunks new) = pre ∧ c.offset = client.offset + (n : Int) ∧
          c.hash = client.hash
      | .outOfFuel _ _ => True) ?_ ?_ ?_ ?_ ?_ fuel _
    ⟨hse, [], [], by simp, rfl, by simp, by simp [sentChunks, payload], by simp, rfl⟩
  · rintro s ⟨_, pre, new, hd, hl, ht, hp, ho, hh⟩ hlen
    exact ⟨pre, s.data, new, hd, hl, ht, hp, ho, hh, by simp [List.length_eq_zero.mp hlen]⟩
  · intro s _ _
    trivial
  · rintro s s2 ⟨hs, pre, new, hd, hl, ht, hp, ho, hh⟩ _ hi
    rcases writeIter_cases w s with ⟨_, h⟩ | ⟨sd, rest, hpc, ⟨err, h⟩ | ⟨sig, err, h⟩ | ⟨sig, err, h⟩ | ⟨sig, h⟩⟩ <;>
      rw [h] at hi <;> cases hi
    have happ := pickChunk_append hpc
    refine ⟨hs, pre ++ sd, new ++ [.signOrder (s.client.unsignedOrder sd) none,
        .send (.order (signedOrder (s.client.unsignedOrder sd) sig)) none,
        .send (.chunk s.client.offset sd) none], ?_, ?_, ?_, ?_, ?_, hh⟩
    · simp only [List.append_assoc, happ, hd]
    · simp [hl]
    · simp [ht]
    · rw [sentChunks_append, payload_append, hp]
      simp [sentChunks, Event.sentChunk?, payload]
    · simp only [ho]; push_cast; ring
  · rintro s n err c t ⟨hs, pre, new, hd, hl, ht, hp, ho, hh⟩ hlen hi
    have hne : s.data ≠ [] := fun h => hlen (by simp [h])
    rcases writeIter_cases w s with ⟨_, h⟩ | ⟨sd, rest, hpc, ⟨e, h⟩ | ⟨sig, e, h⟩ | ⟨sig, e, h⟩ | ⟨sig, h⟩⟩ <;>
      rw [h] at hi <;> cases hi
    · exact ⟨pre, s.data, new ++ [.signOrder (s.client.unsignedOrder sd) (some e)], hd, hl,
        by simp [ht], by rw [sentChunks_append, payload_append, hp]; simp [sentChunks, Event.sentChunk?, payload],
        ho, hh,
        by simp [ErrClass.Wrap_some_ne_none, hne]⟩
    · exact ⟨pre, s.data, new ++ [.signOrder (s.client.unsignedOrder sd) none,
          .send (.order (signedOrder (s.client.unsignedOrder sd) sig)) (some e)], hd, hl,
        by simp [ht], by rw [sentChunks_append, payload_append, hp]; simp [sentChunks, Event.sentChunk?, payload],
        ho, hh,
        by simp [ErrClass.Wrap_some_ne_none, hne]⟩
    · exact ⟨pre, s.data, new ++ [.signOrder (s.client.unsignedOrder sd) none,
          .send (.order (signedOrder (s.client.unsignedOrder sd) sig)) none,
          .send (.chunk s.client.offset sd) (some e)], hd, hl,
        by simp [ht], by rw [sentChunks_append, payload_append, hp]; simp [sentChunks, Event.sentChunk?, payload],
        ho, hh,
        by simp [ErrClass.Wrap_some_ne_none, hne]⟩
  · rintro s n c t ⟨hs, pre, new, hd, hl, ht, hp, ho, hh⟩ _ hi
    rcases writeIter_cases w s with ⟨_, h⟩ | ⟨sd, rest, hpc, ⟨e, h⟩ | ⟨sig, e, h⟩ | ⟨sig, e, h⟩ | ⟨sig, h⟩⟩ <;>
      rw [h] at hi <;> cases hi
    exact ⟨pre, s.data, new, hd, hl, ht, hp, ho, hh⟩

/-- A `Write` call accounts for its bytes: the data splits into the bytes it sent
successfully in chunks, which are the bytes it counts and hashes, and the rest. -/
theorem write_accounting (w : World) (client : Upload) (tr : Trace) (fuel : Nat)
    (data : List Byte) :
    match client.Write w fuel tr data with
    | .returned (n, err) c t =>
        ∃ pre rest new, data = pre ++ rest ∧ pre.length = n ∧ t = tr ++ new ∧
          payload (sentChunks new) = pre ∧ c.offset = client.offset + (n : Int) ∧
          c.hash = client.hash ++ pre ∧ (err = none → rest = []) ∧
          (client.finished = false → client.sendError = none → rest = [] → err = none) ∧
          ((client.finished = true ∨ client.sendError ≠ none) → err ≠ none ∧ n = 0)
    | .panicked c t =>
        ∃ pre rest new, data = pre ++ rest ∧ t = tr ++ new ∧
          payload (sentChunks new) = pre ∧ c.offset = client.offset + (pre.length : Int) ∧
          c.hash = client.hash ++ pre
    | .outOfFuel _ _ => True := by
  unfold Upload.Write
  by_cases hfin : client.finished = true
  · simp only [hfin, if_true]
    exact ⟨[], data, [], by simp, rfl, by simp, by simp [sentChunks, payload], by simp,
      by simp, by simp, by simp, by simp⟩
  · simp only [hfin]
    have hfin2 : client.finished = false := by simpa using hfin
    cases hse : client.sendError with
    | some e0 =>
      simp only [Bool.false_eq_true, if_false]
      exact ⟨[], data, [], by simp, rfl, by simp, by simp [sentChunks, payload], by simp,
        by simp, by simp [ErrClass.Wrap_some_ne_none], by simp,
        by simp [ErrClass.Wrap_some_ne_none]⟩
    | none =>
      have hl := writeLoop_accounting w client tr data fuel hse
      simp only [Bool.false_eq_true, if_false]
      cases hloop : Upload.writeLoop w fuel
          { client := client, tr := tr, data := data, written := 0 } with
      | returned n err c t =>
        rw [hloop] at hl
        obtain ⟨pre, rest, new, hd, hn, ht, hp, ho, hh, he⟩ := hl
        refine ⟨pre, rest, new, hd, hn, ht, hp, ho, ?_, he.mp, fun _ _ => he.mpr,
          fun h => by simp [hfin2] at h⟩
        simp [Upload.hashWritten, hh, hd, ← hn]
      | panicked n c t =>
        rw [hloop] at hl
        obtain ⟨pre, rest, new, hd, hn, ht, hp, ho, hh⟩ := hl
        refine ⟨pre, rest, new, hd, ht, hp, by simp [Upload.hashWritten, ho, hn], ?_⟩
        simp [Upload.hashWritten, hh, hd, ← hn]
      | outOfFuel c t => trivial

theorem run_cons_returned {w : World} {client : Upload} {tr : Trace} {c : Call}
    {cs : List Call} {log : List (Call × CallRet)} {c3 : Upload} {t3 : Trace}
    (h : client.run w (c :: cs) tr = .returned log c3 t3) :
    ∃ r c2 t2 log2, client.call w tr c = .returned r c2 t2 ∧
      Upload.run w cs c2 t2 = .returned log2 c3 t3 ∧ log = (c, r) :: log2 := by
  unfold Upload.run at h
  cases hc : client.call w tr c with
  | returned r c2 t2 =>
    rw [hc] at h
    simp only at h
    cases hr : Upload.run w cs c2 t2 with
    | returned log2 c4 t4 =>
      rw [hr] at h
      simp only [Outcome.returned.injEq] at h
      obtain ⟨h1, h2, h3⟩ := h
      exact ⟨r, c2, t2, log2, rfl, by rw [hr, h2, h3], h1.symm⟩
    | panicked c4 t4 => rw [hr] at h; cases h
    | outOfFuel c4 t4 => rw [hr] at h; cases h
  | panicked c2 t2 => rw [hc] at h; cases h
  | outOfFuel c2 t2 => rw [hc] at h; cases h

theorem accepted_cons (e : Call × CallRet) (log : List (Call × CallRet)) :
    accepted (e :: log) = accepted [e] ++ accepted log := by
  obtain ⟨c, r⟩ := e
  cases c <;> cases r <;> simp [accepted]

theorem writtenTotal_cons (e : Call × CallRet) (log : List (Call × CallRet)) :
    writtenTotal (e :: log) = writtenTotal [e] + writtenTotal log := by
  obtain ⟨c, r⟩ := e
  cases c <;> cases r <;> simp [writtenTotal]

theorem offered_cons (e : Call × CallRet) (log : List (Call × CallRet)) :
    offered (e :: log) = offered [e] ++ offered log := by
  obtain ⟨c, r⟩ := e
  cases c <;> cases r <;> simp [offered]

theorem allWritesOk_cons (e : Call × CallRet) (log : List (Call × CallRet)) :
    allWritesOk (e :: log) ↔ allWritesOk [e] ∧ allWritesOk log := by
  obtain ⟨c, r⟩ := e
  cases c <;> cases r <;> simp [allWritesOk]

/-- The bytes of one returned call: what it sent successfully in chunks is what it
accepted; the offset moves by the count; the accepted bytes are hashed. -/
theorem call_accounting (w : World) (client : Upload) (tr : Trace) (c : Call) (r : CallRet)
    (c2 : Upload) (t2 : Trace) (h : client.call w tr c = .returned r c2 t2) :
    payload (sentChunks t2) = payload (sentChunks tr) ++ accepted [(c, r)] ∧
    c2.offset = client.offset + (writtenTotal [(c, r)] : Int) ∧
    c2.hash = client.hash ++ accepted [(c, r)] ∧
    (accepted [(c, r)]).length = writtenTotal [(c, r)] ∧
    (allWritesOk [(c, r)] → accepted [(c, r)] = offered [(c, r)]) := by
  cases c with
  | write fuel data =>
    have hw := write_accounting w client tr fuel data
    simp only [Upload.call] at h
    cases hres : client.Write w fuel tr data with
    | returned v c t =>
      obtain ⟨n, err⟩ := v
      rw [hres] at h hw
      simp only [Outcome.returned.injEq] at h
      obtain ⟨h1, h2, h3⟩ := h
      subst h1 h2 h3
      obtain ⟨pre, rest, new, hd, hn, ht, hp, ho, hh, he, _, _⟩ := hw
      have htake : List.take n data = pre := by rw [hd, ← hn]; simp
      refine ⟨?_, ?_, ?_, ?_, ?_⟩
      · simp [accepted, htake, ht, sentChunks_append, payload_append, hp]
      · simp [writtenTotal, ho]
      · simp [accepted, htake, hh]
      · simp [accepted, writtenTotal, htake, hn]
      · intro hall
        simp only [allWritesOk, and_true] at hall
        have := he hall
        simp [accepted, offered, htake]
        rw [hd, this, List.append_nil]
    | panicked c t => rw [hres] at h; cases h
    | outOfFuel c t => rw [hres] at h; cases h
  | cancel =>
    simp only [Upload.call, Outcome.returned.injEq] at h
    obtain ⟨h1, h2, h3⟩ := h
    subst h1 h2 h3
    obtain ⟨_, hh, ho, _, _, _, hs⟩ := cancel_frame w client tr
    simp [accepted, writtenTotal, offered, hh, ho, hs]
  | commit =>
    simp only [Upload.call, Outcome.returned.injEq] at h
    obtain ⟨h1, h2, h3⟩ := h
    subst h1 h2 h3
    obtain ⟨_, hh, ho, _, _, _, hs⟩ := commit_frame w client tr
    simp [accepted, writtenTotal, offered, hh, ho, hs]

/-- The bytes of a returned sequence of calls, as `call_accounting` for each call. -/
theorem run_accounting (w : World) (calls : List Call) (client : Upload) (tr : Trace)
    (log : List (Call × CallRet)) (c3 : Upload) (t3 : Trace)
    (h : client.run w calls tr = .returned log c3 t3) :
    payload (sentChunks t3) = payload (sentChunks tr) ++ accepted log ∧
    c3.offset = client.offset + (writtenTotal log : Int) ∧
    c3.hash = client.hash ++ accepted log ∧
    (accepted log).length = writtenTotal log ∧
    (allWritesOk log → accepted log = offered log) := by
  induction calls generalizing client tr log with
  | nil =>
    simp only [Upload.run, Outcome.returned.injEq] at h
    obtain ⟨h1, h2, h3⟩ := h
    subst h1 h2 h3
    simp [accepted, writtenTotal, offered]
  | cons c cs ih =>
    obtain ⟨r, c2, t2, log2, hc, hr, hlog⟩ := run_cons_returned h
    obtain ⟨a1, a2, a3, a4, a5⟩ := call_accounting w client tr c r c2 t2 hc
    obtain ⟨b1, b2, b3, b4, b5⟩ := ih c2 t2 log2 hr
    subst hlog
    rw [accepted_cons, writtenTotal_cons, offered_cons, allWritesOk_cons]
    refine ⟨?_, ?_, ?_, ?_, ?_⟩
    · rw [b1, a1, List.append_assoc]
    · rw [b2, a2]; push_cast; ring
    · rw [b3, a3, List.append_assoc]
    · rw [List.length_append, a4, b4]
    · rintro ⟨h1, h2⟩
      rw [a5 h1, b5 h2]

theorem payload_length (cs : List (Int × List Byte)) :
    (payload cs).length = (cs.map fun c => c.2.length).sum := by
  induction cs with
  | nil => rfl
  | cons c cs ih =>
    simp only [payload, List.map_cons, List.flatten_cons, List.length_append, List.sum_cons]
    simp only [payload] at ih
    rw [ih]

/-- No call lowers the offset below a bound it has reached. -/
theorem call_offset_mono (w : World) (base : Int) (client : Upload) (tr : Trace) (c : Call)
    (h : base ≤ client.offset) : base ≤ (client.call w tr c).client.offset := by
  refine call_invariant w (fun c _ => base ≤ c.offset) ?_ ?_ ?_ client tr c h
  · intro client tr fuel data h
    refine write_invariant w (fun c _ => base ≤ c.offset) (fun c t bs h => h) ?_
      client tr fuel data h
    intro s _ hs
    rcases writeIter_cases w s with ⟨_, h⟩ | ⟨sd, rest, _, ⟨err, h⟩ | ⟨sig, err, h⟩ | ⟨sig, err, h⟩ | ⟨sig, h⟩⟩ <;>
      rw [h] <;> simp only <;> omega
  · intro client tr h
    rw [(cancel_frame w client tr).2.2.1]
    exact h
  · intro client tr h
    rw [(commit_frame w client tr).2.2.1]
    exact h

/-- C5 (amended). Partial-write accounting. (1) For every `Write(data)` call that returns
`(n, err)`, in every world: `n ≤ len(data)`; the chunks sent successfully during the
call carry exactly `data[:n]`, so their lengths add up to `n`; the offset of the
session grows by exactly `n`; a `nil` error comes with `n = len(data)`; on an open
session, or when `data` is not empty, the error is non-nil if and only if
`n < len(data)`; a call rejected by one of the two guards returns `n = 0` with a
non-nil error, also for empty data. (2) No sequence of calls lowers the offset,
however it ends. (3) After a sequence of calls that all return, the offset is the
initial offset plus the sum of the counts returned by `Write`. -/
theorem write_accounts_for_bytes :
    (∀ (w : World) (client : Upload) (tr : Trace) (fuel : Nat) (data : List Byte) (n : Nat)
        (err : Option Err) (c : Upload) (t : Trace),
      client.Write w fuel tr data = .returned (n, err) c t →
      n ≤ data.length ∧
      (∃ new, t = tr ++ new ∧ payload (sentChunks new) = data.take n ∧
        ((sentChunks new).map fun c => c.2.length).sum = n) ∧
      c.offset = client.offset + (n : Int) ∧
      (err = none → n = data.length) ∧
      ((client.finished = false ∧ client.sendError = none) ∨ data ≠ [] →
        (err ≠ none ↔ n < data.length)) ∧
      (client.finished = true ∨ client.sendError ≠ none → n = 0 ∧ err ≠ none)) ∧
    (∀ (w : World) (calls : List Call) (client : Upload) (tr : Trace),
      client.offset ≤ (client.run w calls tr).client.offset) ∧
    (∀ (w : World) (calls : List Call) (client : Upload) (tr : Trace)
        (log : List (Call × CallRet)) (c : Upload) (t : Trace),
      client.run w calls tr = .returned log c t →
      c.offset = client.offset + (writtenTotal log : Int)) := by
  refine ⟨?_, ?_, ?_⟩
  · intro w client tr fuel data n err c t hw
    have ha := write_accounting w client tr fuel data
    rw [hw] at ha
    obtain ⟨pre, rest, new, hd, hn, ht, hp, ho, _, he1, he2, he3⟩ := ha
    have hlen : data.length = n + rest.length := by rw [hd, ← hn]; simp
    have htake : List.take n data = pre := by rw [hd, ← hn]; simp
    refine ⟨by omega, ⟨new, ht, by rw [hp, htake], by rw [← payload_length, hp, hn]⟩, ho,
      fun h => by simp [he1 h] at hlen; omega, ?_, fun h => (he3 h).symm⟩
    intro hcase
    constructor
    · intro hne
      have hrest : rest ≠ [] := by
        intro hr
        rcases hcase with ⟨hf, hs⟩ | hdata
        · exact hne (he2 hf hs hr)
        · by_cases hopen : client.finished = false ∧ client.sendError = none
          · exact hne (he2 hopen.1 hopen.2 hr)
          · have hrej : client.finished = true ∨ client.sendError ≠ none := by
              by_cases hf : client.finished = true
              · exact Or.inl hf
              · right
                intro hs
                exact hopen ⟨by simpa using hf, hs⟩
            have h0 := (he3 hrej).2
            rw [hr] at hlen
            simp only [List.length_nil] at hlen
            apply hdata
            apply List.length_eq_zero.mp
            omega
      have := List.length_pos.mpr hrest
      omega
    · intro hlt herr
      have := he1 herr
      rw [this] at hlen
      simp at hlen
      omega
  · intro w calls client tr
    exact run_invariant w (fun c _ => client.offset ≤ c.offset)
      (fun client2 tr2 c h => call_offset_mono w client.offset client2 tr2 c h)
      calls client tr (le_refl _)
  · intro w calls client tr log c t h
    exact (run_accounting w calls client tr log c t h).2.1

/-- C5 as stated fails: a `Write` of no data on a finished session returns the count 0,
which is `len(data)`, together with the non-nil error `io.EOF`. -/
theorem empty_write_on_finished_session :
    sampleFinished.Write World.ok 0 [] [] = .returned (0, some .EOF) sampleFinished [] ∧
    ¬ (0 < ([] : List Byte).length) :=
  ⟨rfl, by decide⟩

/-- Instance of `write_accounts_for_bytes`: of five bytes written with step 2, the first
chunk of two bytes is sent and the `Send` of the second chunk fails; a second `Write`
is then rejected, and the offset is the sum of the two counts. -/
theorem write_accounts_for_bytes_witness :
    ((Upload.fresh sampleLimit 2).Write World.laterChunksFail 5 [] [1, 2, 3, 4, 5]
        = .returned (2, some (.classed .ErrProtocol (.other 3))) samplePartial
            samplePartialTrace ∧
      (2 ≤ [(1 : Byte), 2, 3, 4, 5].length ∧
        (∃ new, samplePartialTrace = [] ++ new ∧
          payload (sentChunks new) = [(1 : Byte), 2, 3, 4, 5].take 2 ∧
          ((sentChunks new).map fun c => c.2.length).sum = 2) ∧
        samplePartial.offset = (Upload.fresh sampleLimit 2).offset + ((2 : Nat) : Int) ∧
        (some (Err.classed .ErrProtocol (.other 3)) = none →
          2 = [(1 : Byte), 2, 3, 4, 5].length) ∧
        (((Upload.fresh sampleLimit 2).finished = false ∧
            (Upload.fresh sampleLimit 2).sendError = none) ∨ [(1 : Byte), 2, 3, 4, 5] ≠ [] →
          (some (Err.classed .ErrProtocol (.other 3)) ≠ none ↔
            2 < [(1 : Byte), 2, 3, 4, 5].length)) ∧
        ((Upload.fresh sampleLimit 2).finished = true ∨
            (Upload.fresh sampleLimit 2).sendError ≠ none →
          2 = 0 ∧ some (Err.classed .ErrProtocol (.other 3)) ≠ none))) ∧
    ((Upload.fresh sampleLimit 2).run World.laterChunksFail
        [.write 5 [1, 2, 3, 4, 5], .write 1 [6]] []
        = .returned
            [(.write 5 [1, 2, 3, 4, 5], .write 2 (some (.classed .ErrProtocol (.other 3)))),
             (.write 1 [6], .write 0 (some (.classed .ErrProtocol (.other 3))))]
            samplePartial samplePartialTrace ∧
      samplePartial.offset = (Upload.fresh sampleLimit 2).offset +
        (writtenTotal
          [(.write 5 [1, 2, 3, 4, 5], .write 2 (some (.classed .ErrProtocol (.other 3)))),
           (.write 1 [6], .write 0 (some (.classed .ErrProtocol (.other 3))))] : Int)) :=
  ⟨⟨rfl, write_accounts_for_bytes.1 World.laterChunksFail (Upload.fresh sampleLimit 2) []
      5 [1, 2, 3, 4, 5] 2 (some (.classed .ErrProtocol (.other 3))) samplePartial
      samplePartialTrace rfl⟩,
   ⟨rfl, write_accounts_for_bytes.2.2 World.laterChunksFail
      [.write 5 [1, 2, 3, 4, 5], .write 1 [6]] (Upload.fresh sampleLimit 2) [] _ _ _ rfl⟩⟩

/-! ## The bytes hashed -/

/-- A call that returns or panics leaves as many bytes hashed as the offset counts, if
that was so before. -/
theorem call_hash_offset (w : World) (client : Upload) (tr : Trace) (c : Call)
    (h : (client.hash.length : Int) = client.offset) :
    match client.call w tr c with
    | .returned _ c2 _ => (c2.hash.length : Int) = c2.offset
    | .panicked c2 _ => (c2.hash.length : Int) = c2.offset
    | .outOfFuel _ _ => True := by
  cases c with
  | write fuel data =>
    have hw := write_accounting w client tr fuel data
    simp only [Upload.call]
    cases hres : client.Write w fuel tr data with
    | returned v c t =>
      obtain ⟨n, err⟩ := v
      rw [hres] at hw
      obtain ⟨pre, rest, new, hd, hn, ht, hp, ho, hh, _⟩ := hw
      simp only [hh, ho, List.length_append, hn]
      push_cast
      omega
    | panicked c t =>
      rw [hres] at hw
      obtain ⟨pre, rest, new, hd, ht, hp, ho, hh⟩ := hw
      simp only [hh, ho, List.length_append]
      push_cast
      omega
    | outOfFuel c t => trivial
  | cancel =>
    obtain ⟨_, hh, ho, _⟩ := cancel_frame w client tr
    simp only [Upload.call, hh, ho]
    exact h
  | commit =>
    obtain ⟨_, hh, ho, _⟩ := commit_frame w client tr
    simp only [Upload.call, hh, ho]
    exact h

/-- A sequence of calls that ends by return or by panic leaves as many bytes hashed as
the offset counts, if that was so before. -/
theorem run_hash_offset (w : World) (calls : List Call) (client : Upload) (tr : Trace)
    (h : (client.hash.length : Int) = client.offset) :
    match client.run w calls tr with
    | .returned _ c2 _ => (c2.hash.length : Int) = c2.offset
    | .panicked c2 _ => (c2.hash.length : Int) = c2.offset
    | .outOfFuel _ _ => True := by
  induction calls generalizing client tr with
  | nil => exact h
  | cons c cs ih =>
    have h1 := call_hash_offset w client tr c h
    unfold Upload.run
    cases hc : client.call w tr c with
    | returned r client2 tr2 =>
      rw [hc] at h1
      have h2 := ih client2 tr2 h1
      simp only
      cases hr : Upload.run w cs client2 tr2 with
      | returned log c3 t3 => rw [hr] at h2; exact h2
      | panicked c3 t3 => rw [hr] at h2; exact h2
      | outOfFuel c3 t3 => trivial
    | panicked c2 t2 => rw [hc] at h1; exact h1
    | outOfFuel c2 t2 => trivial

/-- C6. The rolling hash does not depend on the chunk sizes. (1) After any sequence of
calls that all return, on a session that starts with nothing hashed and nothing sent,
in any world (so for every initial allocation step, every growth rule and every
pattern of failures): the bytes fed to the hasher, in order, are the concatenation of
`data_i[:n_i]` over the `Write` calls, and they are the concatenation of the payloads
of the chunk messages sent successfully; when every `Write` returned a `nil` error
they are the concatenation of all the data, so the digest `Commit` signs is the
digest of the full payload hashed in one pass. (2) After any sequence of calls that
ends by return or panic, the number of hashed bytes equals the offset, if it did
at the start (as on a fresh session). -/
theorem rolling_hash_is_chunk_size_independent :
    (∀ (w : World) (calls : List Call) (client : Upload) (tr : Trace)
        (log : List (Call × CallRet)) (c : Upload) (t : Trace),
      client.hash = [] → sentChunks tr = [] → client.run w calls tr = .returned log c t →
      c.hash = accepted log ∧ c.hash = payload (sentChunks t) ∧
      (allWritesOk log →
        c.hash = offered log ∧ (c.unsignedHash w).hash = w.digest (offered log))) ∧
    (∀ (w : World) (calls : List Call) (client : Upload) (tr : Trace),
      (client.hash.length : Int) = client.offset →
      match client.run w calls tr with
      | .returned _ c _ => (c.hash.length : Int) = c.offset
      | .panicked c _ => (c.hash.length : Int) = c.offset
      | .outOfFuel _ _ => True) := by
  constructor
  · intro w calls client tr log c t hh hs hrun
    obtain ⟨a1, _, a3, _, a5⟩ := run_accounting w calls client tr log c t hrun
    rw [hh, List.nil_append] at a3
    rw [hs] at a1
    simp only [payload, List.map_nil, List.flatten_nil, List.nil_append] at a1
    refine ⟨a3, ?_, fun hall => ?_⟩
    · rw [a3]
      simp only [payload]
      exact a1.symm
    · have : c.hash = offered log := by rw [a3, a5 hall]
      exact ⟨this, by simp [Upload.unsignedHash, this]⟩
  · intro w calls client tr h
    exact run_hash_offset w calls client tr h

/-- Instance of `rolling_hash_is_chunk_size_independent`: two `Write` calls, cut into
chunks of growing size, in a world where every call succeeds; and a `Write` cut
short by a failing `Send`. -/
theorem rolling_hash_is_chunk_size_independent_witness :
    ((Upload.fresh sampleLimit 2).hash = [] ∧ sentChunks [] = [] ∧
      ∃ log c t,
        (Upload.fresh sampleLimit 2).run World.ok [.write 3 [1, 2, 3], .write 2 [4, 5]] []
          = .returned log c t ∧
        c.hash = [1, 2, 3, 4, 5] ∧
        (c.hash = accepted log ∧ c.hash = payload (sentChunks t) ∧
          (allWritesOk log →
            c.hash = offered log ∧
            (c.unsignedHash World.ok).hash = World.ok.digest (offered log)))) ∧
    ((((Upload.fresh sampleLimit 2).hash.length : Int) = (Upload.fresh sampleLimit 2).offset) ∧
      match (Upload.fresh sampleLimit 2).run World.laterChunksFail
          [.write 5 [1, 2, 3, 4, 5]] [] with
      | .returned _ c _ => (c.hash.length : Int) = c.offset
      | .panicked c _ => (c.hash.length : Int) = c.offset
      | .outOfFuel _ _ => True) :=
  ⟨⟨rfl, rfl, _, _, _, rfl, rfl,
      rolling_hash_is_chunk_size_independent.1 World.ok [.write 3 [1, 2, 3], .write 2 [4, 5]]
        (Upload.fresh sampleLimit 2) [] _ _ _ rfl rfl rfl⟩,
   ⟨rfl, rolling_hash_is_chunk_size_independent.2 World.laterChunksFail
      [.write 5 [1, 2, 3, 4, 5]] (Upload.fresh sampleLimit 2) [] rfl⟩⟩

/-! ## Commit -/

/-- Combining errors of which the first is not `nil` gives a non-nil error whose first
member is that error, if it is not itself a group. -/
theorem errs.Combine_head (e : Err) (rest : List (Option Err)) :
    errs.Combine (some e :: rest) ≠ none ∧
    ((∀ es, e ≠ .group es) → (errs.members (errs.Combine (some e :: rest))).head? = some e) := by
  unfold errs.Combine
  simp only [List.reduceOption_cons_of_some]
  cases h : rest.reduceOption with
  | nil =>
    refine ⟨by simp, fun hg => ?_⟩
    cases e <;> simp [errs.members]
    exact absurd rfl (hg _)
  | cons f fs => exact ⟨by simp, fun _ => by simp [errs.members]⟩

/-- C7 (amended). Commit after a `Write` that failed on a `Send` does not complete the
upload: on every unfinished session that holds a send error (`sendError`, stored by
the `Write` whose `Send` of an order or a chunk failed), `Commit` returns a `nil`
piece hash and adds exactly one event to the trace, a `CloseAndRecv`: it signs no
piece hash, sends no completion message nor any other message, and does not invoke
the hash verification. The session is finished afterwards and otherwise unchanged. -/
theorem commit_after_send_failure (w : World) (client : Upload) (tr : Trace) (e0 : Err)
    (hfin : client.finished = false) (hse : client.sendError = some e0) :
    (client.Commit w tr).val.1 = none ∧
    (client.Commit w tr).tr
      = tr ++ [.closeAndRecv (w.closeAndRecv tr).1 (w.closeAndRecv tr).2] ∧
    (client.Commit w tr).client = { client with finished := true } := by
  have hc : client.Commit w tr =
      { val := (none, ErrClass.Error.Wrap (w.closeAndRecv tr).2),
        client := { client with finished := true },
        tr := tr ++ [.closeAndRecv (w.closeAndRecv tr).1 (w.closeAndRecv tr).2] } := by
    unfold Upload.Commit
    simp only [hfin, hse, Bool.false_eq_true, if_false]
  rw [hc]
  exact ⟨rfl, rfl, rfl⟩

/-- Instance of `commit_after_send_failure`: the session left by a failed chunk `Send`. -/
theorem commit_after_send_failure_witness :
    sampleStuck.finished = false ∧ sampleStuck.sendError = some (.other 3) ∧
    ((sampleStuck.Commit World.ok sampleStuckTrace).val.1 = none ∧
      (sampleStuck.Commit World.ok sampleStuckTrace).tr
        = sampleStuckTrace ++ [.closeAndRecv (World.ok.closeAndRecv sampleStuckTrace).1
            (World.ok.closeAndRecv sampleStuckTrace).2] ∧
      (sampleStuck.Commit World.ok sampleStuckTrace).client
        = { sampleStuck with finished := true }) :=
  ⟨rfl, rfl, commit_after_send_failure World.ok sampleStuck sampleStuckTrace (.other 3) rfl rfl⟩

/-- C7 as stated fails: after a `Write` that failed because the order signing failed,
`Commit` signs the piece hash, sends the completion message, has the peer hash
verified and returns it. -/
theorem commit_after_signing_failure_completes :
    (Upload.fresh sampleLimit 4).Write World.signFailsFirst 1 [] [7]
      = .returned (0, some (.classed .ErrInternal (.other 7)))
          (Upload.fresh sampleLimit 4) sampleSignFailTrace ∧
    (Upload.fresh sampleLimit 4).Commit World.signFailsFirst sampleSignFailTrace
      = { val := (some samplePeerHash, none),
          client := { Upload.fresh sampleLimit 4 with finished := true },
          tr := sampleSignFailTrace ++
            [.signPieceHash { pieceId := 1, hash := [], signature := [] } none,
             .send (.done { pieceId := 1, hash := [], signature := [2] }) none,
             .closeAndRecv (some { done := some samplePeerHash }) none,
             .verifyPieceHash samplePeerHash [] none] } :=
  ⟨rfl, rfl⟩

/-- C8 (amended). On an unfinished session that holds a send error, `Commit` returns the
error of closing the stream, wrapped in the class `Error`, and nothing else: its
error is non-nil if and only if `CloseAndRecv` reports an error. The stored send
error itself is not returned again. -/
theorem commit_after_send_failure_returns_close_error (w : World) (client : Upload)
    (tr : Trace) (e0 : Err) (hfin : client.finished = false)
    (hse : client.sendError = some e0) :
    (client.Commit w tr).val.2 = ErrClass.Error.Wrap (w.closeAndRecv tr).2 ∧
    ((client.Commit w tr).val.2 ≠ none ↔ (w.closeAndRecv tr).2 ≠ none) := by
  have h : (client.Commit w tr).val.2 = ErrClass.Error.Wrap (w.closeAndRecv tr).2 := by
    simp [Upload.Commit, hfin, hse]
  refine ⟨h, ?_⟩
  rw [h, ne_eq, ne_eq, ErrClass.Wrap_eq_none_iff]

/-- Instance of `commit_after_send_failure_returns_close_error`: the session left by a
failed chunk `Send`, with a stream that closes without error. -/
theorem commit_after_send_failure_returns_close_error_witness :
    sampleStuck.finished = false ∧ sampleStuck.sendError = some (.other 3) ∧
    ((sampleStuck.Commit World.ok sampleStuckTrace).val.2
        = ErrClass.Error.Wrap (World.ok.closeAndRecv sampleStuckTrace).2 ∧
      ((sampleStuck.Commit World.ok sampleStuckTrace).val.2 ≠ none ↔
        (World.ok.closeAndRecv sampleStuckTrace).2 ≠ none)) :=
  ⟨rfl, rfl, commit_after_send_failure_returns_close_error World.ok sampleStuck
    sampleStuckTrace (.other 3) rfl rfl⟩

/-- C8 as stated fails: on an unfinished session that holds a send error, with a stream
whose `CloseAndRecv` reports no error, `Commit` returns a `nil` error. -/
theorem commit_after_send_failure_returns_nil :
    sampleStuck.finished = false ∧ sampleStuck.sendError = some (.other 3) ∧
    (World.ok.closeAndRecv sampleStuckTrace).2 = none ∧
    (sampleStuck.Commit World.ok sampleStuckTrace).val = (none, none) :=
  ⟨rfl, rfl, rfl, rfl⟩

/-- C9. Commit returns the hash of the peer whenever it is available. On an unfinished
session without a stored send error whose piece-hash signing succeeds, if the final
response of the peer is present and carries the field `Done`, then `Commit` returns
exactly that hash, whatever the completion `Send`, the `CloseAndRecv` and the
verification return; its error combines the verification error with the send and
close errors, and is non-nil whenever the verification fails. -/
theorem commit_returns_peer_hash (w : World) (client : Upload) (tr : Trace)
    (sig : List Byte) (resp : Response) (peerHash : PieceHash)
    (hfin : client.finished = false) (hse : client.sendError = none)
    (hsign : w.signPieceHash tr (client.unsignedHash w) = .ok sig)
    (hresp : (w.closeAndRecv
        (sentDone w (tr ++ [.signPieceHash (client.unsignedHash w) none])
          (signedPieceHash (client.unsignedHash w) sig))).1 = some resp)
    (hdone : resp.done = some peerHash) :
    (client.Commit w tr).val.1 = some peerHash ∧
    (client.Commit w tr).val.2
      = errs.Combine
          [w.verifyPieceHash
              (receivedDone w (tr ++ [.signPieceHash (client.unsignedHash w) none])
                (signedPieceHash (client.unsignedHash w) sig))
              client.limit peerHash (w.digest client.hash),
           ignoreEOF (w.send (tr ++ [.signPieceHash (client.unsignedHash w) none])
              (.done (signedPieceHash (client.unsignedHash w) sig))),
           ignoreEOF (w.closeAndRecv
              (sentDone w (tr ++ [.signPieceHash (client.unsignedHash w) none])
                (signedPieceHash (client.unsignedHash w) sig))).2] ∧
    (w.verifyPieceHash
        (receivedDone w (tr ++ [.signPieceHash (client.unsignedHash w) none])
          (signedPieceHash (client.unsignedHash w) sig))
        client.limit peerHash (w.digest client.hash) ≠ none →
      (client.Commit w tr).val.2 ≠ none) := by
  have hval : (client.Commit w tr).val = (some peerHash, errs.Combine
      [w.verifyPieceHash
          (receivedDone w (tr ++ [.signPieceHash (client.unsignedHash w) none])
            (signedPieceHash (client.unsignedHash w) sig))
          client.limit peerHash (w.digest client.hash),
       ignoreEOF (w.send (tr ++ [.signPieceHash (client.unsignedHash w) none])
          (.done (signedPieceHash (client.unsignedHash w) sig))),
       ignoreEOF (w.closeAndRecv
          (sentDone w (tr ++ [.signPieceHash (client.unsignedHash w) none])
            (signedPieceHash (client.unsignedHash w) sig))).2]) := by
    have hb : (w.closeAndRecv
        (sentDone w (tr ++ [.signPieceHash (client.unsignedHash w) none])
          (signedPieceHash (client.unsignedHash w) sig))).1.bind Response.done
        = some peerHash := by
      rw [hresp]
      exact hdone
    unfold Upload.Commit
    simp only [hfin, hse, hsign, Bool.false_eq_true, if_false]
    unfold Upload.commitExchange
    rw [hb]
    rfl
  refine ⟨by rw [hval], by rw [hval], fun hv => ?_⟩
  rw [hval]
  cases hver : w.verifyPieceHash
      (receivedDone w (tr ++ [.signPieceHash (client.unsignedHash w) none])
        (signedPieceHash (client.unsignedHash w) sig))
      client.limit peerHash (w.digest client.hash) with
  | none => exact absurd hver hv
  | some e => exact (errs.Combine_head e _).1

/-- Instance of `commit_returns_peer_hash`: the verifier rejects the hash of the peer. -/
theorem commit_returns_peer_hash_witness :
    ((Upload.fresh sampleLimit 4).Commit World.verifyFails []).val
      = (some samplePeerHash, some (.other 4)) ∧
    (((Upload.fresh sampleLimit 4).Commit World.verifyFails []).val.1 = some samplePeerHash ∧
      ((Upload.fresh sampleLimit 4).Commit World.verifyFails []).val.2
        = errs.Combine
          [World.verifyFails.verifyPieceHash
              (receivedDone World.verifyFails
                ([] ++ [.signPieceHash ((Upload.fresh sampleLimit 4).unsignedHash World.verifyFails) none])
                (signedPieceHash ((Upload.fresh sampleLimit 4).unsignedHash World.verifyFails) [2]))
              (Upload.fresh sampleLimit 4).limit samplePeerHash
              (World.verifyFails.digest (Upload.fresh sampleLimit 4).hash),
           ignoreEOF (World.verifyFails.send
              ([] ++ [.signPieceHash ((Upload.fresh sampleLimit 4).unsignedHash World.verifyFails) none])
              (.done (signedPieceHash ((Upload.fresh sampleLimit 4).unsignedHash World.verifyFails) [2]))),
           ignoreEOF (World.verifyFails.closeAndRecv
              (sentDone World.verifyFails
                ([] ++ [.signPieceHash ((Upload.fresh sampleLimit 4).unsignedHash World.verifyFails) none])
                (signedPieceHash ((Upload.fresh sampleLimit 4).unsignedHash World.verifyFails) [2]))).2] ∧
      (World.verifyFails.verifyPieceHash
          (receivedDone World.verifyFails
            ([] ++ [.signPieceHash ((Upload.fresh sampleLimit 4).unsignedHash World.verifyFails) none])
            (signedPieceHash ((Upload.fresh sampleLimit 4).unsignedHash World.verifyFails) [2]))
          (Upload.fresh sampleLimit 4).limit samplePeerHash
          (World.verifyFails.digest (Upload.fresh sampleLimit 4).hash) ≠ none →
        ((Upload.fresh sampleLimit 4).Commit World.verifyFails []).val.2 ≠ none)) :=
  ⟨rfl, commit_returns_peer_hash World.verifyFails (Upload.fresh sampleLimit 4) [] [2]
    { done := some samplePeerHash } samplePeerHash rfl rfl rfl rfl rfl⟩

/-- C10 (amended). Missing acknowledgment. On an unfinished session without a stored send
error whose piece-hash signing succeeds, if the final response of the peer is absent
or lacks the field `Done`, then `Commit` returns a `nil` piece hash and a non-nil
error: the protocol error with the message "expected piece hash" combined with the
errors of the completion `Send` and of the `CloseAndRecv` that are neither `nil` nor
`io.EOF`. The protocol error is the first member of that error, and the whole of it
when the send error and the close error are each `nil` or `io.EOF`. The trace ends
with the `CloseAndRecv`: the hash verification is not invoked. -/
theorem commit_without_peer_hash (w : World) (client : Upload) (tr : Trace)
    (sig : List Byte)
    (hfin : client.finished = false) (hse : client.sendError = none)
    (hsign : w.signPieceHash tr (client.unsignedHash w) = .ok sig)
    (hresp : (w.closeAndRecv
          (sentDone w (tr ++ [.signPieceHash (client.unsignedHash w) none])
            (signedPieceHash (client.unsignedHash w) sig))).1 = none ∨
      ∃ resp, (w.closeAndRecv
          (sentDone w (tr ++ [.signPieceHash (client.unsignedHash w) none])
            (signedPieceHash (client.unsignedHash w) sig))).1 = some resp ∧
        resp.done = none) :
    (client.Commit w tr).val.1 = none ∧
    (client.Commit w tr).val.2
      = errs.Combine
          [ErrClass.ErrProtocol.New "expected piece hash",
           ignoreEOF (w.send (tr ++ [.signPieceHash (client.unsignedHash w) none])
              (.done (signedPieceHash (client.unsignedHash w) sig))),
           ignoreEOF (w.closeAndRecv
              (sentDone w (tr ++ [.signPieceHash (client.unsignedHash w) none])
                (signedPieceHash (client.unsignedHash w) sig))).2] ∧
    (client.Commit w tr).val.2 ≠ none ∧
    (errs.members (client.Commit w tr).val.2).head?
      = some (.classed .ErrProtocol (.text "expected piece hash")) ∧
    (ignoreEOF (w.send (tr ++ [.signPieceHash (client.unsignedHash w) none])
        (.done (signedPieceHash (client.unsignedHash w) sig))) = none →
      ignoreEOF (w.closeAndRecv
        (sentDone w (tr ++ [.signPieceHash (client.unsignedHash w) none])
          (signedPieceHash (client.unsignedHash w) sig))).2 = none →
      Err.isNew .ErrProtocol "expected piece hash" (client.Commit w tr).val.2) ∧
    (client.Commit w tr).tr
      = receivedDone w (tr ++ [.signPieceHash (client.unsignedHash w) none])
          (signedPieceHash (client.unsignedHash w) sig) := by
  have hb : (w.closeAndRecv
      (sentDone w (tr ++ [.signPieceHash (client.unsignedHash w) none])
        (signedPieceHash (client.unsignedHash w) sig))).1.bind Response.done = none := by
    rcases hresp with h | ⟨resp, h, hd⟩
    · rw [h]; rfl
    · rw [h]; exact hd
  have hc : client.Commit w tr =
      { val := (none, errs.Combine
          [ErrClass.ErrProtocol.New "expected piece hash",
           ignoreEOF (w.send (tr ++ [.signPieceHash (client.unsignedHash w) none])
              (.done (signedPieceHash (client.unsignedHash w) sig))),
           ignoreEOF (w.closeAndRecv
              (sentDone w (tr ++ [.signPieceHash (client.unsignedHash w) none])
                (signedPieceHash (client.unsignedHash w) sig))).2]),
        client := { client with finished := true },
        tr := receivedDone w (tr ++ [.signPieceHash (client.unsignedHash w) none])
          (signedPieceHash (client.unsignedHash w) sig) } := by
    unfold Upload.Commit
    simp only [hfin, hse, hsign, Bool.false_eq_true, if_false]
    unfold Upload.commitExchange
    rw [hb]
  rw [hc]
  have hhead := errs.Combine_head (.classed .ErrProtocol (.text "expected piece hash"))
    [ignoreEOF (w.send (tr ++ [.signPieceHash (client.unsignedHash w) none])
        (.done (signedPieceHash (client.unsignedHash w) sig))),
     ignoreEOF (w.closeAndRecv
        (sentDone w (tr ++ [.signPieceHash (client.unsignedHash w) none])
          (signedPieceHash (client.unsignedHash w) sig))).2]
  refine ⟨rfl, rfl, hhead.1, hhead.2 (by simp), ?_, rfl⟩
  intro h1 h2
  simp only [h1, h2]
  simp [errs.Combine, ErrClass.New, Err.isNew]

/-- Instance of `commit_without_peer_hash`: the peer closes without a response. -/
theorem commit_without_peer_hash_witness :
    ((Upload.fresh sampleLimit 4).Commit World.noResponse []).val.1 = none ∧
    ((Upload.fresh sampleLimit 4).Commit World.noResponse []).val.2 ≠ none ∧
    Err.isNew .ErrProtocol "expected piece hash"
      ((Upload.fresh sampleLimit 4).Commit World.noResponse []).val.2 :=
  have h := commit_without_peer_hash World.noResponse (Upload.fresh sampleLimit 4) [] [2]
    rfl rfl rfl (Or.inl rfl)
  ⟨h.1, h.2.2.1, h.2.2.2.2.1 rfl rfl⟩

/-- C10 as stated fails: when the peer closes without a response, the error `Commit`
returns is the protocol error with the message "expected piece hash"; it is not a
protocol error with the message "missing completion hash". -/
theorem commit_without_peer_hash_message :
    ((Upload.fresh sampleLimit 4).Commit World.noResponse []).val
      = (none, some (.classed .ErrProtocol (.text "expected piece hash"))) ∧
    ¬ Err.isNew .ErrProtocol "missing completion hash"
      ((Upload.fresh sampleLimit 4).Commit World.noResponse []).val.2 :=
  ⟨rfl, by
    have h : ((Upload.fresh sampleLimit 4).Commit World.noResponse []).val.2
        = some (.classed .ErrProtocol (.text "expected piece hash")) := rfl
    rw [h]
    simp [Err.isNew]⟩

/-! ## The error of `Commit` -/

theorem ignoreEOF_eq_none_iff (e : Option Err) :
    ignoreEOF e = none ↔ e = none ∨ e = some .EOF := by
  cases e with
  | none => simp [ignoreEOF]
  | some x => cases x <;> simp [ignoreEOF]

theorem ignoreEOF_of_ne (e : Err) (h : e ≠ .EOF) : ignoreEOF (some e) = some e := by
  cases e <;> simp [ignoreEOF] at h ⊢

/-- Combining gives `nil` exactly when every error combined is `nil`. -/
theorem errs.Combine_eq_none_iff (es : List (Option Err)) :
    errs.Combine es = none ↔ ∀ x ∈ es, x = none := by
  unfold errs.Combine
  constructor
  · intro h x hx
    cases x with
    | none => rfl
    | some e =>
      have hm : e ∈ es.reduceOption := List.reduceOption_mem_iff.mpr hx
      cases hl : es.reduceOption with
      | nil => rw [hl] at hm; cases hm
      | cons a l =>
        rw [hl] at h
        cases l <;> simp at h
  · intro h
    have hl : es.reduceOption = [] := by
      apply List.eq_nil_iff_forall_not_mem.mpr
      intro a ha
      have := h (some a) (List.reduceOption_mem_iff.mp ha)
      cases this
    rw [hl]

/-- What combining gives, read from the non-nil errors in order: `nil` for none, the error
itself for one, the group of them for several. -/
theorem errs.Combine_cases (es : List (Option Err)) :
    (es.reduceOption = [] ∧ errs.Combine es = none) ∨
    (∃ e, es.reduceOption = [e] ∧ errs.Combine es = some e) ∨
    (2 ≤ es.reduceOption.length ∧ errs.Combine es = some (.group es.reduceOption)) := by
  unfold errs.Combine
  cases hl : es.reduceOption with
  | nil => exact Or.inl ⟨rfl, rfl⟩
  | cons a l =>
    cases l with
    | nil => exact Or.inr (Or.inl ⟨a, rfl, rfl⟩)
    | cons b l2 => exact Or.inr (Or.inr ⟨by simp, rfl⟩)

/-- Combining keeps every non-nil error: none masks another. -/
theorem errs.Combine_contains (es : List (Option Err)) (e : Err) (h : some e ∈ es) :
    errs.contains (errs.Combine es) e := by
  have hm : e ∈ es.reduceOption := List.reduceOption_mem_iff.mpr h
  rcases errs.Combine_cases es with ⟨hl, _⟩ | ⟨a, hl, hc⟩ | ⟨_, hc⟩
  · rw [hl] at hm; cases hm
  · rw [hl] at hm
    simp only [List.mem_singleton] at hm
    subst hm
    exact Or.inl hc
  · exact Or.inr ⟨_, hc, hm⟩

/-- What `Commit` does when the piece hash is signed and the response carries the hash
of the peer: it returns that hash with the three errors combined, and the trace
ends with the verification. -/
theorem commit_acknowledged (w : World) (client : Upload) (tr : Trace) (sig : List Byte)
    (resp : Response) (peerHash : PieceHash)
    (hfin : client.finished = false) (hse : client.sendError = none)
    (hsign : w.signPieceHash tr (client.unsignedHash w) = .ok sig)
    (hresp : (client.commitResponse w tr sig).1 = some resp)
    (hdone : resp.done = some peerHash) :
    client.Commit w tr =
      { val := (some peerHash, errs.Combine
          [client.commitVerifyErr w tr sig peerHash,
           ignoreEOF (client.commitSendErr w tr sig),
           ignoreEOF (client.commitResponse w tr sig).2]),
        client := { client with finished := true },
        tr := receivedDone w (tr ++ [.signPieceHash (client.unsignedHash w) none])
            (signedPieceHash (client.unsignedHash w) sig) ++
          [.verifyPieceHash peerHash (signedPieceHash (client.unsignedHash w) sig).hash
            (client.commitVerifyErr w tr sig peerHash)] } := by
  have hb : (w.closeAndRecv
      (sentDone w (tr ++ [.signPieceHash (client.unsignedHash w) none])
        (signedPieceHash (client.unsignedHash w) sig))).1.bind Response.done
      = some peerHash := by
    have h := hresp
    unfold Upload.commitResponse at h
    rw [h]
    exact hdone
  unfold Upload.Commit
  simp only [hfin, hse, hsign, Bool.false_eq_true, if_false]
  unfold Upload.commitExchange
  rw [hb]
  rfl

/-- C11. Commit error aggregation with end-of-stream filtering. When the piece hash is
signed and the acknowledgment of the peer is present, the error `Commit` returns is
the combination of the verification error, the completion-send error and the close
error, the last two after `io.EOF` is dropped: with the non-nil ones of these, in
this order, it is `nil` for none, the error itself for one, and the group of them
for several. So it is `nil` if and only if the verification succeeds and each of the
send error and the close error is `nil` or `io.EOF`; and it contains every
verification error, every send error other than `io.EOF` and every close error
other than `io.EOF`. -/
theorem commit_combines_errors (w : World) (client : Upload) (tr : Trace) (sig : List Byte)
    (resp : Response) (peerHash : PieceHash)
    (hfin : client.finished = false) (hse : client.sendError = none)
    (hsign : w.signPieceHash tr (client.unsignedHash w) = .ok sig)
    (hresp : (client.commitResponse w tr sig).1 = some resp)
    (hdone : resp.done = some peerHash) :
    (([client.commitVerifyErr w tr sig peerHash, ignoreEOF (client.commitSendErr w tr sig),
          ignoreEOF (client.commitResponse w tr sig).2].reduceOption = [] ∧
        (client.Commit w tr).val.2 = none) ∨
      (∃ e, [client.commitVerifyErr w tr sig peerHash, ignoreEOF (client.commitSendErr w tr sig),
          ignoreEOF (client.commitResponse w tr sig).2].reduceOption = [e] ∧
        (client.Commit w tr).val.2 = some e) ∨
      (2 ≤ [client.commitVerifyErr w tr sig peerHash, ignoreEOF (client.commitSendErr w tr sig),
          ignoreEOF (client.commitResponse w tr sig).2].reduceOption.length ∧
        (client.Commit w tr).val.2 = some (.group
          [client.commitVerifyErr w tr sig peerHash, ignoreEOF (client.commitSendErr w tr sig),
            ignoreEOF (client.commitResponse w tr sig).2].reduceOption))) ∧
    ((client.Commit w tr).val.2 = none ↔
      client.commitVerifyErr w tr sig peerHash = none ∧
      (client.commitSendErr w tr sig = none ∨ client.commitSendErr w tr sig = some .EOF) ∧
      ((client.commitResponse w tr sig).2 = none ∨
        (client.commitResponse w tr sig).2 = some .EOF)) ∧
    (∀ e, client.commitVerifyErr w tr sig peerHash = some e →
      errs.contains (client.Commit w tr).val.2 e) ∧
    (∀ e, client.commitSendErr w tr sig = some e → e ≠ .EOF →
      errs.contains (client.Commit w tr).val.2 e) ∧
    (∀ e, (client.commitResponse w tr sig).2 = some e → e ≠ .EOF →
      errs.contains (client.Commit w tr).val.2 e) := by
  have hval : (client.Commit w tr).val.2 = errs.Combine
      [client.commitVerifyErr w tr sig peerHash, ignoreEOF (client.commitSendErr w tr sig),
        ignoreEOF (client.commitResponse w tr sig).2] := by
    rw [commit_acknowledged w client tr sig resp peerHash hfin hse hsign hresp hdone]
  rw [hval]
  refine ⟨errs.Combine_cases _, ?_, ?_, ?_, ?_⟩
  · rw [errs.Combine_eq_none_iff]
    constructor
    · intro h
      exact ⟨h _ (by simp), (ignoreEOF_eq_none_iff _).mp (h _ (by simp)),
        (ignoreEOF_eq_none_iff _).mp (h _ (by simp))⟩
    · rintro ⟨h1, h2, h3⟩ x hx
      simp only [List.mem_cons, List.mem_singleton, List.not_mem_nil, or_false] at hx
      rcases hx with hx | hx | hx
      · rw [hx, h1]
      · rw [hx]; exact (ignoreEOF_eq_none_iff _).mpr h2
      · rw [hx]; exact (ignoreEOF_eq_none_iff _).mpr h3
  · intro e he
    exact errs.Combine_contains _ e (by simp [he])
  · intro e he hne
    exact errs.Combine_contains _ e (by simp [he, ignoreEOF_of_ne e hne])
  · intro e he hne
    exact errs.Combine_contains _ e (by simp [he, ignoreEOF_of_ne e hne])

/-- Instance of `commit_combines_errors`: the completion `Send` fails, the stream closes
with `io.EOF` and the verifier rejects; the error returned is the group of the
verification error and the send error. -/
theorem commit_combines_errors_witness :
    ((Upload.fresh sampleLimit 4).Commit World.commitFails []).val
      = (some samplePeerHash, some (.group [.other 4, .other 5])) ∧
    errs.contains ((Upload.fresh sampleLimit 4).Commit World.commitFails []).val.2 (.other 4) ∧
    errs.contains ((Upload.fresh sampleLimit 4).Commit World.commitFails []).val.2 (.other 5) :=
  have h := commit_combines_errors World.commitFails (Upload.fresh sampleLimit 4) [] [2]
    { done := some samplePeerHash } samplePeerHash rfl rfl rfl rfl rfl
  ⟨rfl, h.2.2.1 (.other 4) rfl, h.2.2.2.1 (.other 5) rfl (by simp)⟩

/-! ## Cancel, and the flag `finished` -/

/-- C14. Cancel abandons without completing. On every unfinished session (with or without
a stored send error, after any number of chunks) `Cancel` sets `finished` and changes
no other field (offset, allocation step, hashed bytes, stored error); it adds exactly
one event to the trace, a `CloseSend`, so there is no `Send`, no signing, no
`CloseAndRecv` and no verification; it returns `nil` if and only if the `CloseSend`
returns `nil`; and a following `Write` returns `(0, io.EOF)` and changes nothing. -/
theorem cancel_abandons (w : World) (client : Upload) (tr : Trace)
    (hfin : client.finished = false) :
    (client.Cancel w tr).client = { client with finished := true } ∧
    (client.Cancel w tr).tr = tr ++ [.closeSend (w.closeSend tr)] ∧
    ((client.Cancel w tr).val = none ↔ w.closeSend tr = none) ∧
    ∀ (w2 : World) (fuel : Nat) (data : List Byte),
      (client.Cancel w tr).client.Write w2 fuel (client.Cancel w tr).tr data
        = .returned (0, some .EOF) (client.Cancel w tr).client (client.Cancel w tr).tr := by
  have hc : client.Cancel w tr =
      { val := ErrClass.Error.Wrap (w.closeSend tr),
        client := { client with finished := true },
        tr := tr ++ [.closeSend (w.closeSend tr)] } := by
    unfold Upload.Cancel
    simp only [hfin, Bool.false_eq_true, if_false]
  rw [hc]
  refine ⟨rfl, rfl, ErrClass.Wrap_eq_none_iff _ _, ?_⟩
  intro w2 fuel data
  unfold Upload.Write
  simp only [if_true]

/-- Instance of `cancel_abandons`: a session cancelled after a failed chunk `Send`. -/
theorem cancel_abandons_witness :
    sampleStuck.finished = false ∧
    ((sampleStuck.Cancel World.ok sampleStuckTrace).client
        = { sampleStuck with finished := true } ∧
      (sampleStuck.Cancel World.ok sampleStuckTrace).tr
        = sampleStuckTrace ++ [.closeSend (World.ok.closeSend sampleStuckTrace)] ∧
      ((sampleStuck.Cancel World.ok sampleStuckTrace).val = none ↔
        World.ok.closeSend sampleStuckTrace = none) ∧
      ∀ (w2 : World) (fuel : Nat) (data : List Byte),
        (sampleStuck.Cancel World.ok sampleStuckTrace).client.Write w2 fuel
            (sampleStuck.Cancel World.ok sampleStuckTrace).tr data
          = .returned (0, some .EOF) (sampleStuck.Cancel World.ok sampleStuckTrace).client
              (sampleStuck.Cancel World.ok sampleStuckTrace).tr) :=
  ⟨rfl, cancel_abandons World.ok sampleStuck sampleStuckTrace rfl⟩

/-- After `Commit` the session is finished. -/
theorem commit_sets_finished (w : World) (client : Upload) (tr : Trace) :
    (client.Commit w tr).client.finished = true := by
  unfold Upload.Commit
  split
  · assumption
  · split
    · rfl
    · split
      · rfl
      · unfold Upload.commitExchange
        split <;> rfl

/-- After `Cancel` the session is finished. -/
theorem cancel_sets_finished (w : World) (client : Upload) (tr : Trace) :
    (client.Cancel w tr).client.finished = true := by
  unfold Upload.Cancel
  split
  · assumption
  · rfl

/-- No call clears the flag `finished`. -/
theorem call_keeps_finished (w : World) (client : Upload) (tr : Trace) (c : Call)
    (h : client.finished = true) : (client.call w tr c).client.finished = true := by
  refine call_invariant w (fun c _ => c.finished = true) ?_ ?_ ?_ client tr c h
  · intro client tr fuel data h
    simp [Upload.Write, h, Outcome.client]
  · intro client tr _
    exact cancel_sets_finished w client tr
  · intro client tr _
    exact commit_sets_finished w client tr

/-- C15. Commit is one-shot and `finished` is one-way. (1) Whatever the signing, the
sends, the close and the verification return, the session is finished after `Commit`,
so a second `Commit` returns `(nil, io.EOF)` and changes neither the session nor the
trace: nothing is retried. (2) Over every sequence of `Write`, `Cancel` and `Commit`
calls a session that is finished stays finished, however the sequence ends. -/
theorem commit_is_one_shot :
    (∀ (w : World) (client : Upload) (tr : Trace),
      (client.Commit w tr).client.finished = true ∧
      ∀ (w2 : World),
        (client.Commit w tr).client.Commit w2 (client.Commit w tr).tr
          = { val := (none, some .EOF), client := (client.Commit w tr).client,
              tr := (client.Commit w tr).tr }) ∧
    (∀ (w : World) (calls : List Call) (client : Upload) (tr : Trace),
      client.finished = true → (client.run w calls tr).client.finished = true) := by
  constructor
  · intro w client tr
    have hf := commit_sets_finished w client tr
    refine ⟨hf, fun w2 => ?_⟩
    generalize client.Commit w tr = r at hf
    unfold Upload.Commit
    rw [if_pos hf]
  · intro w calls client tr h
    exact run_invariant w (fun c _ => c.finished = true)
      (fun client2 tr2 c h2 => call_keeps_finished w client2 tr2 c h2) calls client tr h

/-- Instance of `commit_is_one_shot`: a `Commit` whose verification fails, and a sequence
of calls on a finished session. -/
theorem commit_is_one_shot_witness :
    (((Upload.fresh sampleLimit 4).Commit World.verifyFails []).client.finished = true ∧
      ∀ (w2 : World),
        ((Upload.fresh sampleLimit 4).Commit World.verifyFails []).client.Commit w2
            ((Upload.fresh sampleLimit 4).Commit World.verifyFails []).tr
          = { val := (none, some .EOF),
              client := ((Upload.fresh sampleLimit 4).Commit World.verifyFails []).client,
              tr := ((Upload.fresh sampleLimit 4).Commit World.verifyFails []).tr }) ∧
    (sampleFinished.finished = true ∧
      (sampleFinished.run World.ok [.write 1 [7], .cancel, .commit] []).client.finished = true) :=
  ⟨commit_is_one_shot.1 World.verifyFails (Upload.fresh sampleLimit 4) [],
   ⟨rfl, commit_is_one_shot.2 World.ok [.write 1 [7], .cancel, .commit] sampleFinished [] rfl⟩⟩

/-! ## The allocation step -/

/-- A non-decreasing growth rule, applied any number of times, does not go below the
step it started from. -/
theorem iterate_growth_le (w : World) (h : w.growthNonDecreasing) (s : Int) (k : Nat) :
    s ≤ (w.nextAllocationStep^[k]) s := by
  induction k with
  | zero => simp
  | succ k ih =>
    rw [Function.iterate_succ_apply']
    exact le_trans ih (h _)

/-- Every call applies the growth rule once for each chunk it sends successfully, and
changes the allocation step in no other way. -/
theorem call_step_count (w : World) (n0 : Nat) (s0 : Int) (client : Upload) (tr : Trace)
    (c : Call)
    (h : ∃ k, (sentChunks tr).length = n0 + k ∧
      client.allocationStep = (w.nextAllocationStep^[k]) s0) :
    ∃ k, (sentChunks (client.call w tr c).tr).length = n0 + k ∧
      (client.call w tr c).client.allocationStep = (w.nextAllocationStep^[k]) s0 := by
  refine call_invariant w
    (fun c t => ∃ k, (sentChunks t).length = n0 + k ∧
      c.allocationStep = (w.nextAllocationStep^[k]) s0) ?_ ?_ ?_ client tr c h
  · intro client tr fuel data h
    refine write_invariant w
      (fun c t => ∃ k, (sentChunks t).length = n0 + k ∧
        c.allocationStep = (w.nextAllocationStep^[k]) s0) (fun c t bs h => h) ?_
      client tr fuel data h
    rintro s _ ⟨k, hk, hs⟩
    rcases writeIter_cases w s with ⟨_, h⟩ | ⟨sd, rest, _, ⟨err, h⟩ | ⟨sig, err, h⟩ | ⟨sig, err, h⟩ | ⟨sig, h⟩⟩ <;>
      rw [h] <;> simp only
    · exact ⟨k, hk, hs⟩
    · exact ⟨k, by simpa [sentChunks_append, sentChunks, Event.sentChunk?] using hk, hs⟩
    · exact ⟨k, by simpa [sentChunks_append, sentChunks, Event.sentChunk?] using hk, hs⟩
    · exact ⟨k, by simpa [sentChunks_append, sentChunks, Event.sentChunk?] using hk, hs⟩
    · refine ⟨k + 1, ?_, ?_⟩
      · simp only [sentChunks_append, List.length_append, hk]
        simp [sentChunks, Event.sentChunk?]
        omega
      · rw [Function.iterate_succ_apply', hs]
  · rintro client tr ⟨k, hk, hs⟩
    obtain ⟨_, _, _, ha, _, _, hsc⟩ := cancel_frame w client tr
    exact ⟨k, by rw [hsc]; exact hk, by rw [ha]; exact hs⟩
  · rintro client tr ⟨k, hk, hs⟩
    obtain ⟨_, _, _, ha, _, _, hsc⟩ := commit_frame w client tr
    exact ⟨k, by rw [hsc]; exact hk, by rw [ha]; exact hs⟩

/-- C16. The allocation step never decreases. (1) With a growth rule that never returns
less than the step it is given, the allocation step after any sequence of `Write`,
`Cancel` and `Commit` calls, however it ends, is at least the step before it. (2) For
every growth rule, the step after a sequence of calls is the growth rule applied to
the step before it once for each chunk sent successfully during the sequence: it
changes only in `Write`, once after each chunk whose order and chunk messages were
both sent, and a failed chunk leaves it as it is. (3) `Cancel` and `Commit` leave it
unchanged, and so does a `Write` rejected by one of the guards. -/
theorem allocation_step_never_decreases :
    (∀ (w : World) (calls : List Call) (client : Upload) (tr : Trace),
      w.growthNonDecreasing →
      client.allocationStep ≤ (client.run w calls tr).client.allocationStep) ∧
    (∀ (w : World) (calls : List Call) (client : Upload) (tr : Trace),
      ∃ k, (sentChunks (client.run w calls tr).tr).length = (sentChunks tr).length + k ∧
        (client.run w calls tr).client.allocationStep
          = (w.nextAllocationStep^[k]) client.allocationStep) ∧
    (∀ (w : World) (client : Upload) (tr : Trace),
      (client.Cancel w tr).client.allocationStep = client.allocationStep ∧
      (client.Commit w tr).client.allocationStep = client.allocationStep) ∧
    (∀ (w : World) (client : Upload) (tr : Trace) (fuel : Nat) (data : List Byte),
      client.finished = true ∨ client.sendError ≠ none →
      (client.Write w fuel tr data).client.allocationStep = client.allocationStep) := by
  have hcount : ∀ (w : World) (calls : List Call) (client : Upload) (tr : Trace),
      ∃ k, (sentChunks (client.run w calls tr).tr).length = (sentChunks tr).length + k ∧
        (client.run w calls tr).client.allocationStep
          = (w.nextAllocationStep^[k]) client.allocationStep := by
    intro w calls client tr
    exact run_invariant w
      (fun c t => ∃ k, (sentChunks t).length = (sentChunks tr).length + k ∧
        c.allocationStep = (w.nextAllocationStep^[k]) client.allocationStep)
      (fun client2 tr2 c h =>
        call_step_count w (sentChunks tr).length client.allocationStep client2 tr2 c h)
      calls client tr ⟨0, by simp, by simp⟩
  refine ⟨?_, hcount, ?_, ?_⟩
  · intro w calls client tr hg
    obtain ⟨k, _, hk⟩ := hcount w calls client tr
    rw [hk]
    exact iterate_growth_le w hg _ k
  · intro w client tr
    exact ⟨(cancel_frame w client tr).2.2.2.1, (commit_frame w client tr).2.2.2.1⟩
  · intro w client tr fuel data h
    unfold Upload.Write
    by_cases hfin : client.finished = true
    · simp [hfin, Outcome.client]
    · cases hse : client.sendError with
      | none =>
        rcases h with h | h
        · exact absurd h hfin
        · exact absurd hse h
      | some e => simp [hfin, Outcome.client]

/-- Instance of `allocation_step_never_decreases`: a `Write` of five bytes in three chunks
with a doubling step, then `Commit`. -/
theorem allocation_step_never_decreases_witness :
    World.doubling.growthNonDecreasing ∧
    (Upload.fresh sampleLimit 1).allocationStep ≤
      ((Upload.fresh sampleLimit 1).run World.doubling
        [.write 5 [1, 2, 3, 4, 5], .commit] []).client.allocationStep ∧
    ((Upload.fresh sampleLimit 1).run World.doubling
        [.write 5 [1, 2, 3, 4, 5], .commit] []).client.allocationStep = 8 :=
  ⟨fun s => le_max_left s (2 * s),
   allocation_step_never_decreases.1 World.doubling [.write 5 [1, 2, 3, 4, 5], .commit]
     (Upload.fresh sampleLimit 1) [] (fun s => le_max_left s (2 * s)),
   by decide⟩

/-! ## The order of the stream operations -/

/-- Like `write_invariant`, for a property that is only kept while the session is not
finished: a finished session is not changed by `Write`. -/
theorem write_invariant_unfinished (w : World) (I : Upload → Trace → Prop)
    (hhash : ∀ c t bs, I c t → I { c with hash := bs } t)
    (hiter : ∀ s, s.client.finished = false → s.client.sendError = none → I s.client s.tr →
      match Upload.writeIter w s with
      | .next s2 => I s2.client s2.tr
      | .exit _ _ c t => I c t
      | .panic _ c t => I c t)
    (client : Upload) (tr : Trace) (fuel : Nat) (data : List Byte) (h : I client tr) :
    I (client.Write w fuel tr data).client (client.Write w fuel tr data).tr := by
  by_cases hfin : client.finished = true
  · simpa [Upload.Write, hfin, Outcome.client, Outcome.tr] using h
  · have hfin2 : client.finished = false := by simpa using hfin
    refine (write_invariant w (fun c t => c.finished = false ∧ I c t)
      (fun c t bs h => ⟨h.1, hhash c t bs h.2⟩) ?_ client tr fuel data ⟨hfin2, h⟩).2
    rintro s hse ⟨hf, hI⟩
    have := hiter s hf hse hI
    rcases writeIter_cases w s with ⟨_, h⟩ | ⟨sd, rest, _, ⟨err, h⟩ | ⟨sig, err, h⟩ | ⟨sig, err, h⟩ | ⟨sig, h⟩⟩ <;>
      rw [h] at this ⊢ <;> exact ⟨hf, this⟩

/-- A trace without close and without completion message is in order. -/
theorem StreamOrder.of_open {tr : Trace}
    (h : ∀ e ∈ tr, e.isClose = false ∧ e.isDone = false) : StreamOrder tr := by
  refine ⟨?_, ?_, ?_, ?_⟩
  · exact List.Pairwise.imp_of_mem (R := fun _ _ => True)
      (fun ha _ _ hc => by rw [(h _ ha).1] at hc; cases hc) (List.pairwise_of_forall (by simp))
  · rw [List.countP_eq_zero.mpr (fun e he => by simp [(h e he).1])]
    exact Nat.zero_le _
  · rw [List.countP_eq_zero.mpr (fun e he => by simp [(h e he).2])]
    exact Nat.zero_le _
  · exact List.Pairwise.imp_of_mem (R := fun _ _ => True)
      (fun ha _ _ hc => by rw [(h _ ha).2] at hc; cases hc) (List.pairwise_of_forall (by simp))

/-- Events in order, added to a trace without close and without completion message, give
a trace in order. -/
theorem StreamOrder.append_open {tr new : Trace}
    (h : ∀ e ∈ tr, e.isClose = false ∧ e.isDone = false) (hn : StreamOrder new) :
    StreamOrder (tr ++ new) := by
  obtain ⟨h1, h2, h3, h4⟩ := StreamOrder.of_open h
  obtain ⟨n1, n2, n3, n4⟩ := hn
  refine ⟨?_, ?_, ?_, ?_⟩
  · rw [List.pairwise_append]
    exact ⟨h1, n1, fun a ha b _ hc => by rw [(h a ha).1] at hc; cases hc⟩
  · rw [List.countP_append, List.countP_eq_zero.mpr (fun e he => by simp [(h e he).1])]
    simpa using n2
  · rw [List.countP_append, List.countP_eq_zero.mpr (fun e he => by simp [(h e he).2])]
    simpa using n3
  · rw [List.pairwise_append]
    exact ⟨h4, n4, fun a ha b _ hc => by rw [(h a ha).2] at hc; cases hc⟩

/-- The events `Commit` adds on an unfinished session are in order. -/
theorem commit_adds_in_order (w : World) (client : Upload) (tr : Trace)
    (hfin : client.finished = false) :
    ∃ new, (client.Commit w tr).tr = tr ++ new ∧ StreamOrder new := by
  unfold Upload.Commit
  simp only [hfin, Bool.false_eq_true, if_false]
  split
  · exact ⟨_, rfl, by simp [StreamOrder, Event.isClose, Event.isDone, Event.isSend]⟩
  · split
    · exact ⟨_, rfl, by simp [StreamOrder, Event.isClose, Event.isDone, Event.isSend]⟩
    · unfold Upload.commitExchange
      split
      · simp only [receivedDone, sentDone, List.append_assoc, List.singleton_append,
          List.cons_append, List.nil_append]
        exact ⟨_, rfl, by simp [StreamOrder, Event.isClose, Event.isDone, Event.isSend]⟩
      · simp only [receivedDone, sentDone, List.append_assoc, List.singleton_append,
          List.cons_append, List.nil_append]
        exact ⟨_, rfl, by simp [StreamOrder, Event.isClose, Event.isDone, Event.isSend]⟩

/-- Every call keeps `CloseInv`. -/
theorem call_closeInv (w : World) (client : Upload) (tr : Trace) (c : Call)
    (h : CloseInv client tr) : CloseInv (client.call w tr c).client (client.call w tr c).tr := by
  refine call_invariant w CloseInv ?_ ?_ ?_ client tr c h
  · intro client tr fuel data h
    refine write_invariant_unfinished w CloseInv (fun c t bs h => h) ?_ client tr fuel data h
    rintro s hf _ ⟨hopen, _⟩
    have hopen := hopen hf
    have key : ∀ new : Trace, (∀ e ∈ new, e.isClose = false ∧ e.isDone = false) →
        ∀ c : Upload, CloseInv c (s.tr ++ new) := by
      intro new hnew c
      have hall : ∀ e ∈ s.tr ++ new, e.isClose = false ∧ e.isDone = false := by
        intro e he
        rcases List.mem_append.mp he with he | he
        · exact hopen e he
        · exact hnew e he
      exact ⟨fun _ => hall, StreamOrder.of_open hall⟩
    rcases writeIter_cases w s with ⟨_, h⟩ | ⟨sd, rest, _, ⟨err, h⟩ | ⟨sig, err, h⟩ | ⟨sig, err, h⟩ | ⟨sig, h⟩⟩ <;>
      rw [h] <;> simp only
    · simpa using key [] (by simp) s.client
    · exact key _ (by simp [Event.isClose, Event.isDone]) _
    · exact key _ (by simp [Event.isClose, Event.isDone]) _
    · exact key _ (by simp [Event.isClose, Event.isDone]) _
    · exact key _ (by simp [Event.isClose, Event.isDone]) _
  · rintro client tr ⟨hopen, hord⟩
    unfold Upload.Cancel
    by_cases hfin : client.finished = true
    · simp only [hfin, if_true]
      exact ⟨hopen, hord⟩
    · have hfin2 : client.finished = false := by simpa using hfin
      simp only [hfin2, Bool.false_eq_true, if_false]
      exact ⟨fun h => by simp at h, StreamOrder.append_open (hopen hfin2)
        (by simp [StreamOrder, Event.isClose, Event.isDone, Event.isSend])⟩
  · rintro client tr ⟨hopen, hord⟩
    by_cases hfin : client.finished = true
    · have : client.Commit w tr = { val := (none, some .EOF), client := client, tr := tr } := by
        unfold Upload.Commit
        rw [if_pos hfin]
      rw [this]
      exact ⟨hopen, hord⟩
    · have hfin2 : client.finished = false := by simpa using hfin
      obtain ⟨new, hnew, hso⟩ := commit_adds_in_order w client tr hfin2
      refine ⟨fun h => ?_, ?_⟩
      · rw [commit_sets_finished] at h
        cases h
      · rw [hnew]
        exact StreamOrder.append_open (hopen hfin2) hso

/-- C17. Nothing is sent after the stream is closed. In the trace of any sequence of
`Write`, `Cancel` and `Commit` calls on a session, however the sequence ends, starting
from a trace without close and without completion message: no `Send` occurs after a
`CloseSend` or `CloseAndRecv`; at most one close occurs in all; at most one
completion (`Done`) message is passed to `Send`; and no `Send`, so no order and no
chunk message, occurs after the `Send` of the completion message. -/
theorem nothing_sent_after_close (w : World) (calls : List Call) (client : Upload)
    (tr : Trace) (h : ∀ e ∈ tr, e.isClose = false ∧ e.isDone = false) :
    (client.run w calls tr).tr.Pairwise (fun a b => a.isClose = true → b.isSend = false) ∧
    (client.run w calls tr).tr.countP Event.isClose ≤ 1 ∧
    (client.run w calls tr).tr.countP Event.isDone ≤ 1 ∧
    (client.run w calls tr).tr.Pairwise (fun a b => a.isDone = true → b.isSend = false) :=
  (run_invariant w CloseInv (fun client2 tr2 c h2 => call_closeInv w client2 tr2 c h2)
    calls client tr ⟨fun _ => h, StreamOrder.of_open h⟩).2

/-- Instance of `nothing_sent_after_close`: `Write`, `Commit`, then `Write` and `Cancel`
on the finished session. -/
theorem nothing_sent_after_close_witness :
    (∀ e ∈ ([] : Trace), e.isClose = false ∧ e.isDone = false) ∧
    (((Upload.fresh sampleLimit 2).run World.ok
        [.write 3 [1, 2, 3], .commit, .write 1 [4], .cancel] []).tr.Pairwise
        (fun a b => a.isClose = true → b.isSend = false) ∧
      ((Upload.fresh sampleLimit 2).run World.ok
        [.write 3 [1, 2, 3], .commit, .write 1 [4], .cancel] []).tr.countP Event.isClose ≤ 1 ∧
      ((Upload.fresh sampleLimit 2).run World.ok
        [.write 3 [1, 2, 3], .commit, .write 1 [4], .cancel] []).tr.countP Event.isDone ≤ 1 ∧
      ((Upload.fresh sampleLimit 2).run World.ok
        [.write 3 [1, 2, 3], .commit, .write 1 [4], .cancel] []).tr.Pairwise
        (fun a b => a.isDone = true → b.isSend = false)) :=
  ⟨by simp, nothing_sent_after_close World.ok
    [.write 3 [1, 2, 3], .commit, .write 1 [4], .cancel] (Upload.fresh sampleLimit 2) []
    (by simp)⟩

/-! ## Termination of the loop of `Write` -/

/-- With a step of at least 1 a pass that goes on has shortened the data. -/
theorem writeIter_shortens (w : World) (s s2 : LoopState)
    (hstep : 1 ≤ s.client.allocationStep) (hdata : s.data.length ≠ 0)
    (hi : Upload.writeIter w s = .next s2) :
    s2.data.length < s.data.length ∧
    s2.client.allocationStep = w.nextAllocationStep s.client.allocationStep := by
  obtain ⟨sd0, rest0, hp0, hlt⟩ := pickChunk_pos (by omega : 0 < s.client.allocationStep) hdata
  rcases writeIter_cases w s with ⟨_, h⟩ | ⟨sd, rest, hpc, ⟨err, h⟩ | ⟨sig, err, h⟩ | ⟨sig, err, h⟩ | ⟨sig, h⟩⟩ <;>
    rw [h] at hi <;> cases hi
  rw [hp0] at hpc
  cases hpc
  exact ⟨hlt, rfl⟩

/-- With a step of 0 the chunk picked from data that is not empty is empty, and all of
the data remains. -/
theorem pickChunk_zero (data : List Byte) (hdata : data.length ≠ 0) :
    pickChunk 0 data = some ([], data) := by
  unfold pickChunk
  have h : (0 : Int) < (data.length : Int) := by omega
  simp [h]

/-- With a step of 0 a pass that goes on has cut an empty chunk: the data and the count
are as before. -/
theorem writeIter_zero_step (w : World) (s s2 : LoopState)
    (hstep : s.client.allocationStep = 0) (hdata : s.data.length ≠ 0)
    (hi : Upload.writeIter w s = .next s2) :
    s2.data = s.data ∧ s2.written = s.written ∧
    chunkMsgs s2.tr = chunkMsgs s.tr ++ [(s.client.offset, [])] ∧
    s2.client.allocationStep = w.nextAllocationStep 0 := by
  have hp0 := pickChunk_zero s.data hdata
  rcases writeIter_cases w s with ⟨_, h⟩ | ⟨sd, rest, hpc, ⟨err, h⟩ | ⟨sig, err, h⟩ | ⟨sig, err, h⟩ | ⟨sig, h⟩⟩ <;>
    rw [h] at hi <;> cases hi
  rw [hstep, hp0] at hpc
  cases hpc
  refine ⟨rfl, by simp, ?_, by simp [hstep]⟩
  simp [chunkMsgs_append, chunkMsgs, msgs, Event.msg?, Msg.chunk?]

/-- With a step of at least 1 and a growth rule that never returns less than 1, the loop
of `Write` returns within `len(data)` passes, having passed at most `len(data)`
chunks and at most `2 * len(data)` messages to `Send`. -/
theorem writeLoop_terminates (w : World) (hg : ∀ s, 1 ≤ w.nextAllocationStep s) (fuel : Nat)
    (s : LoopState) (hfuel : s.data.length ≤ fuel) (hstep : 1 ≤ s.client.allocationStep) :
    ∃ n err c new, Upload.writeLoop w fuel s = .returned n err c (s.tr ++ new) ∧
      (chunkMsgs new).length ≤ s.data.length ∧ (msgs new).length ≤ 2 * s.data.length := by
  induction fuel generalizing s with
  | zero =>
    have hd : s.data.length = 0 := by omega
    refine ⟨s.written, none, s.client, [], ?_, by simp [chunkMsgs, msgs], by simp [msgs]⟩
    unfold Upload.writeLoop
    simp [hd]
  | succ fuel ih =>
    by_cases hd : s.data.length = 0
    · refine ⟨s.written, none, s.client, [], ?_, by simp [chunkMsgs, msgs], by simp [msgs]⟩
      unfold Upload.writeLoop
      simp [hd]
    · have hpos : 1 ≤ s.data.length := by omega
      obtain ⟨sd0, rest0, hp0, hlt⟩ :=
        pickChunk_pos (by omega : 0 < s.client.allocationStep) hd
      unfold Upload.writeLoop
      simp only [hd, if_false]
      rcases writeIter_cases w s with ⟨hnone, _⟩ | ⟨sd, rest, hpc, ⟨err, h⟩ | ⟨sig, err, h⟩ | ⟨sig, err, h⟩ | ⟨sig, h⟩⟩
      · rw [hp0] at hnone
        cases hnone
      · rw [h]
        exact ⟨_, _, _, _, rfl, by simp [chunkMsgs, msgs, Event.msg?],
          by simp [msgs, Event.msg?]⟩
      · rw [h]
        refine ⟨_, _, _, _, rfl, by simp [chunkMsgs, msgs, Event.msg?, Msg.chunk?], ?_⟩
        simp [msgs, Event.msg?]
        omega
      · rw [h]
        refine ⟨_, _, _, _, rfl, ?_, ?_⟩
        · simp [chunkMsgs, msgs, Event.msg?, Msg.chunk?]
          omega
        · simp [msgs, Event.msg?]
          omega
      · rw [h]
        rw [hp0] at hpc
        cases hpc
        obtain ⟨n, err, c, new, hloop, hc, hm⟩ := ih
          { client :=
              { s.client with
                offset := s.client.offset + (sd0.length : Int),
                allocationStep := w.nextAllocationStep s.client.allocationStep },
            tr := s.tr ++ [.signOrder (s.client.unsignedOrder sd0) none,
                    .send (.order (signedOrder (s.client.unsignedOrder sd0) sig)) none,
                    .send (.chunk s.client.offset sd0) none],
            data := rest0,
            written := s.written + sd0.length }
          (by simp only; omega) (hg _)
        refine ⟨n, err, c, [.signOrder (s.client.unsignedOrder sd0) none,
                    .send (.order (signedOrder (s.client.unsignedOrder sd0) sig)) none,
                    .send (.chunk s.client.offset sd0) none] ++ new, ?_, ?_, ?_⟩
        · simp only
          rw [hloop]
          simp only [List.append_assoc]
        · have h3 : (chunkMsgs [.signOrder (s.client.unsignedOrder sd0) none,
              .send (.order (signedOrder (s.client.unsignedOrder sd0) sig)) none,
              .send (.chunk s.client.offset sd0) none]).length = 1 := by
            simp [chunkMsgs, msgs, Event.msg?, Msg.chunk?]
          rw [chunkMsgs_append, List.length_append, h3]
          simp only at hc
          omega
        · have h3 : (msgs [.signOrder (s.client.unsignedOrder sd0) none,
              .send (.order (signedOrder (s.client.unsignedOrder sd0) sig)) none,
              .send (.chunk s.client.offset sd0) none]).length = 2 := by
            simp [msgs, Event.msg?]
          rw [msgs_append, List.length_append, h3]
          simp only at hm
          omega

/-- With a step that stays 0, in a world where every signing and every `Send` succeeds,
the loop of `Write` over data that is not empty is not left within any number of
passes. -/
theorem writeLoop_zero_step_runs_on (w : World) (hw : w.allSucceed)
    (h0 : w.nextAllocationStep 0 = 0) (fuel : Nat) (s : LoopState)
    (hstep : s.client.allocationStep = 0) (hdata : s.data.length ≠ 0) :
    ∃ c t, Upload.writeLoop w fuel s = .outOfFuel c t := by
  induction fuel generalizing s with
  | zero =>
    unfold Upload.writeLoop
    simp [hdata]
  | succ fuel ih =>
    have hp : pickChunk s.client.allocationStep s.data = some ([], s.data) := by
      rw [hstep]
      exact pickChunk_zero s.data hdata
    obtain ⟨sig, hi⟩ := writeIter_allSucceed w hw s [] s.data hp
    unfold Upload.writeLoop
    simp only [hdata, if_false, hi]
    exact ih _ (by simp [hstep, h0]) hdata

/-- C18. The loop of `Write` terminates under a positive step. (1) On an open session with
an allocation step of at least 1 and a growth rule that never returns less than 1, for
every data and every pattern of signing and send outcomes, `Write` returns within
`len(data)` passes of its loop, having passed at most `len(data)` chunks and at most
`2 * len(data)` messages to `Send`. (2) The reason: with a step of at least 1 a pass
of the loop either leaves the loop or strictly shortens the remaining data. (3) With
a step of 0 and data that is not empty, a pass that goes on has cut an empty chunk
and left the remaining data as it was, and the next step is what the growth rule
makes of 0; (4) so with a growth rule that keeps 0 at 0, where every signing and
every `Send` succeeds, `Write` does not return within any number of passes. -/
theorem write_terminates :
    (∀ (w : World) (client : Upload) (tr : Trace) (data : List Byte) (fuel : Nat),
      client.finished = false → client.sendError = none → 1 ≤ client.allocationStep →
      (∀ s, 1 ≤ w.nextAllocationStep s) → data.length ≤ fuel →
      ∃ n err c new, client.Write w fuel tr data = .returned (n, err) c (tr ++ new) ∧
        (chunkMsgs new).length ≤ data.length ∧ (msgs new).length ≤ 2 * data.length) ∧
    (∀ (w : World) (s s2 : LoopState),
      1 ≤ s.client.allocationStep → s.data.length ≠ 0 → Upload.writeIter w s = .next s2 →
      s2.data.length < s.data.length) ∧
    (∀ (w : World) (s s2 : LoopState),
      s.client.allocationStep = 0 → s.data.length ≠ 0 → Upload.writeIter w s = .next s2 →
      s2.data = s.data ∧ chunkMsgs s2.tr = chunkMsgs s.tr ++ [(s.client.offset, [])] ∧
      s2.client.allocationStep = w.nextAllocationStep 0) ∧
    (∀ (w : World) (client : Upload) (tr : Trace) (data : List Byte) (fuel : Nat),
      client.finished = false → client.sendError = none → client.allocationStep = 0 →
      w.nextAllocationStep 0 = 0 → w.allSucceed → data.length ≠ 0 →
      ∃ c t, client.Write w fuel tr data = .outOfFuel c t) := by
  refine ⟨?_, ?_, ?_, ?_⟩
  · intro w client tr data fuel hfin hse hstep hg hfuel
    obtain ⟨n, err, c, new, hloop, hc, hm⟩ := writeLoop_terminates w hg fuel
      { client := client, tr := tr, data := data, written := 0 } hfuel hstep
    refine ⟨n, err, c.hashWritten data n, new, ?_, hc, hm⟩
    simp only at hloop
    simp [Upload.Write, hfin, hse, hloop]
  · intro w s s2 hstep hdata hi
    exact (writeIter_shortens w s s2 hstep hdata hi).1
  · intro w s s2 hstep hdata hi
    obtain ⟨h1, _, h3, h4⟩ := writeIter_zero_step w s s2 hstep hdata hi
    exact ⟨h1, h3, h4⟩
  · intro w client tr data fuel hfin hse hstep h0 hw hdata
    obtain ⟨c, t, hloop⟩ := writeLoop_zero_step_runs_on w hw h0 fuel
      { client := client, tr := tr, data := data, written := 0 } hstep hdata
    exact ⟨c, t, by simp [Upload.Write, hfin, hse, hloop]⟩

/-- Instance of `write_terminates`: five bytes written with a step that starts at 1 and
grows by half, and three bytes written with a step that stays 0, both in a world
where every signing and every `Send` succeeds. -/
theorem write_terminates_witness :
    ((Upload.fresh sampleLimit 1).finished = false ∧
      (Upload.fresh sampleLimit 1).sendError = none ∧
      1 ≤ (Upload.fresh sampleLimit 1).allocationStep ∧
      (∀ s, 1 ≤ World.growsByHalf.nextAllocationStep s) ∧
      ∃ n err c new,
        (Upload.fresh sampleLimit 1).Write World.growsByHalf 5 [] [1, 2, 3, 4, 5]
          = .returned (n, err) c ([] ++ new) ∧
        (chunkMsgs new).length ≤ [(1 : Byte), 2, 3, 4, 5].length ∧
        (msgs new).length ≤ 2 * [(1 : Byte), 2, 3, 4, 5].length) ∧
    ((Upload.fresh sampleLimit 0).allocationStep = 0 ∧
      World.stuckAtZero.nextAllocationStep 0 = 0 ∧ World.stuckAtZero.allSucceed ∧
      ∃ c t, (Upload.fresh sampleLimit 0).Write World.stuckAtZero 7 [] [1, 2, 3]
        = .outOfFuel c t) :=
  ⟨⟨rfl, rfl, by decide, fun s => le_trans (le_max_left 1 s) (le_max_left _ _),
    write_terminates.1 World.growsByHalf (Upload.fresh sampleLimit 1) [] [1, 2, 3, 4, 5] 5
      rfl rfl (by decide) (fun s => le_trans (le_max_left 1 s) (le_max_left _ _))
      (by decide)⟩,
   ⟨rfl, rfl, ⟨fun _ _ => ⟨[1], rfl⟩, fun _ _ => rfl⟩,
    write_terminates.2.2.2 World.stuckAtZero (Upload.fresh sampleLimit 0) [] [1, 2, 3] 7
      rfl rfl rfl rfl ⟨fun _ _ => ⟨[1], rfl⟩, fun _ _ => rfl⟩ (by decide)⟩⟩

/-! ## The sizes of the chunks -/

/-- The chunk picked from data that is not empty: not longer than the step, not empty when
the step is positive, and of exactly the length of the step when data remains. -/
theorem pickChunk_sizes {step : Int} {data sendData rest : List Byte}
    (h : pickChunk step data = some (sendData, rest)) (hdata : data.length ≠ 0) :
    (sendData.length : Int) ≤ step ∧ (0 < step → 1 ≤ sendData.length) ∧
    (rest.length ≠ 0 → (sendData.length : Int) = step) := by
  unfold pickChunk at h
  split at h
  · split at h
    · cases h
    · cases h
      simp only [List.length_take, List.length_drop]
      omega
  · cases h
    simp only [List.length_nil]
    omega

/-- The chunks passed to `Send` by the loop of `Write` have the sizes of `ChunkSizes`,
however the loop ends. -/
theorem writeLoop_chunk_sizes (w : World) (client : Upload) (tr : Trace) (data : List Byte)
    (fuel : Nat) (hse : client.sendError = none) :
    match Upload.writeLoop w fuel { client := client, tr := tr, data := data, written := 0 } with
    | .returned _ _ _ t =>
        ∃ new, t = tr ++ new ∧
          ChunkSizes w.nextAllocationStep client.allocationStep (chunkMsgs new)
    | .panicked _ _ t =>
        ∃ new, t = tr ++ new ∧
          ChunkSizes w.nextAllocationStep client.allocationStep (chunkMsgs new)
    | .outOfFuel _ t =>
        ∃ new, t = tr ++ new ∧
          ChunkSizes w.nextAllocationStep client.allocationStep (chunkMsgs new) := by
  refine writeLoop_induct w
    (fun s => s.client.sendError = none ∧
      ∃ new, s.tr = tr ++ new ∧
        s.client.allocationStep
          = (w.nextAllocationStep^[(chunkMsgs new).length]) client.allocationStep ∧
        ∀ i c, (chunkMsgs new)[i]? = some c →
          (c.2.length : Int) ≤ (w.nextAllocationStep^[i]) client.allocationStep ∧
          (0 < (w.nextAllocationStep^[i]) client.allocationStep → 1 ≤ c.2.length) ∧
          (i + 1 < (chunkMsgs new).length ∨ s.data.length ≠ 0 →
            (c.2.length : Int) = (w.nextAllocationStep^[i]) client.allocationStep))
    (fun x => match x with
      | .returned _ _ _ t =>
        ∃ new, t = tr ++ new ∧
          ChunkSizes w.nextAllocationStep client.allocationStep (chunkMsgs new)
      | .panicked _ _ t =>
        ∃ new, t = tr ++ new ∧
          ChunkSizes w.nextAllocationStep client.allocationStep (chunkMsgs new)
      | .outOfFuel _ t =>
        ∃ new, t = tr ++ new ∧
          ChunkSizes w.nextAllocationStep client.allocationStep (chunkMsgs new))
    ?_ ?_ ?_ ?_ ?_ fuel _
    ⟨hse, [], by simp, by simp [chunkMsgs, msgs], by simp [chunkMsgs, msgs]⟩
  · rintro s ⟨_, new, ht, _, hall⟩ _
    exact ⟨new, ht, fun i c hc =>
      ⟨(hall i c hc).1, (hall i c hc).2.1, fun h => (hall i c hc).2.2 (Or.inl h)⟩⟩
  · rintro s ⟨_, new, ht, _, hall⟩ _
    exact ⟨new, ht, fun i c hc =>
      ⟨(hall i c hc).1, (hall i c hc).2.1, fun h => (hall i c hc).2.2 (Or.inl h)⟩⟩
  · rintro s s2 ⟨hs, new, ht, hstep, hall⟩ hd hi
    rcases writeIter_cases w s with ⟨_, h⟩ | ⟨sd, rest, hpc, ⟨err, h⟩ | ⟨sig, err, h⟩ | ⟨sig, err, h⟩ | ⟨sig, h⟩⟩ <;>
      rw [h] at hi <;> cases hi
    obtain ⟨p1, p2, p3⟩ := pickChunk_sizes hpc hd
    have hcs : chunkMsgs (new ++ [.signOrder (s.client.unsignedOrder sd) none,
        .send (.order (signedOrder (s.client.unsignedOrder sd) sig)) none,
        .send (.chunk s.client.offset sd) none])
        = chunkMsgs new ++ [(s.client.offset, sd)] := by
      simp [chunkMsgs_append, chunkMsgs, msgs, Event.msg?, Msg.chunk?]
    refine ⟨hs, new ++ [.signOrder (s.client.unsignedOrder sd) none,
        .send (.order (signedOrder (s.client.unsignedOrder sd) sig)) none,
        .send (.chunk s.client.offset sd) none], by simp [ht], ?_, ?_⟩
    · rw [hcs, List.length_append, List.length_singleton, Function.iterate_succ_apply',
        ← hstep]
    · rw [hcs]
      intro i c hc
      rcases getElem?_append_one hc with ⟨hlt, hc⟩ | ⟨hil, hx⟩
      · exact ⟨(hall i c hc).1, (hall i c hc).2.1, fun _ => (hall i c hc).2.2 (Or.inr hd)⟩
      · subst hx
        rw [hil, ← hstep]
        refine ⟨p1, p2, fun h => ?_⟩
        rcases h with h | h
        · simp at h
        · exact p3 h
  · rintro s n err c t ⟨hs, new, ht, hstep, hall⟩ hd hi
    rcases writeIter_cases w s with ⟨_, h⟩ | ⟨sd, rest, hpc, ⟨e, h⟩ | ⟨sig, e, h⟩ | ⟨sig, e, h⟩ | ⟨sig, h⟩⟩ <;>
      rw [h] at hi <;> cases hi
    · refine ⟨new ++ [.signOrder (s.client.unsignedOrder sd) (some e)], by simp [ht], ?_⟩
      have hcs : chunkMsgs (new ++ [.signOrder (s.client.unsignedOrder sd) (some e)])
          = chunkMsgs new := by
        simp [chunkMsgs_append, chunkMsgs, msgs, Event.msg?]
      rw [hcs]
      exact fun i c hc =>
        ⟨(hall i c hc).1, (hall i c hc).2.1, fun _ => (hall i c hc).2.2 (Or.inr hd)⟩
    · refine ⟨new ++ [.signOrder (s.client.unsignedOrder sd) none,
          .send (.order (signedOrder (s.client.unsignedOrder sd) sig)) (some e)],
        by simp [ht], ?_⟩
      have hcs : chunkMsgs (new ++ [.signOrder (s.client.unsignedOrder sd) none,
          .send (.order (signedOrder (s.client.unsignedOrder sd) sig)) (some e)])
          = chunkMsgs new := by
        simp [chunkMsgs_append, chunkMsgs, msgs, Event.msg?, Msg.chunk?]
      rw [hcs]
      exact fun i c hc =>
        ⟨(hall i c hc).1, (hall i c hc).2.1, fun _ => (hall i c hc).2.2 (Or.inr hd)⟩
    · obtain ⟨p1, p2, _⟩ := pickChunk_sizes hpc hd
      refine ⟨new ++ [.signOrder (s.client.unsignedOrder sd) none,
          .send (.order (signedOrder (s.client.unsignedOrder sd) sig)) none,
          .send (.chunk s.client.offset sd) (some e)], by simp [ht], ?_⟩
      have hcs : chunkMsgs (new ++ [.signOrder (s.client.unsignedOrder sd) none,
          .send (.order (signedOrder (s.client.unsignedOrder sd) sig)) none,
          .send (.chunk s.client.offset sd) (some e)])
          = chunkMsgs new ++ [(s.client.offset, sd)] := by
        simp [chunkMsgs_append, chunkMsgs, msgs, Event.msg?, Msg.chunk?]
      rw [hcs]
      intro i c hc
      rcases getElem?_append_one hc with ⟨hlt, hc⟩ | ⟨hil, hx⟩
      · exact ⟨(hall i c hc).1, (hall i c hc).2.1, fun _ => (hall i c hc).2.2 (Or.inr hd)⟩
      · subst hx
        rw [hil, ← hstep]
        exact ⟨p1, p2, fun h => by simp at h⟩
  · rintro s n c t ⟨hs, new, ht, hstep, hall⟩ hd hi
    rcases writeIter_cases w s with ⟨_, h⟩ | ⟨sd, rest, hpc, ⟨e, h⟩ | ⟨sig, e, h⟩ | ⟨sig, e, h⟩ | ⟨sig, h⟩⟩ <;>
      rw [h] at hi <;> cases hi
    exact ⟨new, ht, fun i c hc =>
      ⟨(hall i c hc).1, (hall i c hc).2.1, fun _ => (hall i c hc).2.2 (Or.inr hd)⟩⟩

/-- A pass of the loop of `Write` only adds to the trace. -/
theorem writeIter_extends (w : World) (s : LoopState) :
    match Upload.writeIter w s with
    | .next s2 => ∃ new, s2.tr = s.tr ++ new
    | .exit _ _ _ t => ∃ new, t = s.tr ++ new
    | .panic _ _ t => ∃ new, t = s.tr ++ new := by
  rcases writeIter_cases w s with ⟨_, h⟩ | ⟨sd, rest, hpc, ⟨e, h⟩ | ⟨sig, e, h⟩ | ⟨sig, e, h⟩ | ⟨sig, h⟩⟩ <;>
    rw [h] <;> simp only
  · exact ⟨[], by simp⟩
  · exact ⟨_, rfl⟩
  · exact ⟨_, rfl⟩
  · exact ⟨_, rfl⟩
  · exact ⟨_, rfl⟩

/-- The loop of `Write` only adds to the trace. -/
theorem writeLoop_extends (w : World) (fuel : Nat) (s : LoopState) :
    ∃ new, (Upload.writeLoop w fuel s).tr = s.tr ++ new := by
  induction fuel generalizing s with
  | zero =>
    unfold Upload.writeLoop
    split <;> exact ⟨[], by simp [LoopExit.tr]⟩
  | succ fuel ih =>
    unfold Upload.writeLoop
    split
    · exact ⟨[], by simp [LoopExit.tr]⟩
    · have he := writeIter_extends w s
      cases hi : Upload.writeIter w s with
      | next s2 =>
        rw [hi] at he
        obtain ⟨new1, h1⟩ := he
        obtain ⟨new2, h2⟩ := ih s2
        exact ⟨new1 ++ new2, by simp only [h2, h1, List.append_assoc]⟩
      | exit n err c t =>
        rw [hi] at he
        exact he
      | panic n c t =>
        rw [hi] at he
        exact he

/-- The trace of `Write` on an open session is the trace of its loop. -/
theorem write_tr_eq_loop (w : World) (client : Upload) (tr : Trace) (fuel : Nat)
    (data : List Byte) (hfin : client.finished = false) (hse : client.sendError = none) :
    (client.Write w fuel tr data).tr
      = (Upload.writeLoop w fuel
          { client := client, tr := tr, data := data, written := 0 }).tr := by
  unfold Upload.Write
  simp only [hfin, hse, Bool.false_eq_true, if_false]
  cases Upload.writeLoop w fuel { client := client, tr := tr, data := data, written := 0 } <;>
    rfl

/-- On an open session, where the order of the first chunk is signed and sent, a `Write` of
data that is not empty passes a chunk to `Send`, whatever happens afterwards. -/
theorem write_sends_first_chunk (w : World) (client : Upload) (tr : Trace) (data : List Byte)
    (fuel : Nat) (sd rest sig : List Byte)
    (hfin : client.finished = false) (hse : client.sendError = none)
    (hdata : data.length ≠ 0) (hfuel : 1 ≤ fuel)
    (hp : pickChunk client.allocationStep data = some (sd, rest))
    (hsig : w.signOrder tr (client.unsignedOrder sd) = .ok sig)
    (hsend : w.send (tr ++ [.signOrder (client.unsignedOrder sd) none])
      (.order (signedOrder (client.unsignedOrder sd) sig)) = none) :
    (chunkMsgs tr).length < (chunkMsgs (client.Write w fuel tr data).tr).length := by
  rw [write_tr_eq_loop w client tr fuel data hfin hse]
  obtain ⟨f, rfl⟩ : ∃ f, fuel = f + 1 := ⟨fuel - 1, by omega⟩
  have hchunk : ∀ r, (chunkMsgs (tr ++ [Event.signOrder (client.unsignedOrder sd) none,
      .send (.order (signedOrder (client.unsignedOrder sd) sig)) none,
      .send (.chunk client.offset sd) r])).length = (chunkMsgs tr).length + 1 := by
    intro r
    simp [chunkMsgs_append, chunkMsgs, msgs, Event.msg?, Msg.chunk?]
  unfold Upload.writeLoop
  simp only [hdata, if_false]
  cases hc : w.send (tr ++ [.signOrder (client.unsignedOrder sd) none,
      .send (.order (signedOrder (client.unsignedOrder sd) sig)) none])
      (.chunk client.offset sd) with
  | some err =>
    have hi : Upload.writeIter w { client := client, tr := tr, data := data, written := 0 }
        = .exit 0 (ErrClass.ErrProtocol.Wrap (some err)) { client with sendError := some err }
            (tr ++ [.signOrder (client.unsignedOrder sd) none,
              .send (.order (signedOrder (client.unsignedOrder sd) sig)) none,
              .send (.chunk client.offset sd) (some err)]) := by
      simp [Upload.writeIter, hp, hsig, hsend, hc]
    rw [hi]
    simp only [LoopExit.tr]
    rw [hchunk]
    omega
  | none =>
    have hi : Upload.writeIter w { client := client, tr := tr, data := data, written := 0 }
        = .next
            { client :=
                { client with
                  offset := client.offset + (sd.length : Int),
                  allocationStep := w.nextAllocationStep client.allocationStep },
              tr := tr ++ [.signOrder (client.unsignedOrder sd) none,
                      .send (.order (signedOrder (client.unsignedOrder sd) sig)) none,
                      .send (.chunk client.offset sd) none],
              data := rest,
              written := 0 + sd.length } := by
      simp [Upload.writeIter, hp, hsig, hsend, hc]
    rw [hi]
    simp only
    obtain ⟨new, hnew⟩ := writeLoop_extends w f
      { client :=
          { client with
            offset := client.offset + (sd.length : Int),
            allocationStep := w.nextAllocationStep client.allocationStep },
        tr := tr ++ [.signOrder (client.unsignedOrder sd) none,
                .send (.order (signedOrder (client.unsignedOrder sd) sig)) none,
                .send (.chunk client.offset sd) none],
        data := rest,
        written := 0 + sd.length }
    rw [hnew]
    simp only
    rw [chunkMsgs_append, List.length_append, hchunk]
    omega

/-- A `Write` rejected by one of the two guards leaves the trace as it was. -/
theorem write_rejected_tr (w : World) (client : Upload) (tr : Trace) (fuel : Nat)
    (data : List Byte) (h : client.finished = true ∨ client.sendError ≠ none) :
    (client.Write w fuel tr data).tr = tr := by
  unfold Upload.Write
  by_cases hfin : client.finished = true
  · simp [hfin, Outcome.tr]
  · cases hse : client.sendError with
    | some e => simp [hfin, Outcome.tr]
    | none =>
      rcases h with h | h
      · exact absurd h hfin
      · exact absurd hse h

/-- On an open session, a `Write` of data that is not empty whose first order signing
fails adds the failed signing to the trace and nothing else. -/
theorem write_first_sign_fails (w : World) (client : Upload) (tr : Trace) (data : List Byte)
    (fuel : Nat) (sd rest : List Byte) (e : Err)
    (hfin : client.finished = false) (hse : client.sendError = none)
    (hdata : data.length ≠ 0) (hfuel : 1 ≤ fuel)
    (hp : pickChunk client.allocationStep data = some (sd, rest))
    (hsig : w.signOrder tr (client.unsignedOrder sd) = .error e) :
    (client.Write w fuel tr data).tr = tr ++ [.signOrder (client.unsignedOrder sd) (some e)] := by
  rw [write_tr_eq_loop w client tr fuel data hfin hse]
  obtain ⟨f, rfl⟩ : ∃ f, fuel = f + 1 := ⟨fuel - 1, by omega⟩
  unfold Upload.writeLoop
  simp only [hdata, if_false]
  have hi : Upload.writeIter w { client := client, tr := tr, data := data, written := 0 }
      = .exit 0 (ErrClass.ErrInternal.Wrap (some e)) client
          (tr ++ [.signOrder (client.unsignedOrder sd) (some e)]) := by
    simp [Upload.writeIter, hp, hsig]
  rw [hi]
  rfl

/-- On an open session, a `Write` of data that is not empty whose first order is signed
but not sent adds the signing and the failed `Send` to the trace and nothing else. -/
theorem write_first_order_send_fails (w : World) (client : Upload) (tr : Trace)
    (data : List Byte) (fuel : Nat) (sd rest sig : List Byte) (e : Err)
    (hfin : client.finished = false) (hse : client.sendError = none)
    (hdata : data.length ≠ 0) (hfuel : 1 ≤ fuel)
    (hp : pickChunk client.allocationStep data = some (sd, rest))
    (hsig : w.signOrder tr (client.unsignedOrder sd) = .ok sig)
    (hsend : w.send (tr ++ [.signOrder (client.unsignedOrder sd) none])
      (.order (signedOrder (client.unsignedOrder sd) sig)) = some e) :
    (client.Write w fuel tr data).tr
      = tr ++ [.signOrder (client.unsignedOrder sd) none,
          .send (.order (signedOrder (client.unsignedOrder sd) sig)) (some e)] := by
  rw [write_tr_eq_loop w client tr fuel data hfin hse]
  obtain ⟨f, rfl⟩ : ∃ f, fuel = f + 1 := ⟨fuel - 1, by omega⟩
  unfold Upload.writeLoop
  simp only [hdata, if_false]
  have hi : Upload.writeIter w { client := client, tr := tr, data := data, written := 0 }
      = .exit 0 (ErrClass.ErrProtocol.Wrap (some e)) { client with sendError := some e }
          (tr ++ [.signOrder (client.unsignedOrder sd) none,
            .send (.order (signedOrder (client.unsignedOrder sd) sig)) (some e)]) := by
    simp [Upload.writeIter, hp, hsig, hsend]
  rw [hi]
  rfl

/-- C12 (amended). Chunk size bound. (1) The chunk messages a `Write` passes to `Send`, the
`i`-th of them cut with the step in force then (the growth rule applied `i` times to
the step at the start of the call), satisfy, however the call ends: no chunk is
longer than its step; every chunk of the call except the last has exactly the length
of its step; and a chunk cut with a positive step has a length of at least 1, so
that with a step that is positive at every pass the last chunk has a length between
1 and its step. (2) With a positive step and data that is not empty a first chunk is
cut, and it is not empty. (3) A `Write` of data that is not empty on an open session
passes at least one chunk to `Send` when the order of its first chunk is signed and
sent, whatever the later signings and sends do. (4) A `Write` rejected by a guard (the
session is finished or holds a send error) adds nothing to the trace. (5) A `Write`
whose first order signing fails adds only the failed signing to the trace, and (6) a
`Write` whose first order is signed but whose `Send` fails adds only the signing and
the failed `Send`: in both cases no chunk is passed to `Send`. (7) A `Write` of empty
data adds nothing to the trace. -/
theorem chunk_sizes_bounded :
    (∀ (w : World) (client : Upload) (tr : Trace) (fuel : Nat) (data : List Byte),
      ∃ new, (client.Write w fuel tr data).tr = tr ++ new ∧
        ChunkSizes w.nextAllocationStep client.allocationStep (chunkMsgs new)) ∧
    (∀ (client : Upload) (data : List Byte),
      0 < client.allocationStep → data.length ≠ 0 →
      ∃ sd rest, pickChunk client.allocationStep data = some (sd, rest) ∧
        rest.length < data.length) ∧
    (∀ (w : World) (client : Upload) (tr : Trace) (data : List Byte) (fuel : Nat)
        (sd rest sig : List Byte),
      client.finished = false → client.sendError = none → data.length ≠ 0 → 1 ≤ fuel →
      pickChunk client.allocationStep data = some (sd, rest) →
      w.signOrder tr (client.unsignedOrder sd) = .ok sig →
      w.send (tr ++ [.signOrder (client.unsignedOrder sd) none])
        (.order (signedOrder (client.unsignedOrder sd) sig)) = none →
      (chunkMsgs tr).length < (chunkMsgs (client.Write w fuel tr data).tr).length) ∧
    (∀ (w : World) (client : Upload) (tr : Trace) (fuel : Nat) (data : List Byte),
      client.finished = true ∨ client.sendError ≠ none →
      (client.Write w fuel tr data).tr = tr) ∧
    (∀ (w : World) (client : Upload) (tr : Trace) (data : List Byte) (fuel : Nat)
        (sd rest : List Byte) (e : Err),
      client.finished = false → client.sendError = none → data.length ≠ 0 → 1 ≤ fuel →
      pickChunk client.allocationStep data = some (sd, rest) →
      w.signOrder tr (client.unsignedOrder sd) = .error e →
      (client.Write w fuel tr data).tr
        = tr ++ [.signOrder (client.unsignedOrder sd) (some e)] ∧
      chunkMsgs (client.Write w fuel tr data).tr = chunkMsgs tr) ∧
    (∀ (w : World) (client : Upload) (tr : Trace) (data : List Byte) (fuel : Nat)
        (sd rest sig : List Byte) (e : Err),
      client.finished = false → client.sendError = none → data.length ≠ 0 → 1 ≤ fuel →
      pickChunk client.allocationStep data = some (sd, rest) →
      w.signOrder tr (client.unsignedOrder sd) = .ok sig →
      w.send (tr ++ [.signOrder (client.unsignedOrder sd) none])
        (.order (signedOrder (client.unsignedOrder sd) sig)) = some e →
      (client.Write w fuel tr data).tr
        = tr ++ [.signOrder (client.unsignedOrder sd) none,
            .send (.order (signedOrder (client.unsignedOrder sd) sig)) (some e)] ∧
      chunkMsgs (client.Write w fuel tr data).tr = chunkMsgs tr) ∧
    (∀ (w : World) (client : Upload) (tr : Trace) (fuel : Nat),
      (client.Write w fuel tr []).tr = tr) := by
  refine ⟨?_, ?_, ?_, ?_, ?_, ?_, ?_⟩
  · intro w client tr fuel data
    have hnil : ChunkSizes w.nextAllocationStep client.allocationStep (chunkMsgs []) := by
      intro i c hc
      simp [chunkMsgs, msgs] at hc
    by_cases hfin : client.finished = true
    · exact ⟨[], by simp [Upload.Write, hfin, Outcome.tr], hnil⟩
    · have hfin2 : client.finished = false := by simpa using hfin
      cases hse : client.sendError with
      | some e => exact ⟨[], by simp [Upload.Write, hfin2, hse, Outcome.tr], hnil⟩
      | none =>
        rw [write_tr_eq_loop w client tr fuel data hfin2 hse]
        have hl := writeLoop_chunk_sizes w client tr data fuel hse
        cases hloop : Upload.writeLoop w fuel
            { client := client, tr := tr, data := data, written := 0 } with
        | returned n err c t => rw [hloop] at hl; exact hl
        | panicked n c t => rw [hloop] at hl; exact hl
        | outOfFuel c t => rw [hloop] at hl; exact hl
  · intro client data hstep hdata
    exact pickChunk_pos hstep hdata
  · intro w client tr data fuel sd rest sig hfin hse hdata hfuel hp hsig hsend
    exact write_sends_first_chunk w client tr data fuel sd rest sig hfin hse hdata hfuel hp
      hsig hsend
  · intro w client tr fuel data h
    exact write_rejected_tr w client tr fuel data h
  · intro w client tr data fuel sd rest e hfin hse hdata hfuel hp hsig
    have ht := write_first_sign_fails w client tr data fuel sd rest e hfin hse hdata hfuel hp
      hsig
    refine ⟨ht, ?_⟩
    rw [ht]
    simp [chunkMsgs_append, chunkMsgs, msgs, Event.msg?, Msg.chunk?]
  · intro w client tr data fuel sd rest sig e hfin hse hdata hfuel hp hsig hsend
    have ht := write_first_order_send_fails w client tr data fuel sd rest sig e hfin hse hdata
      hfuel hp hsig hsend
    refine ⟨ht, ?_⟩
    rw [ht]
    simp [chunkMsgs_append, chunkMsgs, msgs, Event.msg?, Msg.chunk?]
  · intro w client tr fuel
    unfold Upload.Write
    split
    · rfl
    · split
      · rfl
      · unfold Upload.writeLoop
        cases fuel <;> simp [Outcome.tr]

/-- Instance of `chunk_sizes_bounded`: six bytes written with a step that starts at 2 and
grows by half, in a world where every call succeeds; the same `Write` in a world
where only the first order is sent; a `Write` on a finished session; and a `Write` of
one byte whose first order signing fails, or whose first order is not sent. -/
theorem chunk_sizes_bounded_witness :
    (∃ new, ((Upload.fresh sampleLimit 2).Write World.ok 6 [] [1, 2, 3, 4, 5, 6]).tr
        = [] ++ new ∧
      ChunkSizes World.ok.nextAllocationStep (Upload.fresh sampleLimit 2).allocationStep
        (chunkMsgs new)) ∧
    (0 < (Upload.fresh sampleLimit 2).allocationStep ∧
      ∃ sd rest, pickChunk (Upload.fresh sampleLimit 2).allocationStep [1, 2, 3, 4, 5, 6]
          = some (sd, rest) ∧
        rest.length < [(1 : Byte), 2, 3, 4, 5, 6].length) ∧
    ((Upload.fresh sampleLimit 2).finished = false ∧
      (Upload.fresh sampleLimit 2).sendError = none ∧
      pickChunk (Upload.fresh sampleLimit 2).allocationStep [1, 2, 3, 4, 5, 6]
        = some ([1, 2], [3, 4, 5, 6]) ∧
      World.laterOrdersFail.signOrder [] ((Upload.fresh sampleLimit 2).unsignedOrder [1, 2])
        = .ok [1] ∧
      World.laterOrdersFail.send
        ([] ++ [.signOrder ((Upload.fresh sampleLimit 2).unsignedOrder [1, 2]) none])
        (.order (signedOrder ((Upload.fresh sampleLimit 2).unsignedOrder [1, 2]) [1])) = none ∧
      (chunkMsgs ([] : Trace)).length
        < (chunkMsgs ((Upload.fresh sampleLimit 2).Write World.laterOrdersFail 6 []
            [1, 2, 3, 4, 5, 6]).tr).length) ∧
    ((sampleFinished.finished = true ∨ sampleFinished.sendError ≠ none) ∧
      (sampleFinished.Write World.ok 3 [] [1, 2, 3]).tr = []) ∧
    (World.signFailsFirst.signOrder [] ((Upload.fresh sampleLimit 4).unsignedOrder [7])
        = .error (.other 7) ∧
      ((Upload.fresh sampleLimit 4).Write World.signFailsFirst 1 [] [7]).tr
        = [] ++ [.signOrder ((Upload.fresh sampleLimit 4).unsignedOrder [7])
            (some (.other 7))] ∧
      chunkMsgs ((Upload.fresh sampleLimit 4).Write World.signFailsFirst 1 [] [7]).tr
        = chunkMsgs []) ∧
    (World.orderSendFails.send
        ([] ++ [.signOrder ((Upload.fresh sampleLimit 4).unsignedOrder [7]) none])
        (.order (signedOrder ((Upload.fresh sampleLimit 4).unsignedOrder [7]) [1]))
        = some (.other 6) ∧
      ((Upload.fresh sampleLimit 4).Write World.orderSendFails 1 [] [7]).tr
        = [] ++ [.signOrder ((Upload.fresh sampleLimit 4).unsignedOrder [7]) none,
            .send (.order (signedOrder ((Upload.fresh sampleLimit 4).unsignedOrder [7]) [1]))
              (some (.other 6))] ∧
      chunkMsgs ((Upload.fresh sampleLimit 4).Write World.orderSendFails 1 [] [7]).tr
        = chunkMsgs []) :=
  ⟨chunk_sizes_bounded.1 World.ok (Upload.fresh sampleLimit 2) [] 6 [1, 2, 3, 4, 5, 6],
   ⟨by decide,
    chunk_sizes_bounded.2.1 (Upload.fresh sampleLimit 2) [1, 2, 3, 4, 5, 6]
      (by decide) (by decide)⟩,
   ⟨rfl, rfl, rfl, rfl, rfl,
    chunk_sizes_bounded.2.2.1 World.laterOrdersFail (Upload.fresh sampleLimit 2) []
      [1, 2, 3, 4, 5, 6] 6 [1, 2] [3, 4, 5, 6] [1]
      rfl rfl (by decide) (by decide) rfl rfl rfl⟩,
   ⟨Or.inl rfl,
    chunk_sizes_bounded.2.2.2.1 World.ok sampleFinished [] 3 [1, 2, 3] (Or.inl rfl)⟩,
   ⟨rfl,
    chunk_sizes_bounded.2.2.2.2.1 World.signFailsFirst (Upload.fresh sampleLimit 4) [] [7] 1
      [7] [] (.other 7) rfl rfl (by decide) (by decide) rfl rfl⟩,
   ⟨rfl,
    chunk_sizes_bounded.2.2.2.2.2.1 World.orderSendFails (Upload.fresh sampleLimit 4) [] [7] 1
      [7] [] [1] (.other 6) rfl rfl (by decide) (by decide) rfl rfl rfl⟩⟩

/-- C12 as stated fails: on a fresh session with the positive step 4, a `Write` of one
byte whose order signing fails passes no chunk to `Send`. -/
theorem write_of_data_without_chunk :
    (Upload.fresh sampleLimit 4).Write World.signFailsFirst 1 [] [7]
      = .returned (0, some (.classed .ErrInternal (.other 7)))
          (Upload.fresh sampleLimit 4) sampleSignFailTrace ∧
    chunkMsgs sampleSignFailTrace = [] ∧ [(7 : Byte)] ≠ [] :=
  ⟨rfl, rfl, by decide⟩

/-! ## Scenario A: 3000 bytes with an initial step of 1024 -/

theorem pickChunk_lt {step : Int} {data : List Byte} (h0 : 0 ≤ step)
    (hlt : step < (data.length : Int)) :
    pickChunk step data = some (data.take step.toNat, data.drop step.toNat) := by
  unfold pickChunk
  have : ¬ step < 0 := by omega
  simp [hlt, this]

theorem pickChunk_ge {step : Int} {data : List Byte} (hge : (data.length : Int) ≤ step) :
    pickChunk step data = some (data, []) := by
  unfold pickChunk
  have : ¬ step < (data.length : Int) := by omega
  simp [this]

/-- Where every signing and every `Send` succeeds, a pass of the loop of `Write` over data
that is not empty sends the chunk picked and the loop goes on with the rest. -/
theorem writeLoop_succ_allSucceed (w : World) (hw : w.allSucceed) (fuel : Nat) (s : LoopState)
    (sendData rest : List Byte)
    (hp : pickChunk s.client.allocationStep s.data = some (sendData, rest))
    (hd : s.data.length ≠ 0) :
    ∃ sig, Upload.writeLoop w (fuel + 1) s =
      Upload.writeLoop w fuel
        { client :=
            { s.client with
              offset := s.client.offset + (sendData.length : Int),
              allocationStep := w.nextAllocationStep s.client.allocationStep },
          tr := s.tr ++ [.signOrder (s.client.unsignedOrder sendData) none,
                  .send (.order (signedOrder (s.client.unsignedOrder sendData) sig)) none,
                  .send (.chunk s.client.offset sendData) none],
          data := rest,
          written := s.written + sendData.length } := by
  obtain ⟨sig, hi⟩ := writeIter_allSucceed w hw s sendData rest hp
  refine ⟨sig, ?_⟩
  conv_lhs => unfold Upload.writeLoop
  simp only [hd, if_false, hi]

/-- The loop of `Write` over no data returns at once. -/
theorem writeLoop_nil (w : World) (fuel : Nat) (s : LoopState) (hd : s.data = []) :
    Upload.writeLoop w fuel s = .returned s.written none s.client s.tr := by
  unfold Upload.writeLoop
  simp [hd]

/-- C13 (amended). Scenario A. On a fresh session with the initial allocation step 1024,
where every signing and every `Send` succeeds and the growth rule makes of 1024 a
step of at least 1976 (and does not make that step smaller again), a single `Write`
of 3000 bytes sends exactly two chunks: the first 1024 bytes at offset 0 and the
remaining 1976 bytes at offset 1024, each directly preceded by its order, with the
amounts 1024 and 3000; it returns `(3000, nil)`, and the allocation step it leaves
is at least the step used for the second chunk. -/
theorem scenario_two_chunks (w : World) (limit : OrderLimit) (tr : Trace) (data : List Byte)
    (fuel : Nat) (hw : w.allSucceed) (hlen : data.length = 3000) (hfuel : 2 ≤ fuel)
    (hnext : 1976 ≤ w.nextAllocationStep 1024)
    (hmono : w.nextAllocationStep 1024 ≤ w.nextAllocationStep (w.nextAllocationStep 1024)) :
    ∃ sig1 sig2 c,
      (Upload.fresh limit 1024).Write w fuel tr data = .returned (3000, none) c
        (tr ++
          [.signOrder { serialNumber := limit.serialNumber, amount := 1024, signature := [] } none,
           .send (.order
              { serialNumber := limit.serialNumber, amount := 1024, signature := sig1 }) none,
           .send (.chunk 0 (data.take 1024)) none,
           .signOrder { serialNumber := limit.serialNumber, amount := 3000, signature := [] } none,
           .send (.order
              { serialNumber := limit.serialNumber, amount := 3000, signature := sig2 }) none,
           .send (.chunk 1024 (data.drop 1024)) none]) ∧
      (data.take 1024).length = 1024 ∧ (data.drop 1024).length = 1976 ∧
      c.allocationStep = w.nextAllocationStep (w.nextAllocationStep 1024) ∧
      w.nextAllocationStep 1024 ≤ c.allocationStep := by
  obtain ⟨f, rfl⟩ : ∃ f, fuel = f + 1 + 1 := ⟨fuel - 2, by omega⟩
  have htake : (data.take 1024).length = 1024 := by simp [hlen]
  have hdrop : (data.drop 1024).length = 1976 := by simp [hlen]
  have hp1 : pickChunk (Upload.fresh limit 1024).allocationStep data
      = some (data.take 1024, data.drop 1024) := by
    have := @pickChunk_lt 1024 data (by decide) (by rw [hlen]; decide)
    simpa [Upload.fresh] using this
  obtain ⟨sig1, h1⟩ := writeLoop_succ_allSucceed w hw (f + 1)
    { client := Upload.fresh limit 1024, tr := tr, data := data, written := 0 }
    (data.take 1024) (data.drop 1024) hp1 (by simp [hlen])
  have hp2 : pickChunk (w.nextAllocationStep 1024) (data.drop 1024)
      = some (data.drop 1024, []) :=
    pickChunk_ge (by rw [hdrop]; exact_mod_cast hnext)
  obtain ⟨sig2, h2⟩ := writeLoop_succ_allSucceed w hw f
    { client :=
        { Upload.fresh limit 1024 with
          offset := (Upload.fresh limit 1024).offset + ((data.take 1024).length : Int),
          allocationStep := w.nextAllocationStep (Upload.fresh limit 1024).allocationStep },
      tr := tr ++ [.signOrder ((Upload.fresh limit 1024).unsignedOrder (data.take 1024)) none,
              .send (.order (signedOrder
                ((Upload.fresh limit 1024).unsignedOrder (data.take 1024)) sig1)) none,
              .send (.chunk (Upload.fresh limit 1024).offset (data.take 1024)) none],
      data := data.drop 1024,
      written := 0 + (data.take 1024).length }
    (data.drop 1024) [] hp2 (by simp [hlen])
  have hloop := h1.trans (h2.trans (writeLoop_nil w f _ rfl))
  refine ⟨sig1, sig2,
    { limit := limit, hash := data, offset := 3000,
      allocationStep := w.nextAllocationStep (w.nextAllocationStep 1024),
      finished := false, sendError := none }, ?_, htake, hdrop, rfl, hmono⟩
  unfold Upload.Write
  simp only [Upload.fresh, Bool.false_eq_true, if_false] at hloop ⊢
  rw [hloop]
  have hall : List.take (0 + (List.take 1024 data).length + (List.drop 1024 data).length) data
      = data := by
    rw [htake, hdrop]
    exact List.take_of_length_le (by omega)
  simp only [Upload.hashWritten, hall, Upload.unsignedOrder, signedOrder, htake, hdrop,
    List.append_assoc, List.cons_append, List.nil_append, List.singleton_append]
  norm_num
  omega

/-- Instance of `scenario_two_chunks`: 3000 zero bytes written in a world where every call
succeeds and the step doubles. -/
theorem scenario_two_chunks_witness :
    World.doubling.allSucceed ∧ (List.replicate 3000 (0 : Byte)).length = 3000 ∧
    1976 ≤ World.doubling.nextAllocationStep 1024 ∧
    World.doubling.nextAllocationStep 1024
      ≤ World.doubling.nextAllocationStep (World.doubling.nextAllocationStep 1024) ∧
    ∃ sig1 sig2 c,
      (Upload.fresh sampleLimit 1024).Write World.doubling 2 [] (List.replicate 3000 (0 : Byte))
        = .returned (3000, none) c
        ([] ++
          [.signOrder
              { serialNumber := sampleLimit.serialNumber, amount := 1024, signature := [] } none,
           .send (.order
              { serialNumber := sampleLimit.serialNumber, amount := 1024, signature := sig1 }) none,
           .send (.chunk 0 ((List.replicate 3000 (0 : Byte)).take 1024)) none,
           .signOrder
              { serialNumber := sampleLimit.serialNumber, amount := 3000, signature := [] } none,
           .send (.order
              { serialNumber := sampleLimit.serialNumber, amount := 3000, signature := sig2 }) none,
           .send (.chunk 1024 ((List.replicate 3000 (0 : Byte)).drop 1024)) none]) ∧
      ((List.replicate 3000 (0 : Byte)).take 1024).length = 1024 ∧
      ((List.replicate 3000 (0 : Byte)).drop 1024).length = 1976 ∧
      c.allocationStep
        = World.doubling.nextAllocationStep (World.doubling.nextAllocationStep 1024) ∧
      World.doubling.nextAllocationStep 1024 ≤ c.allocationStep :=
  ⟨⟨fun _ _ => ⟨[1], rfl⟩, fun _ _ => rfl⟩, List.length_replicate _ _, by decide, by decide,
   scenario_two_chunks World.doubling sampleLimit [] (List.replicate 3000 (0 : Byte)) 2
     ⟨fun _ _ => ⟨[1], rfl⟩, fun _ _ => rfl⟩ (List.length_replicate _ _) (le_refl 2)
     (by decide) (by decide)⟩

/-- Where the growth rule makes of 1024 the step 1536, and of 1536 a step of at least 440,
a `Write` of 3000 bytes on a fresh session with the initial step 1024 sends three
chunks: 1024 bytes at offset 0, 1536 bytes at offset 1024 and 440 bytes at offset 2560. -/
theorem scenario_three_chunks (w : World) (limit : OrderLimit) (tr : Trace) (data : List Byte)
    (fuel : Nat) (hw : w.allSucceed) (hlen : data.length = 3000) (hfuel : 3 ≤ fuel)
    (hnext : w.nextAllocationStep 1024 = 1536) (hnext2 : 440 ≤ w.nextAllocationStep 1536) :
    ∃ c new,
      (Upload.fresh limit 1024).Write w fuel tr data = .returned (3000, none) c (tr ++ new) ∧
      chunkMsgs new = [(0, data.take 1024), (1024, (data.drop 1024).take 1536),
        (2560, (data.drop 1024).drop 1536)] := by
  obtain ⟨f, rfl⟩ : ∃ f, fuel = f + 1 + 1 + 1 := ⟨fuel - 3, by omega⟩
  have htake : (data.take 1024).length = 1024 := by simp [hlen]
  have htake2 : ((data.drop 1024).take 1536).length = 1536 := by simp [hlen]
  have hdrop2 : ((data.drop 1024).drop 1536).length = 440 := by simp [hlen]
  have hp1 : pickChunk (1024 : Int) data = some (data.take 1024, data.drop 1024) := by
    have := @pickChunk_lt 1024 data (by decide) (by rw [hlen]; decide)
    simpa using this
  have hp2 : pickChunk (1536 : Int) (data.drop 1024)
      = some ((data.drop 1024).take 1536, (data.drop 1024).drop 1536) := by
    have := @pickChunk_lt 1536 (data.drop 1024) (by decide)
      (by rw [List.length_drop, hlen]; decide)
    simpa using this
  have hp3 : pickChunk (w.nextAllocationStep 1536) ((data.drop 1024).drop 1536)
      = some ((data.drop 1024).drop 1536, []) :=
    pickChunk_ge (by rw [hdrop2]; exact_mod_cast hnext2)
  obtain ⟨sig1, h1⟩ := writeLoop_succ_allSucceed w hw (f + 1 + 1)
    { client := { limit := limit, hash := [], offset := 0, allocationStep := 1024,
                  finished := false, sendError := none },
      tr := tr, data := data, written := 0 }
    (data.take 1024) (data.drop 1024) hp1 (by simp [hlen])
  simp only [Upload.unsignedOrder, signedOrder, htake, hnext, zero_add, Nat.cast_ofNat] at h1
  obtain ⟨sig2, h2⟩ := writeLoop_succ_allSucceed w hw (f + 1)
    { client := { limit := limit, hash := [], offset := 1024, allocationStep := 1536,
                  finished := false, sendError := none },
      tr := tr ++
        [.signOrder { serialNumber := limit.serialNumber, amount := 1024, signature := [] } none,
         .send (.order
            { serialNumber := limit.serialNumber, amount := 1024, signature := sig1 }) none,
         .send (.chunk 0 (data.take 1024)) none],
      data := data.drop 1024, written := 1024 }
    ((data.drop 1024).take 1536) ((data.drop 1024).drop 1536) hp2 (by simp [hlen])
  simp only [Upload.unsignedOrder, signedOrder, htake2, Nat.cast_ofNat, List.append_assoc,
    List.cons_append, List.nil_append] at h2
  norm_num at h2
  obtain ⟨sig3, h3⟩ := writeLoop_succ_allSucceed w hw f
    { client := { limit := limit, hash := [], offset := 2560,
                  allocationStep := w.nextAllocationStep 1536,
                  finished := false, sendError := none },
      tr := tr ++
        [.signOrder { serialNumber := limit.serialNumber, amount := 1024, signature := [] } none,
         .send (.order
            { serialNumber := limit.serialNumber, amount := 1024, signature := sig1 }) none,
         .send (.chunk 0 (data.take 1024)) none,
         .signOrder { serialNumber := limit.serialNumber, amount := 2560, signature := [] } none,
         .send (.order
            { serialNumber := limit.serialNumber, amount := 2560, signature := sig2 }) none,
         .send (.chunk 1024 ((data.drop 1024).take 1536)) none],
      data := (data.drop 1024).drop 1536, written := 2560 }
    ((data.drop 1024).drop 1536) [] hp3 (by simp [hlen])
  simp only [Upload.unsignedOrder, signedOrder, hdrop2, Nat.cast_ofNat, List.append_assoc,
    List.cons_append, List.nil_append] at h3
  norm_num at h3
  have hloop := h1.trans (h2.trans (h3.trans (writeLoop_nil w f _ rfl)))
  have hall : List.take 3000 data = data := List.take_of_length_le (by omega)
  refine ⟨{ limit := limit, hash := data, offset := 3000,
            allocationStep := w.nextAllocationStep (w.nextAllocationStep 1536),
            finished := false, sendError := none },
    [.signOrder { serialNumber := limit.serialNumber, amount := 1024, signature := [] } none,
     .send (.order { serialNumber := limit.serialNumber, amount := 1024, signature := sig1 }) none,
     .send (.chunk 0 (data.take 1024)) none,
     .signOrder { serialNumber := limit.serialNumber, amount := 2560, signature := [] } none,
     .send (.order { serialNumber := limit.serialNumber, amount := 2560, signature := sig2 }) none,
     .send (.chunk 1024 ((data.drop 1024).take 1536)) none,
     .signOrder { serialNumber := limit.serialNumber, amount := 3000, signature := [] } none,
     .send (.order { serialNumber := limit.serialNumber, amount := 3000, signature := sig3 }) none,
     .send (.chunk 2560 (data.drop 2560)) none], ?_, ?_⟩
  · unfold Upload.Write
    simp only [Upload.fresh, Bool.false_eq_true, if_false]
    rw [hloop]
    simp only [Upload.hashWritten, hall, List.nil_append]
  · simp [chunkMsgs, msgs, Event.msg?, Msg.chunk?]

/-- C13 as stated fails: on a fresh session with the initial step 1024, in a world where
every signing and every `Send` succeeds and the step grows by half (1024, 1536, 2304),
a single `Write` of 3000 bytes returns `(3000, nil)` after sending three chunks, not
two: 1024 bytes at offset 0, 1536 bytes at offset 1024 and 440 bytes at offset 2560. -/
theorem scenario_with_growth_by_half :
    World.growsByHalf.allSucceed ∧
    ∃ c new,
      (Upload.fresh sampleLimit 1024).Write World.growsByHalf 3 []
          (List.replicate 3000 (0 : Byte)) = .returned (3000, none) c ([] ++ new) ∧
      (chunkMsgs new).map (fun ch => (ch.1, ch.2.length))
        = [(0, 1024), (1024, 1536), (2560, 440)] := by
  refine ⟨⟨fun _ _ => ⟨[1], rfl⟩, fun _ _ => rfl⟩, ?_⟩
  obtain ⟨c, new, hW, hc⟩ := scenario_three_chunks World.growsByHalf sampleLimit []
    (List.replicate 3000 (0 : Byte)) 3 ⟨fun _ _ => ⟨[1], rfl⟩, fun _ _ => rfl⟩
    (List.length_replicate _ _) (le_refl 3) (by decide) (by decide)
  refine ⟨c, new, hW, ?_⟩
  rw [hc]
  simp only [List.map_cons, List.map_nil, List.length_take, List.length_drop,
    List.length_replicate]
  rfl

end Piecestore
